import Mathlib

/-!
Verification of the ezcp finite-domain constraint-programming engine.

Each Rust structure and function that the properties below mention is given
a shallow embedding: machine integers become `Nat`/`Int` with explicit
wrap-around where the source may overflow, structures become Lean
structures, fallible calls return `Option`, and the side effect of marking
the shared solver state failed is returned as an explicit `Bool`.
-/

namespace Ezcp

/-- Embeds `DomainState` from src/src/domain.rs. -/
inductive DomainState where
  | Same : DomainState
  | Modified : DomainState
  | Failed : DomainState
deriving DecidableEq, Repr

/-- Embeds `Event` from src/src/events.rs. -/
inductive Event where
  | Modified : Event
  | LowerBound : Event
  | UpperBound : Event
  | Assigned : Event
  | Removed : Event
deriving DecidableEq, Repr

/-- Population count of a 64-bit word, as `u64::count_ones`. -/
def popCount (x : Nat) : Nat :=
  ((List.range 64).filter (fun i => x.testBit i)).length

/-- Number of trailing zero bits of a 64-bit word, as `u64::trailing_zeros`:
64 when the word is zero. -/
def trailingZeros (x : Nat) : Nat :=
  (((List.range 64).filter (fun i => x.testBit i)).head?).getD 64

/-- Value `63 - leading_zeros` of a nonzero 64-bit word: the index of its
highest set bit.  The Rust sources only evaluate it on nonzero words. -/
def highBit (x : Nat) : Nat := Nat.log2 x

/-- Embeds `SmallDomain` from src/src/domain.rs: `body` is the 64-bit
bitmap (kept below 2^64 by construction), `start` the anchor, `lb`/`ub`
the cached bit indices, `checkpoints` the saved snapshots. -/
structure SmallDomain where
  body : Nat
  start : Int
  lb : Nat
  ub : Nat
  checkpoints : List (Nat × Int × Nat × Nat)
deriving DecidableEq, Repr

namespace SmallDomain

/-- Embeds `SmallDomain::new` (src/src/domain.rs).  Requires `ub - lb ≤ 63`
as at the single call site (`Variable::new`). -/
def init (lb ub : Int) : SmallDomain :=
  { body := if ub - lb = 63 then 2 ^ 64 - 1 else 2 ^ (ub - lb + 1).toNat - 1
    start := lb
    lb := 0
    ub := (ub - lb).toNat
    checkpoints := [] }

/-- Embeds `SmallDomain::discard`. -/
def discard (d : SmallDomain) (x : Nat) : SmallDomain :=
  { d with body := d.body &&& ((2 ^ 64 - 1) ^^^ (1 <<< x)) }

/-- Result of a mutating domain operation: the new domain, the returned
`DomainState`, and whether `solver_state.fail()` was called. -/
structure OpResult where
  dom : SmallDomain
  state : DomainState
  failed : Bool
deriving Repr

/-- Embeds `SmallDomain::assign`. -/
def assign (d : SmallDomain) (x : Int) : OpResult :=
  if x < d.start ∨ x ≥ d.start + 64 then
    ⟨d, DomainState.Failed, true⟩
  else
    let v := (x - d.start).toNat
    if d.body &&& (1 <<< v) = 0 then
      ⟨d, DomainState.Failed, true⟩
    else
      let modified := d.body ≠ 1 <<< v
      let d2 := { d with body := 1 <<< v, lb := v, ub := v }
      if modified then ⟨d2, DomainState.Modified, false⟩
      else ⟨d2, DomainState.Same, false⟩

/-- Embeds `SmallDomain::is_assigned`: popcount of `body` equals one. -/
def isAssigned (d : SmallDomain) : Bool :=
  (popCount d.body) = 1

/-- Embeds `SmallDomain::possible`. -/
def possible (d : SmallDomain) (x : Int) : Bool :=
  if x < d.start ∨ x ≥ d.start + 64 then false
  else d.body &&& (1 <<< (x - d.start).toNat) > 0

/-- Embeds `SmallDomain::remove`. -/
def remove (d : SmallDomain) (x : Int) : OpResult :=
  if x < d.start ∨ x ≥ d.start + 64 then
    ⟨d, DomainState.Same, false⟩
  else
    let v := (x - d.start).toNat
    let modified := d.body &&& (1 <<< v) > 0
    let d2 := d.discard v
    if d2.body = 0 then
      ⟨d2, DomainState.Failed, true⟩
    else
      let d3 := if v = d2.lb ∧ d2.body > 0 then { d2 with lb := trailingZeros d2.body } else d2
      let d4 := if v = d3.ub ∧ d3.body > 0 then { d3 with ub := highBit d3.body } else d3
      if modified then ⟨d4, DomainState.Modified, false⟩
      else ⟨d4, DomainState.Same, false⟩

/-- Embeds `SmallDomain::get_lb`. -/
def getLb (d : SmallDomain) : Int := (d.lb : Int) + d.start

/-- Embeds `SmallDomain::get_ub`. -/
def getUb (d : SmallDomain) : Int := (d.ub : Int) + d.start

/-- Clears bits `lo, lo+1, …, hi-1` of the body, as the `for` loops of
`set_lb`/`set_ub` do, reporting whether any cleared bit was set. -/
def clearStep (lo hi : Nat) (acc : Nat × Bool) (i : Nat) : Nat × Bool :=
  if lo ≤ i ∧ i < hi then
    (acc.1 &&& ((2 ^ 64 - 1) ^^^ (1 <<< i)), acc.2 || decide (0 < acc.1 &&& (1 <<< i)))
  else acc

def clearRange (body : Nat) (lo hi : Nat) : Nat × Bool :=
  (List.range 64).foldl (clearStep lo hi) (body, false)

/-- Embeds `SmallDomain::set_lb`. -/
def setLb (d : SmallDomain) (x : Int) : OpResult :=
  if x < d.start then ⟨d, DomainState.Same, false⟩
  else if x ≥ d.start + 64 then ⟨d, DomainState.Failed, true⟩
  else
    let y1 := (x - d.start).toNat
    if y1 > d.lb then
      let res := clearRange d.body d.lb y1
      let d2 := { d with body := res.1, lb := y1 }
      if res.2 then ⟨d2, DomainState.Modified, false⟩
      else ⟨d2, DomainState.Same, false⟩
    else ⟨d, DomainState.Same, false⟩

/-- Embeds `SmallDomain::set_ub`. -/
def setUb (d : SmallDomain) (x : Int) : OpResult :=
  if x < d.start then ⟨d, DomainState.Failed, true⟩
  else if x ≥ d.start + 64 then ⟨d, DomainState.Same, false⟩
  else
    let y1 := (x - d.start).toNat
    if y1 < d.ub then
      let res := clearRange d.body (y1 + 1) (d.ub + 1)
      let d2 := { d with body := res.1, ub := y1 }
      if res.2 then ⟨d2, DomainState.Modified, false⟩
      else ⟨d2, DomainState.Same, false⟩
    else ⟨d, DomainState.Same, false⟩

/-- Embeds `SmallDomain::checkpoint`. -/
def checkpoint (d : SmallDomain) : SmallDomain :=
  { d with checkpoints := (d.body, d.start, d.lb, d.ub) :: d.checkpoints }

/-- Embeds `SmallDomain::rollback`.  The source `unwrap`s the popped
checkpoint; an empty checkpoint stack is the panic case, returned as
`none`. -/
def rollback (d : SmallDomain) : Option SmallDomain :=
  match d.checkpoints with
  | [] => none
  | (b, s, l, u) :: rest =>
      some { body := b, start := s, lb := l, ub := u, checkpoints := rest }

/-- Embeds `SmallDomain::size`: popcount of the bitmap. -/
def size (d : SmallDomain) : Nat := popCount d.body

/-- Representation invariant of a live `SmallDomain` (spec §3): the bitmap
is a nonempty 64-bit word and the cached `lb`/`ub` index its lowest and
highest set bits. -/
def WF (d : SmallDomain) : Prop :=
  d.body ≠ 0 ∧ d.body < 2 ^ 64 ∧
  d.body.testBit d.lb ∧ d.body.testBit d.ub ∧
  ∀ i < 64, d.body.testBit i → d.lb ≤ i ∧ i ≤ d.ub

instance (d : SmallDomain) : Decidable (WF d) := by
  unfold WF; infer_instance

end SmallDomain

/-- Number of leading zero bits of a 64-bit word, as `u64::leading_zeros`. -/
def leadingZeros (x : Nat) : Nat :=
  if x = 0 then 64 else 63 - Nat.log2 x

/-- Embeds `BitsetDomain` from src/src/bitset.rs.  `data` is the block
array (64-bit words), `checkpoints` the stack of saved trails with its top
at the head, `modified` the per-block trail-index cache. -/
structure BitsetDomain where
  data : List Nat
  start : Int
  first_block : Nat
  last_block : Nat
  size : Nat
  checkpoints : List (List (Nat × Nat))
  trail : List (Nat × Nat)
  modified : List Nat
deriving DecidableEq, Repr

namespace BitsetDomain

/-- Embeds `BitsetDomain::new`. -/
def init (lb ub : Int) : BitsetDomain :=
  let size := (ub - lb + 1).toNat
  let blocks := size / 64 + (if size % 64 > 0 then 1 else 0)
  let base := List.replicate blocks (2 ^ 64 - 1)
  let data := if size % 64 > 0 then base.set (blocks - 1) (2 ^ (size % 64) - 1) else base
  { data := data
    start := lb
    first_block := 0
    last_block := blocks - 1
    size := size
    checkpoints := []
    trail := []
    modified := List.replicate blocks 0 }

/-- Embeds `BitsetDomain::save`: push the block's current value on the
trail unless this level already holds an entry for it. -/
def save (d : BitsetDomain) (block : Nat) : BitsetDomain :=
  if d.modified.getD block 0 ≥ d.trail.length ∨
      (d.trail.getD (d.modified.getD block 0) (0, 0)).1 ≠ block then
    { d with modified := d.modified.set block d.trail.length
             trail := d.trail ++ [(block, d.data.getD block 0)] }
  else d

/-- Result of a mutating `BitsetDomain` operation (mirrors
`SmallDomain.OpResult`). -/
structure BOpResult where
  dom : BitsetDomain
  state : DomainState
  failed : Bool
deriving Repr

/-- One step of `assign`'s zeroing loop: save the block when it is the
target or nonzero, then clear it. -/
def assignStep (block : Nat) (d : BitsetDomain) (i : Nat) : BitsetDomain :=
  let d1 := if i = block ∨ d.data.getD i 0 ≠ 0 then d.save i else d
  { d1 with data := d1.data.set i 0 }

/-- Embeds `BitsetDomain::assign`. -/
def assign (d : BitsetDomain) (x : Int) : BOpResult :=
  if x < d.start ∨ x ≥ d.start + (d.data.length : Int) * 64 then
    ⟨d, DomainState.Failed, true⟩
  else
    let id := (x - d.start).toNat
    let block := id / 64
    let shift := id % 64
    if d.data.getD block 0 &&& (1 <<< shift) = 0 then
      ⟨d, DomainState.Failed, true⟩
    else if d.size = 1 then
      ⟨d, DomainState.Same, false⟩
    else
      let d2 := (List.range' d.first_block (d.last_block + 1 - d.first_block)).foldl
        (assignStep block) d
      let d3 := { d2 with size := 1
                          data := d2.data.set block (1 <<< shift)
                          first_block := block
                          last_block := block }
      ⟨d3, DomainState.Modified, false⟩

/-- Index of the first nonzero block at or after `i`, with explicit fuel
(the Rust `while self.data[self.first_block] == 0` loop; the callers
guarantee a nonzero block exists). -/
def skipZerosUp (data : List Nat) (i fuel : Nat) : Nat :=
  match fuel with
  | 0 => i
  | fuel + 1 => if data.getD i 0 = 0 then skipZerosUp data (i + 1) fuel else i

/-- Index of the first nonzero block at or below `i`, with explicit fuel
(the Rust `while self.data[self.last_block] == 0` loop). -/
def skipZerosDown (data : List Nat) (i fuel : Nat) : Nat :=
  match fuel with
  | 0 => i
  | fuel + 1 => if data.getD i 0 = 0 then skipZerosDown data (i - 1) fuel else i

/-- Embeds `BitsetDomain::remove`. -/
def remove (d : BitsetDomain) (x : Int) : BOpResult :=
  if x < d.start ∨ x ≥ d.start + (d.data.length : Int) * 64 then
    ⟨d, DomainState.Same, false⟩
  else
    let id := (x - d.start).toNat
    let block := id / 64
    let shift := id % 64
    if d.data.getD block 0 &&& (1 <<< shift) = 0 then
      ⟨d, DomainState.Same, false⟩
    else
      let d1 := d.save block
      let d2 := { d1 with data := d1.data.set block (d1.data.getD block 0 ^^^ (1 <<< shift))
                          size := d1.size - 1 }
      if d2.size = 0 then
        ⟨d2, DomainState.Failed, true⟩
      else
        let d3 := { d2 with first_block := skipZerosUp d2.data d2.first_block d2.data.length }
        let d4 := { d3 with last_block := skipZerosDown d3.data d3.last_block (d3.last_block + 1) }
        ⟨d4, DomainState.Modified, false⟩

/-- Embeds `BitsetDomain::get_lb`. -/
def getLb (d : BitsetDomain) : Int :=
  d.start + ((d.first_block : Int) * 64 + (trailingZeros (d.data.getD d.first_block 0) : Int))

/-- Embeds `BitsetDomain::get_ub`: `63 - leading_zeros` of the last block,
which is its highest set bit (live states have a nonzero last block). -/
def getUb (d : BitsetDomain) : Int :=
  d.start + ((d.last_block : Int) * 64 + (highBit (d.data.getD d.last_block 0) : Int))

/-- One step of `set_lb`'s whole-block zeroing loop. -/
def setLbStep (d : BitsetDomain) (i : Nat) : BitsetDomain :=
  if d.data.getD i 0 ≠ 0 then
    let d1 := d.save i
    { d1 with size := d1.size - popCount (d1.data.getD i 0)
              data := d1.data.set i 0 }
  else d

/-- Embeds `BitsetDomain::set_lb`. -/
def setLb (d : BitsetDomain) (x : Int) : BOpResult :=
  if x ≤ d.getLb then ⟨d, DomainState.Same, false⟩
  else if x > d.getUb then ⟨d, DomainState.Failed, true⟩
  else
    let id := (x - d.start).toNat
    let block := id / 64
    let shift := id % 64
    if block ≥ d.first_block then
      let old_size := d.size
      let d2 := (List.range' d.first_block (block - d.first_block)).foldl setLbStep d
      let d3 :=
        if shift > trailingZeros (d2.data.getD block 0) then
          let d2s := d2.save block
          { d2s with
              size := d2s.size - popCount (d2s.data.getD block 0 &&& ((1 <<< shift) - 1))
              data := d2s.data.set block
                (d2s.data.getD block 0 &&& ((2 ^ 64 - 1) ^^^ ((1 <<< shift) - 1))) }
        else d2
      if d3.size = 0 then ⟨d3, DomainState.Failed, true⟩
      else
        let d4 := { d3 with first_block := skipZerosUp d3.data d3.first_block d3.data.length }
        if old_size ≠ d4.size then ⟨d4, DomainState.Modified, false⟩
        else ⟨d4, DomainState.Same, false⟩
    else ⟨d, DomainState.Same, false⟩

/-- One step of `set_ub`'s whole-block zeroing loop. -/
def setUbStep (d : BitsetDomain) (i : Nat) : BitsetDomain :=
  if d.data.getD i 0 ≠ 0 then
    let d1 := d.save i
    { d1 with size := d1.size - popCount (d1.data.getD i 0)
              data := d1.data.set i 0 }
  else d

/-- Embeds `BitsetDomain::set_ub`.  The Rust expression `(2u64 << shift) - 1`
wraps to `u64::MAX` at `shift = 63`; `2 <<< shift - 1` over `Nat` yields the
same 64-bit value, so no explicit reduction is needed. -/
def setUb (d : BitsetDomain) (x : Int) : BOpResult :=
  if x < d.getLb then ⟨d, DomainState.Failed, true⟩
  else if x ≥ d.getUb then ⟨d, DomainState.Same, false⟩
  else
    let id := (x - d.start).toNat
    let block := id / 64
    let shift := id % 64
    if block ≤ d.last_block then
      let old_size := d.size
      let d2 := (List.range' (block + 1) (d.last_block + 1 - (block + 1))).foldl setUbStep d
      let d3 :=
        if leadingZeros (d2.data.getD block 0) < 63 - shift then
          let d2s := d2.save block
          { d2s with
              size := d2s.size - popCount (d2s.data.getD block 0 &&&
                ((2 ^ 64 - 1) ^^^ ((2 <<< shift) - 1)))
              data := d2s.data.set block (d2s.data.getD block 0 &&& ((2 <<< shift) - 1)) }
        else d2
      if d3.size = 0 then ⟨d3, DomainState.Failed, true⟩
      else
        let d4 := { d3 with last_block := skipZerosDown d3.data d3.last_block (d3.last_block + 1) }
        if old_size ≠ d4.size then ⟨d4, DomainState.Modified, false⟩
        else ⟨d4, DomainState.Same, false⟩
    else ⟨d, DomainState.Same, false⟩

/-- Embeds `BitsetDomain::checkpoint`: the current trail is pushed onto the
checkpoint stack (head of the list) and emptied.  `modified` is left as is,
exactly as in the source. -/
def checkpoint (d : BitsetDomain) : BitsetDomain :=
  { d with checkpoints := d.trail :: d.checkpoints
           trail := [] }

/-- One step of `rollback`'s replay loop. -/
def rollbackStep (d : BitsetDomain) (e : Nat × Nat) : BitsetDomain :=
  let delta := e.2 ^^^ d.data.getD e.1 0
  if delta = 0 then d
  else
    let d1 := { d with size := d.size + popCount delta
                       data := d.data.set e.1 (d.data.getD e.1 0 ^^^ delta) }
    let d2 := if e.1 < d1.first_block then { d1 with first_block := e.1 } else d1
    if e.1 > d2.last_block then { d2 with last_block := e.1 } else d2

/-- Embeds `BitsetDomain::rollback`.  The source `unwrap`s the popped
checkpoint; an empty checkpoint stack is the panic case, returned as
`none`. -/
def rollback (d : BitsetDomain) : Option BitsetDomain :=
  match d.checkpoints with
  | [] => none
  | top :: rest =>
      let d1 := d.trail.foldl rollbackStep d
      some { d1 with trail := top, checkpoints := rest }

end BitsetDomain

/-! ### The Variable facade (src/src/variable.rs)

A `Variable` forwards each mutation to its domain and fires events through
`notify_listeners`.  The functions below return the mutated domain together
with the ordered list of `notify_listeners` calls the Rust method makes. -/

namespace Variable

open SmallDomain

/-- Embeds `Variable::assign`: notifies `Assigned` then `Modified` exactly
when the domain operation reports `Modified`. -/
def assign (d : SmallDomain) (x : Int) : OpResult × List Event :=
  let r := SmallDomain.assign d x
  (r, if r.state = DomainState.Modified then [Event.Assigned, Event.Modified] else [])

/-- Embeds `Variable::remove`: notifies `LowerBound` when `x` equals the
current lower bound and `UpperBound` when `x` equals the current upper
bound, both before mutating, then `Modified` when the domain operation
reports `Modified`. -/
def remove (d : SmallDomain) (x : Int) : OpResult × List Event :=
  let r := SmallDomain.remove d x
  (r, (if getLb d = x then [Event.LowerBound] else []) ++
      (if getUb d = x then [Event.UpperBound] else []) ++
      (if r.state = DomainState.Modified then [Event.Modified] else []))

/-- Embeds `Variable::set_lb`: notifies `LowerBound` then `Modified`
exactly when the domain operation reports `Modified`. -/
def setLb (d : SmallDomain) (x : Int) : OpResult × List Event :=
  let r := SmallDomain.setLb d x
  (r, if r.state = DomainState.Modified then [Event.LowerBound, Event.Modified] else [])

/-- Embeds `Variable::set_ub`: notifies `UpperBound` then `Modified`
exactly when the domain operation reports `Modified`. -/
def setUb (d : SmallDomain) (x : Int) : OpResult × List Event :=
  let r := SmallDomain.setUb d x
  (r, if r.state = DomainState.Modified then [Event.UpperBound, Event.Modified] else [])

/-- Embeds `Variable::value`: panics (`none`) when `get_lb ≠ get_ub`,
otherwise returns the bound.  The second component records whether the
call touched the shared failed flag; the Rust body never calls
`solver_state.fail()`, so it is the constant `false`. -/
def value (d : SmallDomain) : Option Int × Bool :=
  (if getLb d ≠ getUb d then none else some (getLb d), false)

end Variable

/-- The event list claim C5 predicts for one mutation taking the domain
from `before` to `after`.  This definition follows the specification words
(spec §4.2: on a genuine change, LowerBound/UpperBound if the bound moved,
then Assigned if now a singleton, then Modified), not the source; it is
compared against the source behaviour. -/
def claimedEventsC5 (before after : SmallDomain) : List Event :=
  if before.body = after.body then []
  else
    (if SmallDomain.getLb before ≠ SmallDomain.getLb after then [Event.LowerBound] else []) ++
    (if SmallDomain.getUb before ≠ SmallDomain.getUb after then [Event.UpperBound] else []) ++
    (if SmallDomain.isAssigned after then [Event.Assigned] else []) ++
    [Event.Modified]

/-- One allowed domain mutation (claim C4). -/
inductive Mut where
  | assign (x : Int) : Mut
  | remove (x : Int) : Mut
  | setLb (x : Int) : Mut
  | setUb (x : Int) : Mut
deriving DecidableEq, Repr

/-- Apply one mutation to a `SmallDomain`, keeping the resulting domain. -/
def SmallDomain.applyMut (d : SmallDomain) (m : Mut) : SmallDomain :=
  match m with
  | Mut.assign x => (SmallDomain.assign d x).dom
  | Mut.remove x => (SmallDomain.remove d x).dom
  | Mut.setLb x => (SmallDomain.setLb d x).dom
  | Mut.setUb x => (SmallDomain.setUb d x).dom

/-- Apply a sequence of mutations to a `SmallDomain`. -/
def SmallDomain.applyMuts (d : SmallDomain) (ms : List Mut) : SmallDomain :=
  ms.foldl SmallDomain.applyMut d

/-- Apply one mutation to a `BitsetDomain`, keeping the resulting domain. -/
def BitsetDomain.applyMut (d : BitsetDomain) (m : Mut) : BitsetDomain :=
  match m with
  | Mut.assign x => (BitsetDomain.assign d x).dom
  | Mut.remove x => (BitsetDomain.remove d x).dom
  | Mut.setLb x => (BitsetDomain.setLb d x).dom
  | Mut.setUb x => (BitsetDomain.setUb d x).dom

/-- Apply a sequence of mutations to a `BitsetDomain`. -/
def BitsetDomain.applyMuts (d : BitsetDomain) (ms : List Mut) : BitsetDomain :=
  ms.foldl BitsetDomain.applyMut d

/-- All mutations of the sequence leave the domain nonempty (claim C4's
side condition). -/
def BitsetDomain.NoEmpty : BitsetDomain → List Mut → Prop
  | _, [] => True
  | d, m :: ms => (d.applyMut m).size ≠ 0 ∧ (d.applyMut m).NoEmpty ms

/-- Representation invariant of a live `BitsetDomain` (spec §3): blocks
are 64-bit words, `size` is the total popcount, `first_block`/`last_block`
delimit the nonzero blocks, and `modified` has one slot per block. -/
def BitsetDomain.Shape (d : BitsetDomain) : Prop :=
  (∀ w ∈ d.data, w < 2 ^ 64) ∧
  d.size = (d.data.map popCount).sum ∧
  d.first_block ≤ d.last_block ∧
  d.last_block < d.data.length ∧
  d.data.getD d.first_block 0 ≠ 0 ∧
  d.data.getD d.last_block 0 ≠ 0 ∧
  (∀ i < d.first_block, d.data.getD i 0 = 0) ∧
  (∀ i, d.last_block < i → d.data.getD i 0 = 0) ∧
  d.modified.length = d.data.length

/-- Trail coherence of a `BitsetDomain` relative to the block array `base`
saved at the active checkpoint: every trail entry points into `base`,
`modified` points back at the entry, the entry holds the block's value at
checkpoint time, untrailed blocks still hold their checkpoint value, and
every current block is a bitwise subset of its checkpoint value. -/
def BitsetDomain.Trailed (base : List Nat) (d : BitsetDomain) : Prop :=
  d.data.length = base.length ∧
  (∀ p, p < d.trail.length →
    (d.trail.getD p (0, 0)).1 < base.length ∧
    d.modified.getD (d.trail.getD p (0, 0)).1 0 = p ∧
    (d.trail.getD p (0, 0)).2 = base.getD (d.trail.getD p (0, 0)).1 0) ∧
  (∀ b, b < base.length → (∀ p, p < d.trail.length → (d.trail.getD p (0, 0)).1 ≠ b) →
    d.data.getD b 0 = base.getD b 0) ∧
  (∀ b j, (d.data.getD b 0).testBit j = true → (base.getD b 0).testBit j = true)

/-! ### The Solver variable registry (src/src/solver.rs) -/

/-- A stored `Variable` (src/src/variable.rs): its name and its domain,
chosen compact or bitset exactly as `Variable::new` does. -/
structure VarRec where
  name : String
  dom : Sum SmallDomain BitsetDomain
deriving Repr

/-- Embeds `Variable::new`. -/
def VarRec.make (lb ub : Int) (name : String) : VarRec :=
  { name := name
    dom := if ub - lb ≤ 63 then Sum.inl (SmallDomain.init lb ub)
           else Sum.inr (BitsetDomain.init lb ub) }

/-- Embeds `Variable::get_lb` over either representation. -/
def VarRec.getLb (v : VarRec) : Int :=
  match v.dom with
  | Sum.inl d => SmallDomain.getLb d
  | Sum.inr d => BitsetDomain.getLb d

/-- Embeds `Variable::get_ub` over either representation. -/
def VarRec.getUb (v : VarRec) : Int :=
  match v.dom with
  | Sum.inl d => SmallDomain.getUb d
  | Sum.inr d => BitsetDomain.getUb d

/-- The part of `Solver` that `new_variable` touches: the variable store
and the name map.  A `Variable` handle is its index in `variables`. -/
structure Solver where
  vars : List VarRec
  varsByName : List (String × Nat)
deriving Repr

namespace Solver

/-- Lookup in the `vars_by_name` map (`HashMap` modelled as an association
list whose most recent insertion wins). -/
def lookupVar (s : Solver) (name : String) : Option Nat :=
  (s.varsByName.find? (fun p => p.1 == name)).map (fun p => p.2)

/-- Embeds `Solver::new_var_inner`. -/
def newVarInner (s : Solver) (lb ub : Int) (name : String) : Nat × Solver :=
  let idx := s.vars.length
  (idx, { vars := s.vars ++ [VarRec.make lb ub name]
          varsByName := (name, idx) :: s.varsByName })

/-- Embeds `Solver::new_variable`. -/
def newVariable (s : Solver) (lb ub : Int) (name : String) : Nat × Solver :=
  match s.lookupVar name with
  | some v => (v, s)
  | none => s.newVarInner lb ub name

/-- Embeds `Solver::new_variable_strict`. -/
def newVariableStrict (s : Solver) (lb ub : Int) (name : String) : Option (Nat × Solver) :=
  match s.lookupVar name with
  | some v =>
      if (s.vars.getD v ⟨"", Sum.inl (SmallDomain.init 0 0)⟩).getLb ≠ lb ∨
         (s.vars.getD v ⟨"", Sum.inl (SmallDomain.init 0 0)⟩).getUb ≠ ub then
        none
      else
        some (v, s)
  | none => some (s.newVarInner lb ub name)

end Solver

/-! ### Kosaraju SCC (src/src/scc.rs) -/

/-- Embeds `calc_order` (src/src/scc.rs): DFS on `gr` from `v`, marking
`used` and appending `v` to `order` after its descendants.  The fuel
bounds the recursion depth; callers pass the vertex count, which the
marking discipline never exceeds. -/
def calcOrder (gr : List (List Nat)) : Nat → Nat → List Bool × List Nat →
    List Bool × List Nat
  | 0, _, s => s
  | fuel + 1, v, s =>
      let s1 := (s.1.set v true, s.2)
      let s2 := (gr.getD v []).foldl
        (fun (t : List Bool × List Nat) u =>
          if t.1.getD u false then t else calcOrder gr fuel u t) s1
      (s2.1, s2.2 ++ [v])

/-- Embeds `mark_component` (src/src/scc.rs): DFS on `gr` from `v`,
marking `used` and appending each visited vertex to the component. -/
def markComponent (gr : List (List Nat)) : Nat → Nat → List Bool × List Nat →
    List Bool × List Nat
  | 0, _, s => s
  | fuel + 1, v, s =>
      let s1 := (s.1.set v true, s.2 ++ [v])
      (gr.getD v []).foldl
        (fun (t : List Bool × List Nat) u =>
          if t.1.getD u false then t else markComponent gr fuel u t) s1

/-- Embeds `compute_scc` (src/src/scc.rs): build the transpose, order the
vertices by decreasing DFS finish time, then run `mark_component` on the
transpose for each ordered vertex — exactly as the source does, with no
`used` check before the second-pass call. -/
def computeScc (gr : List (List Nat)) : List (List Nat) :=
  let n := gr.length
  let grt := (List.range n).foldl
    (fun grt v => (gr.getD v []).foldl
      (fun (grt : List (List Nat)) u => grt.set u (grt.getD u [] ++ [v])) grt)
    (List.replicate n [])
  let p1 := (List.range n).foldl
    (fun (s : List Bool × List Nat) v =>
      if s.1.getD v false then s else calcOrder gr n v s)
    (List.replicate n false, [])
  let order := p1.2.reverse
  let p2 := order.foldl
    (fun (s : List Bool × List (List Nat)) v =>
      let m := markComponent grt n v (s.1, [])
      (m.1, s.2 ++ [m.2]))
    (List.replicate n false, [])
  p2.2

/-! ### Shaw's no_sum (src/src/binpacking.rs) -/

/-- Embeds the first loop of `no_sum` (src/src/binpacking.rs:121-124):
greedily absorb the smallest items while their sum stays below `l`.
A `usize` underflow in the index `n - k1 - 1` (a Rust panic) is returned
as `none`; the fuel only cuts runs the source would not terminate
either. -/
def nsInit (s : List Int) (l : Int) : Nat → Int → Nat → Option (Int × Nat)
  | 0, _, _ => none
  | fuel + 1, sc, k1 =>
      if s.length < k1 + 1 then none
      else if sc + s.getD (s.length - k1 - 1) 0 < l then
        nsInit s l fuel (sc + s.getD (s.length - k1 - 1) 0) (k1 + 1)
      else some (sc, k1)

/-- Embeds the inner `while sa + sc >= l` loop of `no_sum`
(src/src/binpacking.rs:133-137), which slides the tracked window one
position to the right per iteration.  Underflows of `k1 - 1` or of the
index `n - k1 - k - 2` are Rust panics, returned as `none`. -/
def nsInner (s : List Int) (l sa : Int) (k : Nat) :
    Nat → Int × Int × Nat → Option (Int × Int × Nat)
  | 0, _ => none
  | fuel + 1, (sb, sc, k1) =>
      if sa + sc ≥ l then
        if k1 = 0 then none
        else if s.length < (k1 - 1) + k + 2 then none
        else
          nsInner s l sa k fuel
            (sb + s.getD (s.length - (k1 - 1) - 1) 0 -
               s.getD (s.length - (k1 - 1) - k - 2) 0,
             sc - s.getD (s.length - (k1 - 1) - 1) 0, k1 - 1)
      else some (sb, sc, k1)

/-- Embeds the main `while sa < l && sb <= r` loop of `no_sum`
(src/src/binpacking.rs:126-139); the state is `(sa, sb, sc, k, k1)` and
the returned triple is `(sa < l, l1, r1)` with `l1 = sa + sc` and
`r1 = sb`, exactly as lines 140-142 write them. -/
def nsMain (s : List Int) (l r : Int) :
    Nat → Int × Int × Int × Nat × Nat → Option (Bool × Int × Int)
  | 0, _ => none
  | fuel + 1, (sa, sb, sc, k, k1) =>
      if sa < l ∧ sb ≤ r then
        if s.length ≤ k then none
        else if sa + s.getD k 0 < l then
          if k1 = 0 then none
          else if s.length < (k1 - 1) + 1 then none
          else
            match nsInner s l (sa + s.getD k 0) (k + 1) (s.length + 1)
                (sb + s.getD (s.length - (k1 - 1) - 1) 0,
                 sc - s.getD (s.length - (k1 - 1) - 1) 0, k1 - 1) with
            | none => none
            | some (sb2, sc2, k12) =>
                nsMain s l r fuel (sa + s.getD k 0, sb2, sc2, k + 1, k12)
        else nsMain s l r fuel (sa + s.getD k 0, sb, sc, k + 1, k1)
      else some (decide (sa < l), sa + sc, sb)

/-- Embeds `no_sum` (src/src/binpacking.rs:111-143).  On the early
returns the out-parameters `l1`/`r1` are not written; they are modelled
as `0`.  Panics (index underflow) are `none`. -/
def noSum (s : List Int) (l r : Int) : Option (Bool × Int × Int) :=
  if l ≤ 0 ∨ r ≥ s.sum then some (false, 0, 0)
  else
    match nsInit s l (s.length + 1) 0 0 with
    | none => none
    | some (sc, k1) =>
        if s.length < k1 + 1 then none
        else
          nsMain s l r (s.length + 1)
            (0, s.getD (s.length - k1 - 1) 0, sc, 0, k1)

/-- The sum of the `k + 1` consecutive entries of `s` ending at index
`s.length - k1 - 1`, i.e. the window whose running sum the `sb` variable
of `no_sum` tracks at each head of the main loop. -/
def windowSum (s : List Int) (k k1 : Nat) : Int :=
  ((s.drop (s.length - k1 - k - 1)).take (k + 1)).sum

/-! ### The propagation queue bookkeeping (src/src/variable.rs,
src/src/search.rs, src/src/propagator.rs) -/

/-- The state shared by `Variable::notify_listeners` and
`Search::propagate`: the FIFO of propagator ids
(`SolverState::propagation_queue`), the per-propagator `queued` and
`has_new_events` flags of the control blocks, `resched_current`, and
which propagator is currently inside its own `propagate` call (its
`RefCell` being mutably borrowed). -/
structure PropQueueState where
  queue : List Nat
  queued : List Bool
  hne : List Bool
  resched : Bool
  current : Option Nat
deriving Repr, DecidableEq

/-- Embeds one listener dispatch of `Variable::notify_listeners`
(src/src/variable.rs:86-100) to propagator `q`: if `q` is the running
propagator the `try_borrow_mut` fails and only
`SolverState::reschedule` runs; otherwise `new_event` sets
`has_new_events` and, unless `q.is_queued()`, `q` is enqueued and its
`queued` flag set. -/
def notifyStep (s : PropQueueState) (q : Nat) : PropQueueState :=
  if s.current = some q then { s with resched := true }
  else
    let s1 := { s with hne := s.hne.set q true }
    if s1.queued.getD q false then s1
    else { s1 with queued := s1.queued.set q true, queue := s1.queue ++ [q] }

/-- Embeds the head of one `Search::propagate` iteration
(src/src/search.rs:129-139): clear `resched_current`, pop the front
propagator, clear its `queued` flag and its events, and start running
it. -/
def popStep (s : PropQueueState) : PropQueueState :=
  match s.queue with
  | [] => s
  | p :: rest =>
      { queue := rest, queued := s.queued.set p false,
        hne := s.hne.set p false, resched := false, current := some p }

/-- Embeds the tail of a `Normal` iteration (src/src/search.rs:171-177):
when `resched_current` is set and the running propagator is not
idempotent, it is pushed back and `enqueue`d — with no `new_event`
call. -/
def finishStep (idem : Bool) (s : PropQueueState) : PropQueueState :=
  match s.current with
  | none => s
  | some p =>
      if s.resched && !idem then
        { s with queue := s.queue ++ [p], queued := s.queued.set p true,
                 current := none }
      else { s with current := none }

/-- Embeds the failure cleanup (src/src/search.rs:165-169, 161-166): the
queue is drained and every drained propagator is `dequeue`d. -/
def drainStep (s : PropQueueState) : PropQueueState :=
  { s with queue := [],
           queued := s.queue.foldl (fun qs p => qs.set p false) s.queued,
           current := none }

/-- The queue discipline: `queued` flags coincide with queue membership,
the FIFO holds no duplicate entries, the running propagator is dequeued,
and all tracked ids index an existing control block. -/
def QueueInv (s : PropQueueState) : Prop :=
  (∀ i, s.queued.getD i false = true ↔ i ∈ s.queue) ∧
  s.queue.Nodup ∧
  (∀ p, s.current = some p → s.queued.getD p false = false ∧ p < s.queued.length) ∧
  (∀ i ∈ s.queue, i < s.queued.length)

/-! ### Supporting lemmas -/

section Toolkit

lemma length_filter_eq_sum (p : Nat → Bool) (l : List Nat) :
    (l.filter p).length = (l.map (fun a => (p a).toNat)).sum := by
  induction l with
  | nil => rfl
  | cons a l ih =>
    cases h : p a <;> simp [List.filter_cons, h, ih] <;> omega

lemma popCount_eq_sum (x : Nat) :
    popCount x = ((List.range 64).map (fun i => ((x.testBit i)).toNat)).sum := by
  rw [popCount, length_filter_eq_sum]

lemma sum_map_add {α : Type} (l : List α) (f g : α → Nat) :
    (l.map (fun a => f a + g a)).sum = (l.map f).sum + (l.map g).sum := by
  induction l with
  | nil => rfl
  | cons a l ih => simp [ih]; omega

lemma popCount_xor_of_subset {x y : Nat}
    (h : ∀ j, x.testBit j = true → y.testBit j = true) :
    popCount (y ^^^ x) + popCount x = popCount y := by
  rw [popCount_eq_sum, popCount_eq_sum, popCount_eq_sum, ← sum_map_add]
  congr 1
  apply List.map_congr_left
  intro i _
  rw [Nat.testBit_xor]
  cases hx : x.testBit i with
  | false =>
    cases hy : y.testBit i <;> simp [hx, hy]
  | true =>
    rw [h i hx]
    simp

lemma lt_two64_of_subset {x y : Nat} (hy : y < 2 ^ 64)
    (h : ∀ j, x.testBit j = true → y.testBit j = true) : x < 2 ^ 64 := by
  by_contra hx
  push_neg at hx
  obtain ⟨i, hi, hbit⟩ := Nat.ge_two_pow_implies_high_bit_true hx
  have hyb := h i hbit
  have : y < 2 ^ i := lt_of_lt_of_le hy (Nat.pow_le_pow_right (by norm_num) hi)
  rw [Nat.testBit_lt_two_pow this] at hyb
  exact Bool.false_ne_true hyb

lemma sum_map_set (l : List Nat) (b v : Nat) (f : Nat → Nat) (h : b < l.length) :
    ((l.set b v).map f).sum + f (l.getD b 0) = (l.map f).sum + f v := by
  induction l generalizing b with
  | nil => simp at h
  | cons a l ih =>
    cases b with
    | zero => simp [List.set]; omega
    | succ b =>
      simp only [List.set, List.map_cons, List.sum_cons, List.getD_cons_succ]
      have := ih b (by simpa using h)
      omega

lemma getD_set_self {l : List Nat} {b v : Nat} (h : b < l.length) :
    (l.set b v).getD b 0 = v := by
  induction l generalizing b with
  | nil => simp at h
  | cons a l ih =>
    cases b with
    | zero => rfl
    | succ b => simpa using ih (by simpa using h)

lemma getD_set_ne {l : List Nat} (b i v : Nat) (h : b ≠ i) :
    (l.set b v).getD i 0 = l.getD i 0 := by
  induction l generalizing b i with
  | nil => simp
  | cons a l ih =>
    cases b with
    | zero =>
      cases i with
      | zero => exact absurd rfl h
      | succ i => rfl
    | succ b =>
      cases i with
      | zero => rfl
      | succ i => simpa using ih b i (fun c => h (by rw [c]))

lemma getD_set_self_any {α : Type} {l : List α} {b : Nat} {v dflt : α}
    (h : b < l.length) : (l.set b v).getD b dflt = v := by
  induction l generalizing b with
  | nil => simp at h
  | cons a l ih =>
    cases b with
    | zero => rfl
    | succ b => simpa using ih (by simpa using h)

lemma getD_set_ne_any {α : Type} (b i : Nat) {l : List α} (v dflt : α) (h : b ≠ i) :
    (l.set b v).getD i dflt = l.getD i dflt := by
  induction l generalizing b i with
  | nil => simp
  | cons a l ih =>
    cases b with
    | zero =>
      cases i with
      | zero => exact absurd rfl h
      | succ i => rfl
    | succ b =>
      cases i with
      | zero => rfl
      | succ i => simpa using ih b i (fun c => h (by rw [c]))

lemma foldl_set_false_getD {L : List Nat} {qs : List Bool} {i : Nat}
    (hL : ∀ p ∈ L, p < qs.length)
    (h : (L.foldl (fun a p => a.set p false) qs).getD i false = true) :
    qs.getD i false = true ∧ i ∉ L := by
  induction L generalizing qs with
  | nil => exact ⟨h, List.not_mem_nil _⟩
  | cons p L ih =>
    rw [List.foldl_cons] at h
    obtain ⟨h1, h2⟩ := @ih (qs.set p false)
      (by
        intro x hx
        rw [List.length_set]
        exact hL x (List.mem_cons_of_mem _ hx)) h
    have hplen : p < qs.length := hL p (List.mem_cons_self _ _)
    by_cases hip : i = p
    · subst hip
      rw [getD_set_self_any hplen] at h1
      simp at h1
    · rw [getD_set_ne_any p i _ _ (fun c => hip c.symm)] at h1
      refine ⟨h1, ?_⟩
      intro hc
      rcases List.mem_cons.1 hc with heq | hm
      · exact hip heq
      · exact h2 hm

end Toolkit

namespace SmallDomain

lemma land_shift_pos_iff {x v : Nat} : 0 < x &&& (1 <<< v) ↔ x.testBit v = true := by
  rw [Nat.shiftLeft_eq, one_mul, Nat.and_two_pow]
  cases h : x.testBit v <;> simp [h]

lemma WF.testBit_le {d : SmallDomain} (h : WF d) {i : Nat}
    (hb : d.body.testBit i = true) : d.lb ≤ i ∧ i ≤ d.ub := by
  rcases h with ⟨-, hlt, -, -, hall⟩
  by_cases hi : i < 64
  · exact hall i hi hb
  · exfalso
    have : d.body < 2 ^ i :=
      lt_of_lt_of_le hlt (Nat.pow_le_pow_right (by norm_num) (le_of_not_lt hi))
    rw [Nat.testBit_lt_two_pow this] at hb
    exact Bool.false_ne_true hb

lemma testBit_lt_64 {x i : Nat} (hx : x < 2 ^ 64) (hb : x.testBit i = true) : i < 64 := by
  by_contra hi
  have : x < 2 ^ i :=
    lt_of_lt_of_le hx (Nat.pow_le_pow_right (by norm_num) (le_of_not_lt hi))
  rw [Nat.testBit_lt_two_pow this] at hb
  exact Bool.false_ne_true hb

lemma WF.lb_lt_64 {d : SmallDomain} (h : WF d) : d.lb < 64 :=
  testBit_lt_64 h.2.1 h.2.2.1

lemma WF.ub_lt_64 {d : SmallDomain} (h : WF d) : d.ub < 64 :=
  testBit_lt_64 h.2.1 h.2.2.2.1

lemma mem_filter_range {x i : Nat} :
    i ∈ (List.range 64).filter (fun i => x.testBit i) ↔ i < 64 ∧ x.testBit i = true := by
  simp [List.mem_filter, List.mem_range]

lemma decide_land_shift (b i : Nat) : decide (0 < b &&& (1 <<< i)) = b.testBit i := by
  cases h : b.testBit i
  · simp only [decide_eq_false_iff_not]
    intro hc
    rw [land_shift_pos_iff.1 hc] at h
    simp at h
  · simp [land_shift_pos_iff.2 h]

lemma testBit_mask_iff {b i j : Nat} (hb : b < 2 ^ 64) (hi : i < 64) :
    ((b &&& ((2 ^ 64 - 1) ^^^ (1 <<< i))).testBit j = true) ↔
      (b.testBit j = true ∧ j ≠ i) := by
  rw [Nat.testBit_and, Nat.shiftLeft_eq, one_mul, Nat.testBit_xor,
    Nat.testBit_two_pow_sub_one, Nat.testBit_two_pow]
  by_cases hj : j < 64
  · by_cases hji : i = j
    · subst hji; simp [hj, hi]
    · simp [hj, hji, Ne.symm hji]
  · have : b.testBit j = false := Nat.testBit_lt_two_pow
      (lt_of_lt_of_le hb (Nat.pow_le_pow_right (by norm_num) (le_of_not_lt hj)))
    simp [this]

lemma mask_lt {b m : Nat} (hb : b < 2 ^ 64) : b &&& m < 2 ^ 64 :=
  lt_of_le_of_lt (Nat.and_le_left) hb

lemma clearFold (lo hi : Nat) (L : List Nat) (hnd : L.Nodup) (hall : ∀ i ∈ L, i < 64)
    (b0 : Nat) (hb : b0 < 2 ^ 64) (f0 : Bool) :
    (∀ j, ((L.foldl (clearStep lo hi) (b0, f0)).1.testBit j = true) ↔
      (b0.testBit j = true ∧ ¬(j ∈ L ∧ lo ≤ j ∧ j < hi))) ∧
    ((L.foldl (clearStep lo hi) (b0, f0)).2 = true ↔
      (f0 = true ∨ ∃ i ∈ L, (lo ≤ i ∧ i < hi) ∧ b0.testBit i = true)) := by
  induction L generalizing b0 f0 with
  | nil => simp
  | cons i L ih =>
    have hi64 : i < 64 := hall i (List.mem_cons_self i L)
    have hiL : i ∉ L := (List.nodup_cons.1 hnd).1
    have hndL : L.Nodup := (List.nodup_cons.1 hnd).2
    have hallL : ∀ j ∈ L, j < 64 := fun j hj => hall j (List.mem_cons_of_mem _ hj)
    by_cases hrng : lo ≤ i ∧ i < hi
    · have hstep : clearStep lo hi (b0, f0) i =
          (b0 &&& ((2 ^ 64 - 1) ^^^ (1 <<< i)), f0 || decide (0 < b0 &&& (1 <<< i))) := by
        rw [clearStep, if_pos hrng]
      rw [List.foldl_cons, hstep]
      obtain ⟨ihbit, ihflag⟩ := ih hndL hallL _ (mask_lt hb) _
      constructor
      · intro j
        rw [ihbit j, testBit_mask_iff hb hi64]
        constructor
        · rintro ⟨⟨hbj, hji⟩, hnot⟩
          refine ⟨hbj, ?_⟩
          rintro ⟨hmem, hr⟩
          exact hnot ⟨(List.mem_cons.1 hmem).resolve_left hji, hr⟩
        · rintro ⟨hbj, hnot⟩
          refine ⟨⟨hbj, ?_⟩, ?_⟩
          · rintro rfl
            exact hnot ⟨List.mem_cons_self _ _, hrng⟩
          · rintro ⟨hm, hr⟩
            exact hnot ⟨List.mem_cons_of_mem _ hm, hr⟩
      · rw [ihflag]
        rw [Bool.or_eq_true, decide_land_shift]
        constructor
        · rintro (hf | ⟨i2, hi2, hr2, hb2⟩)
          · rcases hf with hf0 | hbi
            · exact Or.inl hf0
            · exact Or.inr ⟨i, List.mem_cons_self _ _, hrng, hbi⟩
          · exact Or.inr ⟨i2, List.mem_cons_of_mem _ hi2,
              hr2, ((testBit_mask_iff hb hi64).1 hb2).1⟩
        · rintro (hf0 | ⟨i2, hi2, hr2, hb2⟩)
          · exact Or.inl (Or.inl hf0)
          · rcases List.mem_cons.1 hi2 with rfl | hm
            · exact Or.inl (Or.inr hb2)
            · have hne : i2 ≠ i := fun c => hiL (c ▸ hm)
              exact Or.inr ⟨i2, hm, hr2, (testBit_mask_iff hb hi64).2 ⟨hb2, hne⟩⟩
    · have hstep : clearStep lo hi (b0, f0) i = (b0, f0) := by
        rw [clearStep, if_neg hrng]
      rw [List.foldl_cons, hstep]
      obtain ⟨ihbit, ihflag⟩ := ih hndL hallL _ hb _
      constructor
      · intro j
        rw [ihbit j]
        constructor
        · rintro ⟨hbj, hnot⟩
          refine ⟨hbj, ?_⟩
          rintro ⟨hmem, hr⟩
          rcases List.mem_cons.1 hmem with rfl | hm
          · exact hrng hr
          · exact hnot ⟨hm, hr⟩
        · rintro ⟨hbj, hnot⟩
          exact ⟨hbj, fun ⟨hm, hr⟩ => hnot ⟨List.mem_cons_of_mem _ hm, hr⟩⟩
      · rw [ihflag]
        constructor
        · rintro (hf0 | ⟨i2, hm, hr, hb2⟩)
          · exact Or.inl hf0
          · exact Or.inr ⟨i2, List.mem_cons_of_mem _ hm, hr, hb2⟩
        · rintro (hf0 | ⟨i2, hm, hr, hb2⟩)
          · exact Or.inl hf0
          · rcases List.mem_cons.1 hm with rfl | hm2
            · exact absurd hr hrng
            · exact Or.inr ⟨i2, hm2, hr, hb2⟩

lemma clearRange_testBit_iff {b lo hi : Nat} (hb : b < 2 ^ 64) (j : Nat) :
    ((clearRange b lo hi).1.testBit j = true) ↔
      (b.testBit j = true ∧ ¬(j < 64 ∧ lo ≤ j ∧ j < hi)) := by
  have := (clearFold lo hi (List.range 64) (List.nodup_range 64)
    (fun i hi => List.mem_range.1 hi) b hb false).1 j
  rw [clearRange, this]
  simp [List.mem_range]

lemma clearRange_flag_iff {b lo hi : Nat} (hb : b < 2 ^ 64) :
    ((clearRange b lo hi).2 = true) ↔
      ∃ j, j < 64 ∧ (lo ≤ j ∧ j < hi) ∧ b.testBit j = true := by
  have := (clearFold lo hi (List.range 64) (List.nodup_range 64)
    (fun i hi => List.mem_range.1 hi) b hb false).2
  rw [clearRange, this]
  constructor
  · rintro (hf | ⟨i, hm, hr, hb2⟩)
    · exact absurd hf (by simp)
    · exact ⟨i, List.mem_range.1 hm, hr, hb2⟩
  · rintro ⟨i, hm, hr, hb2⟩
    exact Or.inr ⟨i, List.mem_range.2 hm, hr, hb2⟩

lemma clearRange_eq_self_iff {b lo hi : Nat} (hb : b < 2 ^ 64) :
    (clearRange b lo hi).1 = b ↔ (clearRange b lo hi).2 = false := by
  constructor
  · intro heq
    rw [Bool.eq_false_iff]
    intro hflag
    obtain ⟨j, hj64, hr, hbj⟩ := (clearRange_flag_iff hb).1 hflag
    rw [← heq] at hbj
    obtain ⟨-, hnot⟩ := (clearRange_testBit_iff hb j).1 hbj
    exact hnot ⟨hj64, hr⟩
  · intro hflag
    apply Nat.eq_of_testBit_eq
    intro j
    by_cases hbj : b.testBit j = true
    · by_cases hregion : j < 64 ∧ lo ≤ j ∧ j < hi
      · exfalso
        have : (clearRange b lo hi).2 = true :=
          (clearRange_flag_iff hb).2 ⟨j, hregion.1, hregion.2, hbj⟩
        rw [hflag] at this
        exact Bool.false_ne_true this
      · rw [hbj, (clearRange_testBit_iff hb j).2 ⟨hbj, hregion⟩]
    · rw [Bool.not_eq_true] at hbj
      rw [hbj]
      rw [Bool.eq_false_iff]
      intro hc
      have := ((clearRange_testBit_iff hb j).1 hc).1
      rw [hbj] at this
      exact Bool.false_ne_true this

lemma discard_changes_iff {d : SmallDomain} (hb : d.body < 2 ^ 64) {v : Nat} (hv : v < 64) :
    (d.discard v).body ≠ d.body ↔ d.body.testBit v = true := by
  constructor
  · intro hne
    by_cases hbit : d.body.testBit v = true
    · exact hbit
    · exfalso
      apply hne
      apply Nat.eq_of_testBit_eq
      intro j
      by_cases hj : (d.discard v).body.testBit j = true
      · rw [hj, ((testBit_mask_iff hb hv).1 hj).1]
      · rw [Bool.not_eq_true] at hj
        rw [hj]
        by_cases hdj : d.body.testBit j = true
        · by_cases hjv : j = v
          · subst hjv; rw [Bool.not_eq_true] at hbit; rw [hbit]
          · exfalso
            have h2 := (testBit_mask_iff hb hv).2 ⟨hdj, hjv⟩
            simp only [discard] at hj
            rw [h2] at hj
            exact Bool.false_ne_true hj.symm
        · rw [Bool.not_eq_true] at hdj; rw [hdj]
  · intro hbit heq
    have hfalse : (d.discard v).body.testBit v = false := by
      rw [Bool.eq_false_iff]
      intro hc
      exact ((testBit_mask_iff hb hv).1 hc).2 rfl
    rw [heq, hbit] at hfalse
    exact Bool.true_eq_false ▸ hfalse

lemma remove_out_of_range {d : SmallDomain} {x : Int} (hr : x < d.start ∨ x ≥ d.start + 64) :
    SmallDomain.remove d x = ⟨d, DomainState.Same, false⟩ := by
  rw [SmallDomain.remove, if_pos hr]

lemma remove_empties {d : SmallDomain} {x : Int} (hr : ¬(x < d.start ∨ x ≥ d.start + 64))
    (hz : (d.discard (x - d.start).toNat).body = 0) :
    SmallDomain.remove d x = ⟨d.discard (x - d.start).toNat, DomainState.Failed, true⟩ := by
  rw [SmallDomain.remove, if_neg hr]
  simp [hz]

lemma remove_nonempty {d : SmallDomain} {x : Int} (hr : ¬(x < d.start ∨ x ≥ d.start + 64))
    (hz : ¬((d.discard (x - d.start).toNat).body = 0)) :
    (SmallDomain.remove d x).dom.body = (d.discard (x - d.start).toNat).body ∧
    (SmallDomain.remove d x).failed = false ∧
    ((SmallDomain.remove d x).state = DomainState.Modified ↔
      0 < d.body &&& (1 <<< (x - d.start).toNat)) := by
  rw [SmallDomain.remove, if_neg hr]
  by_cases hm : d.body &&& (1 <<< (x - d.start).toNat) > 0 <;>
    simp [hz, hm, apply_ite SmallDomain.body, ite_self]

/-- Under the representation invariant, the cached bounds coincide exactly
when the bitmap is a singleton. -/
lemma WF.lb_eq_ub_iff_size_one {d : SmallDomain} (h : WF d) :
    d.lb = d.ub ↔ size d = 1 := by
  constructor
  · intro heq
    have hmem : ∀ i, i ∈ (List.range 64).filter (fun i => d.body.testBit i) ↔ i = d.lb := by
      intro i
      rw [mem_filter_range]
      constructor
      · rintro ⟨-, hb⟩
        have := h.testBit_le hb
        omega
      · rintro rfl
        exact ⟨h.lb_lt_64, h.2.2.1⟩
    rcases hl : (List.range 64).filter (fun i => d.body.testBit i) with _ | ⟨a, t⟩
    · exfalso
      have := (hmem d.lb).2 rfl
      rw [hl] at this
      exact List.not_mem_nil _ this
    · have ha : a = d.lb := by
        have : a ∈ (List.range 64).filter (fun i => d.body.testBit i) := by
          rw [hl]; exact List.mem_cons_self _ _
        exact (hmem a).1 this
      have ht : t = [] := by
        rcases t with _ | ⟨b, t2⟩
        · rfl
        · exfalso
          have hnd : ((List.range 64).filter (fun i => d.body.testBit i)).Nodup :=
            (List.nodup_range 64).filter _
          rw [hl] at hnd
          have hb : b = d.lb := by
            have : b ∈ (List.range 64).filter (fun i => d.body.testBit i) := by
              rw [hl]; exact List.mem_cons_of_mem _ (List.mem_cons_self _ _)
            exact (hmem b).1 this
          rw [ha, hb] at hnd
          simp at hnd
      rw [size, popCount, hl, ht]
      rfl
  · intro hsz
    rw [size, popCount] at hsz
    rcases List.length_eq_one.1 hsz with ⟨a, hl⟩
    have hlb : d.lb ∈ (List.range 64).filter (fun i => d.body.testBit i) :=
      mem_filter_range.2 ⟨h.lb_lt_64, h.2.2.1⟩
    have hub : d.ub ∈ (List.range 64).filter (fun i => d.body.testBit i) :=
      mem_filter_range.2 ⟨h.ub_lt_64, h.2.2.2.1⟩
    rw [hl] at hlb hub
    simp at hlb hub
    rw [hlb, hub]

end SmallDomain

namespace BitsetDomain

lemma skipZerosUp_spec (data : List Nat) (i fuel : Nat)
    (hex : ∃ j, i ≤ j ∧ j < i + fuel ∧ data.getD j 0 ≠ 0) :
    i ≤ skipZerosUp data i fuel ∧ data.getD (skipZerosUp data i fuel) 0 ≠ 0 ∧
    ∀ k, i ≤ k → k < skipZerosUp data i fuel → data.getD k 0 = 0 := by
  induction fuel generalizing i with
  | zero =>
    obtain ⟨j, h1, h2, h3⟩ := hex
    omega
  | succ fuel ih =>
    simp only [skipZerosUp]
    by_cases hz : data.getD i 0 = 0
    · rw [if_pos hz]
      obtain ⟨j, h1, h2, h3⟩ := hex
      have hji : j ≠ i := fun c => h3 (c ▸ hz)
      obtain ⟨r1, r2, r3⟩ := ih (i + 1) ⟨j, by omega, by omega, h3⟩
      refine ⟨by omega, r2, fun k hk1 hk2 => ?_⟩
      by_cases hki : k = i
      · exact hki ▸ hz
      · exact r3 k (by omega) hk2
    · rw [if_neg hz]
      exact ⟨le_refl i, hz, fun k hk1 hk2 => by omega⟩

lemma skipZerosDown_spec (data : List Nat) (i fuel : Nat)
    (hex : ∃ j, j ≤ i ∧ i < j + fuel ∧ data.getD j 0 ≠ 0) :
    skipZerosDown data i fuel ≤ i ∧ data.getD (skipZerosDown data i fuel) 0 ≠ 0 ∧
    ∀ k, skipZerosDown data i fuel < k → k ≤ i → data.getD k 0 = 0 := by
  induction fuel generalizing i with
  | zero =>
    obtain ⟨j, h1, h2, h3⟩ := hex
    omega
  | succ fuel ih =>
    simp only [skipZerosDown]
    by_cases hz : data.getD i 0 = 0
    · rw [if_pos hz]
      obtain ⟨j, h1, h2, h3⟩ := hex
      have hji : j ≠ i := fun c => h3 (c ▸ hz)
      have hi0 : i ≠ 0 := by
        intro c
        subst c
        omega
      obtain ⟨r1, r2, r3⟩ := ih (i - 1) ⟨j, by omega, by omega, h3⟩
      refine ⟨by omega, r2, fun k hk1 hk2 => ?_⟩
      by_cases hki : k = i
      · exact hki ▸ hz
      · exact r3 k (by omega) (by omega)
    · rw [if_neg hz]
      exact ⟨le_refl i, hz, fun k hk1 hk2 => by omega⟩

lemma save_fields (d : BitsetDomain) (b : Nat) :
    (d.save b).data = d.data ∧ (d.save b).size = d.size ∧
    (d.save b).first_block = d.first_block ∧ (d.save b).last_block = d.last_block ∧
    (d.save b).start = d.start ∧ (d.save b).checkpoints = d.checkpoints ∧
    (d.save b).modified.length = d.modified.length := by
  rw [save]
  split <;> simp

lemma getD_append_left {l1 l2 : List (Nat × Nat)} {p : Nat} (h : p < l1.length) :
    (l1 ++ l2).getD p (0, 0) = l1.getD p (0, 0) := by
  induction l1 generalizing p with
  | nil => simp at h
  | cons a l ih =>
    cases p with
    | zero => rfl
    | succ p => simpa using ih (by simpa using h)

lemma getD_append_right_self {l1 : List (Nat × Nat)} {e : Nat × Nat} :
    (l1 ++ [e]).getD l1.length (0, 0) = e := by
  induction l1 with
  | nil => rfl
  | cons a l ih => simpa using ih

lemma getD_modified_set {l : List Nat} {b i v : Nat} :
    b ≠ i → (l.set b v).getD i 0 = l.getD i 0 :=
  fun h => getD_set_ne b i v h

/-- The entries of a coherent trail name pairwise distinct blocks, so a
`save` of a block with an existing entry is a no-op and a `save` of a new
block records its checkpoint value. -/
lemma save_trailed {base : List Nat} {d : BitsetDomain} {b : Nat}
    (hT : Trailed base d) (hb : b < base.length)
    (hml : d.modified.length = base.length) :
    Trailed base (d.save b) ∧
    (∃ p, p < (d.save b).trail.length ∧ ((d.save b).trail.getD p (0, 0)).1 = b) := by
  obtain ⟨hlen, hT1, hT3, hT4⟩ := hT
  rw [save]
  by_cases hcond : d.modified.getD b 0 ≥ d.trail.length ∨
      (d.trail.getD (d.modified.getD b 0) (0, 0)).1 ≠ b
  · rw [if_pos hcond]
    have hnoentry : ∀ p, p < d.trail.length → (d.trail.getD p (0, 0)).1 ≠ b := by
      intro p hp hpb
      obtain ⟨-, hmod, -⟩ := hT1 p hp
      rw [hpb] at hmod
      rcases hcond with hc | hc
      · omega
      · rw [hmod] at hc
        exact hc hpb
    have hdb : d.data.getD b 0 = base.getD b 0 := hT3 b hb hnoentry
    refine ⟨⟨hlen, ?_, ?_, hT4⟩, ⟨d.trail.length, by simp, by simp [getD_append_right_self]⟩⟩
    · intro p hp
      simp only [List.length_append, List.length_cons, List.length_nil] at hp
      by_cases hplt : p < d.trail.length
      · obtain ⟨hblt, hmod, hval⟩ := hT1 p hplt
        rw [getD_append_left hplt]
        refine ⟨hblt, ?_, hval⟩
        rw [getD_modified_set (fun c => hnoentry p hplt c.symm)]
        exact hmod
      · have hpe : p = d.trail.length := by simp at hp; omega
        subst hpe
        rw [getD_append_right_self]
        refine ⟨hb, ?_, hdb⟩
        rw [getD_set_self (by omega)]
    · intro b2 hb2 hnone
      apply hT3 b2 hb2
      intro p hp
      have h2 : ((d.trail ++ [(b, d.data.getD b 0)]).getD p (0, 0)).1 ≠ b2 :=
        hnone p (by simp; omega)
      rw [getD_append_left hp] at h2
      exact h2
  · rw [if_neg hcond]
    push_neg at hcond
    obtain ⟨hlt, heq⟩ := hcond
    exact ⟨⟨hlen, hT1, hT3, hT4⟩, ⟨d.modified.getD b 0, by omega, heq⟩⟩

end BitsetDomain

lemma filter_range64_singleton {p : Nat → Bool} {a : Nat} (ha : a < 64)
    (h : ∀ i, i < 64 → (p i = true ↔ i = a)) :
    (List.range 64).filter p = [a] := by
  have hmem : ∀ i, i ∈ (List.range 64).filter p ↔ i = a := by
    intro i
    rw [List.mem_filter, List.mem_range]
    constructor
    · rintro ⟨h1, h2⟩
      exact (h i h1).1 h2
    · rintro rfl
      exact ⟨ha, (h _ ha).2 rfl⟩
  rcases hl : (List.range 64).filter p with _ | ⟨c, t⟩
  · exfalso
    have := (hmem a).2 rfl
    rw [hl] at this
    exact List.not_mem_nil _ this
  · have hc : c = a := (hmem c).1 (by rw [hl]; exact List.mem_cons_self _ _)
    have ht : t = [] := by
      rcases t with _ | ⟨e, t2⟩
      · rfl
      · exfalso
        have hnd : ((List.range 64).filter p).Nodup := (List.nodup_range 64).filter _
        rw [hl] at hnd
        have he : e = a := (hmem e).1
          (by rw [hl]; exact List.mem_cons_of_mem _ (List.mem_cons_self _ _))
        rw [hc, he] at hnd
        simp at hnd
    rw [hc, ht]

lemma popCount_shift_one {sh : Nat} (h : sh < 64) : popCount (1 <<< sh) = 1 := by
  rw [popCount, Nat.shiftLeft_eq, one_mul,
    filter_range64_singleton h (fun i hi => by rw [Nat.testBit_two_pow]; simp [eq_comm])]
  rfl

lemma popCount_pos_of_testBit {w j : Nat} (hj : j < 64) (h : w.testBit j = true) :
    0 < popCount w := by
  rw [popCount]
  have : j ∈ (List.range 64).filter (fun i => w.testBit i) :=
    List.mem_filter.2 ⟨List.mem_range.2 hj, h⟩
  exact List.length_pos.2 (fun c => by rw [c] at this; exact List.not_mem_nil _ this)

lemma sum_ne_zero_exists {l : List Nat} (f : Nat → Nat) (h : (l.map f).sum ≠ 0) :
    ∃ b, b < l.length ∧ f (l.getD b 0) ≠ 0 := by
  induction l with
  | nil => simp at h
  | cons a l ih =>
    by_cases ha : f a = 0
    · simp only [List.map_cons, List.sum_cons, ha, Nat.zero_add] at h
      obtain ⟨b, hb, hfb⟩ := ih h
      exact ⟨b + 1, by simpa using hb, by simpa using hfb⟩
    · exact ⟨0, by simp, ha⟩

lemma elem_le_sum {l : List Nat} (f : Nat → Nat) {b : Nat} (hb : b < l.length) :
    f (l.getD b 0) ≤ (l.map f).sum := by
  induction l generalizing b with
  | nil => simp at hb
  | cons a l ih =>
    cases b with
    | zero => simp
    | succ b =>
      have := ih (by simpa using hb)
      simp only [List.getD_cons_succ, List.map_cons, List.sum_cons]
      omega

lemma getD_mem {l : List Nat} {b : Nat} (h : b < l.length) : l.getD b 0 ∈ l := by
  induction l generalizing b with
  | nil => simp at h
  | cons a l ih =>
    cases b with
    | zero => exact List.mem_cons_self _ _
    | succ b => exact List.mem_cons_of_mem _ (ih (by simpa using h))

lemma popCount_zero : popCount 0 = 0 := by decide

lemma mem_exists_getD {l : List Nat} {w : Nat} (h : w ∈ l) :
    ∃ b, b < l.length ∧ l.getD b 0 = w := by
  induction l with
  | nil => simp at h
  | cons a l ih =>
    rcases List.mem_cons.1 h with rfl | hm
    · exact ⟨0, by simp, rfl⟩
    · obtain ⟨b, hb, hg⟩ := ih hm
      exact ⟨b + 1, by simpa using hb, by simpa using hg⟩

lemma popCount_and_compl {w m : Nat} (hw : w < 2 ^ 64) :
    popCount (w &&& m) + popCount (w &&& ((2 ^ 64 - 1) ^^^ m)) = popCount w := by
  rw [popCount_eq_sum, popCount_eq_sum, popCount_eq_sum, ← sum_map_add]
  congr 1
  apply List.map_congr_left
  intro i hi
  have hi64 : i < 64 := List.mem_range.1 hi
  rw [Nat.testBit_and, Nat.testBit_and, Nat.testBit_xor, Nat.testBit_two_pow_sub_one]
  simp only [hi64, decide_True, Bool.true_xor]
  cases hw2 : w.testBit i <;> cases hm : m.testBit i <;> simp

lemma highBit_lt_64 {w : Nat} (h : w ≠ 0) (h64 : w < 2 ^ 64) : highBit w < 64 := by
  rw [highBit]
  exact (Nat.log2_lt h).2 h64

lemma testBit_highBit {w : Nat} (h : w ≠ 0) : w.testBit (highBit w) = true := by
  have h1 : 2 ^ Nat.log2 w ≤ w := Nat.log2_self_le h
  have h2 : w < 2 ^ (Nat.log2 w + 1) := Nat.lt_log2_self
  have hdiv : w / 2 ^ Nat.log2 w = 1 := by
    have hlo : 1 ≤ w / 2 ^ Nat.log2 w :=
      (Nat.one_le_div_iff (Nat.pos_pow_of_pos _ (by norm_num))).2 h1
    have hhi : w / 2 ^ Nat.log2 w < 2 := by
      rw [Nat.div_lt_iff_lt_mul (Nat.pos_pow_of_pos _ (by norm_num))]
      rw [Nat.pow_succ] at h2
      omega
    omega
  rw [highBit, Nat.testBit, Nat.shiftRight_eq_div_pow, hdiv]
  rfl

lemma testBit_trailingZeros {w : Nat} (h : w ≠ 0) (h64 : w < 2 ^ 64) :
    w.testBit (trailingZeros w) = true := by
  rw [trailingZeros]
  have hne : (List.range 64).filter (fun i => w.testBit i) ≠ [] := by
    intro hc
    have hbit : w.testBit (Nat.log2 w) = true := testBit_highBit h
    have hlt : Nat.log2 w < 64 := (Nat.log2_lt h).2 h64
    have : Nat.log2 w ∈ (List.range 64).filter (fun i => w.testBit i) :=
      List.mem_filter.2 ⟨List.mem_range.2 hlt, hbit⟩
    rw [hc] at this
    exact List.not_mem_nil _ this
  rcases hl : (List.range 64).filter (fun i => w.testBit i) with _ | ⟨a, t⟩
  · exact absurd hl hne
  · have : a ∈ (List.range 64).filter (fun i => w.testBit i) := by
      rw [hl]; exact List.mem_cons_self _ _
    have := (List.mem_filter.1 this).2
    simp only [hl, List.head?_cons, Option.getD_some]
    simpa using this

lemma trailingZeros_le_highBit {w : Nat} (h : w ≠ 0) (h64 : w < 2 ^ 64) :
    trailingZeros w ≤ highBit w := by
  by_contra hc
  push_neg at hc
  -- the trailing-zeros index is a set bit, and no set bit exceeds the high bit
  have hbit := testBit_trailingZeros h h64
  have : w < 2 ^ trailingZeros w := by
    have h2 : w < 2 ^ (Nat.log2 w + 1) := Nat.lt_log2_self
    have : (2 : Nat) ^ (Nat.log2 w + 1) ≤ 2 ^ trailingZeros w :=
      Nat.pow_le_pow_right (by norm_num) (by rw [highBit] at hc; omega)
    omega
  rw [Nat.testBit_lt_two_pow this] at hbit
  exact Bool.false_ne_true hbit

namespace BitsetDomain

lemma trailed_congr {base : List Nat} {d d2 : BitsetDomain} (hT : Trailed base d)
    (htr : d2.trail = d.trail) (hmo : d2.modified = d.modified)
    (hda : d2.data = d.data) : Trailed base d2 := by
  rw [Trailed] at hT ⊢
  rw [htr, hmo, hda]
  exact hT

lemma trailed_update {base : List Nat} {d d2 : BitsetDomain} {b v : Nat}
    (hT : Trailed base d)
    (htr : d2.trail = d.trail) (hmo : d2.modified = d.modified)
    (hda : d2.data = d.data.set b v)
    (hentry : ∃ p, p < d.trail.length ∧ (d.trail.getD p (0, 0)).1 = b)
    (hsub : ∀ j, v.testBit j = true → (base.getD b 0).testBit j = true) :
    Trailed base d2 := by
  obtain ⟨hlen, hT1, hT3, hT4⟩ := hT
  refine ⟨?_, ?_, ?_, ?_⟩
  · rw [hda, List.length_set]
    exact hlen
  · intro p hp
    rw [htr] at hp ⊢
    rw [hmo]
    exact hT1 p hp
  · intro b2 hb2 hnone
    rw [htr] at hnone
    rw [hda]
    have hb2b : b2 ≠ b := by
      obtain ⟨p, hp, hpb⟩ := hentry
      intro c
      exact hnone p hp (by rw [hpb, c])
    rw [getD_set_ne b b2 v (fun c => hb2b c.symm)]
    exact hT3 b2 hb2 hnone
  · intro b2 j hbit
    rw [hda] at hbit
    by_cases hb2b : b2 = b
    · subst hb2b
      by_cases hblt : b2 < d.data.length
      · rw [getD_set_self hblt] at hbit
        exact hsub j hbit
      · rw [List.getD_eq_default] at hbit
        · simp at hbit
        · rw [List.length_set]; omega
    · rw [getD_set_ne b b2 v (fun c => hb2b c.symm)] at hbit
      exact hT4 b2 j hbit

lemma setUbStep_eq_setLbStep : setUbStep = setLbStep := rfl

/-- The whole-block zeroing loops of `set_lb`/`set_ub` preserve the trail
coherence and the size bookkeeping, zero exactly the listed blocks, and
leave all other fields alone. -/
lemma zeroFold_inv {base : List Nat} (L : List Nat) (d : BitsetDomain)
    (hT : Trailed base d) (hml : d.modified.length = d.data.length)
    (hLlt : ∀ i ∈ L, i < d.data.length)
    (hW : ∀ w ∈ d.data, w < 2 ^ 64)
    (hSz : d.size = (d.data.map popCount).sum) :
    Trailed base (L.foldl setLbStep d) ∧
    (L.foldl setLbStep d).modified.length = (L.foldl setLbStep d).data.length ∧
    (∀ w ∈ (L.foldl setLbStep d).data, w < 2 ^ 64) ∧
    (L.foldl setLbStep d).size = ((L.foldl setLbStep d).data.map popCount).sum ∧
    (L.foldl setLbStep d).data.length = d.data.length ∧
    (∀ i ∈ L, (L.foldl setLbStep d).data.getD i 0 = 0) ∧
    (∀ i, i ∉ L → (L.foldl setLbStep d).data.getD i 0 = d.data.getD i 0) ∧
    (L.foldl setLbStep d).first_block = d.first_block ∧
    (L.foldl setLbStep d).last_block = d.last_block ∧
    (L.foldl setLbStep d).start = d.start ∧
    (L.foldl setLbStep d).checkpoints = d.checkpoints ∧
    (L.foldl setLbStep d).size ≤ d.size := by
  induction L generalizing d with
  | nil =>
    exact ⟨hT, hml, hW, hSz, rfl, by simp, fun i _ => rfl, rfl, rfl, rfl, rfl, le_refl _⟩
  | cons i L ih =>
    rw [List.foldl_cons]
    have hilt : i < d.data.length := hLlt i (List.mem_cons_self i L)
    by_cases hz : d.data.getD i 0 ≠ 0
    · -- the block is saved then zeroed
      obtain ⟨hd1data, hd1size, hd1fb, hd1lb, hd1start, hd1cp, hd1ml⟩ := save_fields d i
      obtain ⟨hT1, hentry⟩ := save_trailed hT (by rw [← hT.1]; exact hilt)
        (by rw [hml]; exact hT.1)
      have hstep : setLbStep d i =
          { d.save i with
              size := (d.save i).size - popCount ((d.save i).data.getD i 0)
              data := (d.save i).data.set i 0 } := by
        rw [setLbStep, if_pos hz]
      rw [hstep]
      have hT2 : Trailed base
          { d.save i with
              size := (d.save i).size - popCount ((d.save i).data.getD i 0)
              data := (d.save i).data.set i 0 } :=
        trailed_update (d := d.save i) (v := 0) hT1 rfl rfl rfl hentry (by simp)
      have hsum := sum_map_set d.data i 0 popCount hilt
      have hle := elem_le_sum (l := d.data) popCount hilt
      have harr : ((d.save i).data.set i 0) = d.data.set i 0 := by rw [hd1data]
      obtain ⟨c1, c2, c3, c4, c5, c6, c7, c8, c9, c10, c11, c12⟩ := ih
        { d.save i with
            size := (d.save i).size - popCount ((d.save i).data.getD i 0)
            data := (d.save i).data.set i 0 }
        hT2
        (by
          show (d.save i).modified.length = _
          rw [hd1ml, harr, List.length_set, hml])
        (by
          intro j hj
          show j < ((d.save i).data.set i 0).length
          rw [harr, List.length_set]
          exact hLlt j (List.mem_cons_of_mem _ hj))
        (by
          intro w hw
          show w < 2 ^ 64
          rw [harr] at hw
          rcases List.mem_or_eq_of_mem_set hw with hmem | rfl
          · exact hW w hmem
          · positivity)
        (by
          show (d.save i).size - popCount ((d.save i).data.getD i 0) =
            (((d.save i).data.set i 0).map popCount).sum
          rw [hd1size, hd1data]
          rw [popCount_zero] at hsum
          omega)
      refine ⟨c1, c2, c3, c4, ?_, ?_, ?_, ?_, ?_, ?_, ?_, ?_⟩
      · rw [c5]
        show ((d.save i).data.set i 0).length = _
        rw [harr, List.length_set]
      · intro j hj
        rcases List.mem_cons.1 hj with heq | hm
        · rw [heq]
          by_cases hiL : i ∈ L
          · exact c6 i hiL
          · rw [c7 i hiL]
            show ((d.save i).data.set i 0).getD i 0 = 0
            rw [harr, getD_set_self hilt]
        · exact c6 j hm
      · intro j hj
        have hji : j ≠ i := fun c => hj (c ▸ List.mem_cons_self i L)
        have hjL : j ∉ L := fun c => hj (List.mem_cons_of_mem _ c)
        rw [c7 j hjL]
        show ((d.save i).data.set i 0).getD j 0 = _
        rw [harr, getD_set_ne i j 0 (fun c => hji c.symm)]
      · rw [c8]; exact hd1fb
      · rw [c9]; exact hd1lb
      · rw [c10]; exact hd1start
      · rw [c11]; exact hd1cp
      · refine le_trans c12 ?_
        show (d.save i).size - _ ≤ d.size
        rw [hd1size]
        omega
    · push_neg at hz
      have hstep : setLbStep d i = d := by
        rw [setLbStep, if_neg (by simpa using hz)]
      rw [hstep]
      obtain ⟨c1, c2, c3, c4, c5, c6, c7, c8, c9, c10, c11, c12⟩ := ih d hT hml
        (fun j hj => hLlt j (List.mem_cons_of_mem _ hj)) hW hSz
      refine ⟨c1, c2, c3, c4, c5, ?_, ?_, c8, c9, c10, c11, c12⟩
      · intro j hj
        rcases List.mem_cons.1 hj with heq | hm
        · rw [heq]
          by_cases hiL : i ∈ L
          · exact c6 i hiL
          · rw [c7 i hiL, hz]
        · exact c6 j hm
      · intro j hj
        exact c7 j (fun c => hj (List.mem_cons_of_mem _ c))

lemma block_facts {d : BitsetDomain} (hS : Shape d) {x : Int}
    (hr : ¬(x < d.start ∨ x ≥ d.start + (d.data.length : Int) * 64))
    (hbitne : ¬(d.data.getD ((x - d.start).toNat / 64) 0 &&&
      (1 <<< ((x - d.start).toNat % 64)) = 0)) :
    (x - d.start).toNat / 64 < d.data.length ∧ (x - d.start).toNat % 64 < 64 ∧
    (d.data.getD ((x - d.start).toNat / 64) 0).testBit ((x - d.start).toNat % 64) = true ∧
    d.first_block ≤ (x - d.start).toNat / 64 ∧ (x - d.start).toNat / 64 ≤ d.last_block ∧
    d.data.getD ((x - d.start).toNat / 64) 0 < 2 ^ 64 := by
  obtain ⟨hW, hSz, hfl, hll, hfnz, hlnz, hfz, hlz, hml⟩ := hS
  push_neg at hr
  have hid : (x - d.start).toNat < d.data.length * 64 := by omega
  have hblk : (x - d.start).toNat / 64 < d.data.length :=
    (Nat.div_lt_iff_lt_mul (by norm_num)).2 hid
  have hsh : (x - d.start).toNat % 64 < 64 := Nat.mod_lt _ (by norm_num)
  have hbit : (d.data.getD ((x - d.start).toNat / 64) 0).testBit
      ((x - d.start).toNat % 64) = true :=
    SmallDomain.land_shift_pos_iff.1 (Nat.pos_of_ne_zero hbitne)
  have hwnz : d.data.getD ((x - d.start).toNat / 64) 0 ≠ 0 := by
    intro c
    rw [c] at hbit
    simp at hbit
  have hge : d.first_block ≤ (x - d.start).toNat / 64 := by
    by_contra hc
    exact hwnz (hfz _ (by omega))
  have hle : (x - d.start).toNat / 64 ≤ d.last_block := by
    by_contra hc
    exact hwnz (hlz _ (by omega))
  exact ⟨hblk, hsh, hbit, hge, hle, hW _ (getD_mem hblk)⟩

lemma remove_inv {base : List Nat} {d : BitsetDomain} {x : Int}
    (hS : Shape d) (hT : Trailed base d)
    (hne : (BitsetDomain.remove d x).dom.size ≠ 0) :
    Shape (BitsetDomain.remove d x).dom ∧ Trailed base (BitsetDomain.remove d x).dom ∧
    (BitsetDomain.remove d x).dom.checkpoints = d.checkpoints ∧
    (BitsetDomain.remove d x).dom.start = d.start := by
  by_cases hr : x < d.start ∨ x ≥ d.start + (d.data.length : Int) * 64
  · rw [BitsetDomain.remove, if_pos hr]
    exact ⟨hS, hT, rfl, rfl⟩
  · by_cases hbitz : d.data.getD ((x - d.start).toNat / 64) 0 &&&
        (1 <<< ((x - d.start).toNat % 64)) = 0
    · rw [BitsetDomain.remove, if_neg hr]
      simp only [if_pos hbitz]
      exact ⟨hS, hT, by trivial, by trivial⟩
    · obtain ⟨hblk, hsh, hbit, hge, hle, hw64⟩ := block_facts hS hr hbitz
      obtain ⟨hW, hSz, hfl, hll, hfnz, hlnz, hfz, hlz, hml⟩ := hS
      obtain ⟨hd1data, hd1size, hd1fb, hd1lb, hd1start, hd1cp, hd1ml⟩ :=
        save_fields d ((x - d.start).toNat / 64)
      have hd1mo : (d.save ((x - d.start).toNat / 64)).modified.length =
          d.modified.length := hd1ml
      have hsub : ∀ j, (d.data.getD ((x - d.start).toNat / 64) 0 ^^^
          (1 <<< ((x - d.start).toNat % 64))).testBit j = true →
          (d.data.getD ((x - d.start).toNat / 64) 0).testBit j = true := by
        intro j hj
        rw [Nat.testBit_xor] at hj
        by_cases hjs : j = (x - d.start).toNat % 64
        · subst hjs
          exact hbit
        · rwa [Nat.shiftLeft_eq, one_mul, Nat.testBit_two_pow_of_ne
            (fun c => hjs c.symm), Bool.xor_false] at hj
      have hpc : popCount (d.data.getD ((x - d.start).toNat / 64) 0 ^^^
          (1 <<< ((x - d.start).toNat % 64))) + 1 =
          popCount (d.data.getD ((x - d.start).toNat / 64) 0) := by
        have := popCount_xor_of_subset (x := 1 <<< ((x - d.start).toNat % 64))
          (y := d.data.getD ((x - d.start).toNat / 64) 0) (fun j hj => by
            rw [Nat.shiftLeft_eq, one_mul, Nat.testBit_two_pow] at hj
            have : (x - d.start).toNat % 64 = j := by simpa using hj
            rwa [← this])
        rwa [popCount_shift_one hsh] at this
      -- name the updated block array
      have hw2lt : d.data.getD ((x - d.start).toNat / 64) 0 ^^^
          (1 <<< ((x - d.start).toNat % 64)) < 2 ^ 64 := lt_two64_of_subset hw64 hsub
      have hsum := sum_map_set d.data ((x - d.start).toNat / 64)
        (d.data.getD ((x - d.start).toNat / 64) 0 ^^^
          (1 <<< ((x - d.start).toNat % 64))) popCount hblk
      have hpcpos : 0 < popCount (d.data.getD ((x - d.start).toNat / 64) 0) :=
        popCount_pos_of_testBit hsh hbit
      have hpcle := elem_le_sum (l := d.data) popCount hblk
      -- the source checks size-after-decrement against zero
      rw [BitsetDomain.remove, if_neg hr]
      simp only [if_neg hbitz, hd1data, hd1size, hd1fb, hd1lb, hd1start, hd1cp]
      by_cases hzero : d.size - 1 = 0
      · exfalso
        apply hne
        rw [BitsetDomain.remove, if_neg hr]
        simp only [if_neg hbitz, hd1data, hd1size]
        rw [if_pos hzero]
        exact hzero
      · rw [if_neg hzero]
        -- facts about the new array
        have hsum2 : ((d.data.set ((x - d.start).toNat / 64)
            (d.data.getD ((x - d.start).toNat / 64) 0 ^^^
              (1 <<< ((x - d.start).toNat % 64)))).map popCount).sum = d.size - 1 := by
          omega
        have hlen2 : (d.data.set ((x - d.start).toNat / 64)
            (d.data.getD ((x - d.start).toNat / 64) 0 ^^^
              (1 <<< ((x - d.start).toNat % 64)))).length = d.data.length :=
          List.length_set ..
        have hex : ∃ b0, b0 < d.data.length ∧
            (d.data.set ((x - d.start).toNat / 64)
              (d.data.getD ((x - d.start).toNat / 64) 0 ^^^
                (1 <<< ((x - d.start).toNat % 64)))).getD b0 0 ≠ 0 := by
          obtain ⟨b0, hb0, hnz⟩ := sum_ne_zero_exists popCount (by rw [hsum2]; omega)
          rw [hlen2] at hb0
          refine ⟨b0, hb0, fun c => hnz ?_⟩
          rw [c, popCount_zero]
        obtain ⟨b0, hb0len, hb0nz⟩ := hex
        have hgetne : ∀ i, i ≠ (x - d.start).toNat / 64 →
            (d.data.set ((x - d.start).toNat / 64)
              (d.data.getD ((x - d.start).toNat / 64) 0 ^^^
                (1 <<< ((x - d.start).toNat % 64)))).getD i 0 = d.data.getD i 0 :=
          fun i hi => getD_set_ne _ i _ (fun c => hi c.symm)
        have hb0ge : d.first_block ≤ b0 := by
          by_contra hc
          push_neg at hc
          rw [hgetne b0 (by omega), hfz b0 hc] at hb0nz
          exact hb0nz rfl
        have hb0le : b0 ≤ d.last_block := by
          by_contra hc
          push_neg at hc
          rw [hgetne b0 (by omega), hlz b0 hc] at hb0nz
          exact hb0nz rfl
        obtain ⟨hfb1, hfb2, hfb3⟩ := skipZerosUp_spec
          (d.data.set ((x - d.start).toNat / 64)
            (d.data.getD ((x - d.start).toNat / 64) 0 ^^^
              (1 <<< ((x - d.start).toNat % 64)))) d.first_block
          (d.data.set ((x - d.start).toNat / 64)
            (d.data.getD ((x - d.start).toNat / 64) 0 ^^^
              (1 <<< ((x - d.start).toNat % 64)))).length
          ⟨b0, hb0ge, by rw [hlen2]; omega, hb0nz⟩
        obtain ⟨hlb1, hlb2, hlb3⟩ := skipZerosDown_spec
          (d.data.set ((x - d.start).toNat / 64)
            (d.data.getD ((x - d.start).toNat / 64) 0 ^^^
              (1 <<< ((x - d.start).toNat % 64)))) d.last_block (d.last_block + 1)
          ⟨b0, hb0le, by omega, hb0nz⟩
        have hfble : skipZerosUp
            (d.data.set ((x - d.start).toNat / 64)
              (d.data.getD ((x - d.start).toNat / 64) 0 ^^^
                (1 <<< ((x - d.start).toNat % 64)))) d.first_block
            (d.data.set ((x - d.start).toNat / 64)
              (d.data.getD ((x - d.start).toNat / 64) 0 ^^^
                (1 <<< ((x - d.start).toNat % 64)))).length ≤ b0 := by
          by_contra hc
          push_neg at hc
          exact hb0nz (hfb3 b0 hb0ge hc)
        have hlbge : b0 ≤ skipZerosDown
            (d.data.set ((x - d.start).toNat / 64)
              (d.data.getD ((x - d.start).toNat / 64) 0 ^^^
                (1 <<< ((x - d.start).toNat % 64)))) d.last_block (d.last_block + 1) := by
          by_contra hc
          push_neg at hc
          exact hb0nz (hlb3 b0 hc hb0le)
        refine ⟨⟨?_, ?_, ?_, ?_, hfb2, hlb2, ?_, ?_, ?_⟩, ?_, rfl, rfl⟩
        · intro w hw
          rcases List.mem_or_eq_of_mem_set hw with hmem | rfl
          · exact hW w hmem
          · exact hw2lt
        · show d.size - 1 = _
          rw [hsum2]
        · exact le_trans hfble hlbge
        · exact lt_of_le_of_lt hlb1 (by rw [hlen2]; exact hll)
        · intro i hi
          by_cases hige : d.first_block ≤ i
          · exact hfb3 i hige hi
          · rw [hgetne i (by omega)]
            exact hfz i (by omega)
        · intro i hi
          by_cases hile : i ≤ d.last_block
          · exact hlb3 i hi hile
          · rw [hgetne i (by omega)]
            exact hlz i (by omega)
        · show (d.save ((x - d.start).toNat / 64)).modified.length = _
          rw [hd1ml, hlen2, hml]
        · obtain ⟨hT1, hentry⟩ := save_trailed hT (by rw [← hT.1]; exact hblk)
            (by rw [hml]; exact hT.1)
          exact trailed_update (d := d.save ((x - d.start).toNat / 64))
            (v := d.data.getD ((x - d.start).toNat / 64) 0 ^^^
              (1 <<< ((x - d.start).toNat % 64))) hT1 rfl rfl
            (by rw [hd1data]) hentry
            (fun j hj => hT.2.2.2 ((x - d.start).toNat / 64) j (hsub j hj))

lemma ne_zero_of_testBit {w j : Nat} (h : w.testBit j = true) : w ≠ 0 := by
  intro c
  rw [c] at h
  simp at h

/-- Re-establishing the `first_block` half of the shape invariant after
the `while data[first_block] == 0` scan. -/
lemma skipUp_shape {base : List Nat} {d d3 : BitsetDomain}
    (hT3 : Trailed base d3) (hml3 : d3.modified.length = d3.data.length)
    (hW3 : ∀ w ∈ d3.data, w < 2 ^ 64)
    (hSz3 : d3.size = (d3.data.map popCount).sum)
    (hfb3 : d3.first_block = d.first_block) (hlb3 : d3.last_block = d.last_block)
    (hlen3 : d3.data.length = d.data.length)
    (hfl : d.first_block ≤ d.last_block) (hll : d.last_block < d.data.length)
    (hlbnz : d3.data.getD d.last_block 0 ≠ 0)
    (hloz : ∀ i, i < d.first_block → d3.data.getD i 0 = 0)
    (hhiz : ∀ i, d.last_block < i → d3.data.getD i 0 = 0) :
    Shape { d3 with first_block := skipZerosUp d3.data d3.first_block d3.data.length } ∧
    Trailed base { d3 with first_block := skipZerosUp d3.data d3.first_block d3.data.length } := by
  have hex : ∃ j, d3.first_block ≤ j ∧ j < d3.first_block + d3.data.length ∧
      d3.data.getD j 0 ≠ 0 := ⟨d.last_block, by omega, by omega, hlbnz⟩
  obtain ⟨hr1, hr2, hr3⟩ := skipZerosUp_spec d3.data d3.first_block d3.data.length hex
  have hrle : skipZerosUp d3.data d3.first_block d3.data.length ≤ d.last_block := by
    by_contra hc
    push_neg at hc
    exact hlbnz (hr3 d.last_block (by omega) hc)
  refine ⟨⟨hW3, hSz3, ?_, ?_, hr2, ?_, ?_, ?_, hml3⟩,
    trailed_congr hT3 rfl rfl rfl⟩
  · show skipZerosUp d3.data d3.first_block d3.data.length ≤ d3.last_block
    omega
  · show d3.last_block < d3.data.length
    omega
  · show d3.data.getD d3.last_block 0 ≠ 0
    rw [hlb3]
    exact hlbnz
  · intro i hi
    have hi2 : i < skipZerosUp d3.data d3.first_block d3.data.length := hi
    by_cases hge : d3.first_block ≤ i
    · exact hr3 i hge hi2
    · exact hloz i (by omega)
  · intro i hi
    have hi2 : d3.last_block < i := hi
    exact hhiz i (by omega)

/-- Re-establishing the `last_block` half of the shape invariant after
the `while data[last_block] == 0` scan. -/
lemma skipDown_shape {base : List Nat} {d d3 : BitsetDomain}
    (hT3 : Trailed base d3) (hml3 : d3.modified.length = d3.data.length)
    (hW3 : ∀ w ∈ d3.data, w < 2 ^ 64)
    (hSz3 : d3.size = (d3.data.map popCount).sum)
    (hfb3 : d3.first_block = d.first_block) (hlb3 : d3.last_block = d.last_block)
    (hlen3 : d3.data.length = d.data.length)
    (hfl : d.first_block ≤ d.last_block) (hll : d.last_block < d.data.length)
    (hfbnz : d3.data.getD d.first_block 0 ≠ 0)
    (hloz : ∀ i, i < d.first_block → d3.data.getD i 0 = 0)
    (hhiz : ∀ i, d.last_block < i → d3.data.getD i 0 = 0) :
    Shape { d3 with last_block := skipZerosDown d3.data d3.last_block (d3.last_block + 1) } ∧
    Trailed base
      { d3 with last_block := skipZerosDown d3.data d3.last_block (d3.last_block + 1) } := by
  have hex : ∃ j, j ≤ d3.last_block ∧ d3.last_block < j + (d3.last_block + 1) ∧
      d3.data.getD j 0 ≠ 0 := ⟨d.first_block, by omega, by omega, hfbnz⟩
  obtain ⟨hr1, hr2, hr3⟩ := skipZerosDown_spec d3.data d3.last_block (d3.last_block + 1) hex
  have hrge : d.first_block ≤ skipZerosDown d3.data d3.last_block (d3.last_block + 1) := by
    by_contra hc
    push_neg at hc
    exact hfbnz (hr3 d.first_block hc (by omega))
  refine ⟨⟨hW3, hSz3, by rw [hfb3]; exact hrge, ?_, by rw [hfb3]; exact hfbnz,
    hr2, ?_, ?_, hml3⟩, trailed_congr hT3 rfl rfl rfl⟩
  · show skipZerosDown d3.data d3.last_block (d3.last_block + 1) < d3.data.length
    omega
  · intro i hi
    rw [hfb3] at hi
    exact hloz i hi
  · intro i hi
    by_cases hle : i ≤ d3.last_block
    · exact hr3 i hi hle
    · exact hhiz i (by omega)

lemma setLb_inv {base : List Nat} {d : BitsetDomain} {x : Int}
    (hS : Shape d) (hT : Trailed base d)
    (hne : (BitsetDomain.setLb d x).dom.size ≠ 0) :
    Shape (BitsetDomain.setLb d x).dom ∧ Trailed base (BitsetDomain.setLb d x).dom ∧
    (BitsetDomain.setLb d x).dom.checkpoints = d.checkpoints ∧
    (BitsetDomain.setLb d x).dom.start = d.start := by
  by_cases hg1 : x ≤ d.getLb
  · rw [BitsetDomain.setLb, if_pos hg1]
    exact ⟨hS, hT, rfl, rfl⟩
  · by_cases hg2 : x > d.getUb
    · rw [BitsetDomain.setLb, if_neg hg1, if_pos hg2]
      exact ⟨hS, hT, rfl, rfl⟩
    · by_cases hg3 : (x - d.start).toNat / 64 ≥ d.first_block
      · obtain ⟨hW, hSz, hfl, hll, hfnz, hlnz, hfz, hlz, hml⟩ := hS
        push_neg at hg1 hg2
        have hlb64 : d.data.getD d.last_block 0 < 2 ^ 64 := hW _ (getD_mem hll)
        have hhb64 : highBit (d.data.getD d.last_block 0) < 64 := highBit_lt_64 hlnz hlb64
        have hgetlb : d.getLb = d.start +
            ((d.first_block : Int) * 64 +
              (trailingZeros (d.data.getD d.first_block 0) : Int)) := rfl
        have hgetub : d.getUb = d.start +
            ((d.last_block : Int) * 64 + (highBit (d.data.getD d.last_block 0) : Int)) := rfl
        have hxpos : d.start ≤ x := by
          rw [hgetlb] at hg1
          have h0 : (0 : Int) ≤ (d.first_block : Int) * 64 +
              (trailingZeros (d.data.getD d.first_block 0) : Int) := by positivity
          omega
        have hid_le : (x - d.start).toNat ≤ d.last_block * 64 +
            highBit (d.data.getD d.last_block 0) := by
          rw [hgetub] at hg2
          omega
        have hblk_le : (x - d.start).toNat / 64 ≤ d.last_block := by omega
        have hblk_lt : (x - d.start).toNat / 64 < d.data.length := by omega
        have hsh64 : (x - d.start).toNat % 64 < 64 := Nat.mod_lt _ (by norm_num)
        have hL : ∀ i ∈ List.range' d.first_block ((x - d.start).toNat / 64 - d.first_block),
            i < d.data.length := by
          intro i hi
          rw [List.mem_range'_1] at hi
          omega
        obtain ⟨c1, c2, c3, c4, c5, c6, c7, c8, c9, c10, c11, c12⟩ :=
          zeroFold_inv (List.range' d.first_block
            ((x - d.start).toNat / 64 - d.first_block)) d hT hml hL hW hSz
        have hblkL : (x - d.start).toNat / 64 ∉
            List.range' d.first_block ((x - d.start).toNat / 64 - d.first_block) := by
          intro hc
          rw [List.mem_range'_1] at hc
          omega
        have hW2 : (List.foldl setLbStep d (List.range' d.first_block
            ((x - d.start).toNat / 64 - d.first_block))).data.getD
              ((x - d.start).toNat / 64) 0 = d.data.getD ((x - d.start).toNat / 64) 0 :=
          c7 _ hblkL
        -- untouched blocks of the zeroing loop
        have hkeep : ∀ i, i ≠ (x - d.start).toNat / 64 →
            (i < d.first_block ∨ d.last_block < i ∨ ((x - d.start).toNat / 64 < i ∧
              i ≤ d.last_block)) →
            (List.foldl setLbStep d (List.range' d.first_block
              ((x - d.start).toNat / 64 - d.first_block))).data.getD i 0 =
              d.data.getD i 0 := by
          intro i hne2 hcases
          apply c7
          intro hc
          rw [List.mem_range'_1] at hc
          omega
        rw [BitsetDomain.setLb, if_neg (by omega : ¬x ≤ d.getLb),
          if_neg (by omega : ¬x > d.getUb)]
        simp only [if_pos hg3]
        by_cases htz : (x - d.start).toNat % 64 > trailingZeros
            ((List.foldl setLbStep d (List.range' d.first_block
              ((x - d.start).toNat / 64 - d.first_block))).data.getD
              ((x - d.start).toNat / 64) 0)
        · -- the partial block is masked
          obtain ⟨hd1data, hd1size, hd1fb, hd1lb, hd1start, hd1cp, hd1ml⟩ :=
            save_fields (List.foldl setLbStep d (List.range' d.first_block
              ((x - d.start).toNat / 64 - d.first_block))) ((x - d.start).toNat / 64)
          obtain ⟨hT2s, hentry⟩ := save_trailed c1 (by rw [← c1.1, c5]; exact hblk_lt)
            (by rw [c2, c1.1])
          simp only [if_pos htz]
          simp only [hd1data, hd1size, hd1fb, hd1lb, hd1start, hd1cp]
          simp only [hW2]
          by_cases hz : (List.foldl setLbStep d (List.range' d.first_block
              ((x - d.start).toNat / 64 - d.first_block))).size -
              popCount (d.data.getD ((x - d.start).toNat / 64) 0 &&&
                (1 <<< ((x - d.start).toNat % 64) - 1)) = 0
          · exfalso
            apply hne
            rw [BitsetDomain.setLb, if_neg (by omega : ¬x ≤ d.getLb),
              if_neg (by omega : ¬x > d.getUb)]
            simp only [if_pos hg3]
            simp only [if_pos htz]
            simp only [hd1data, hd1size]
            simp only [hW2]
            rw [if_pos hz]
            exact hz
          · rw [if_neg hz]
            simp only [apply_ite BOpResult.dom, ite_self]
            set BLK := (x - d.start).toNat / 64 with hBLKd
            set SH := (x - d.start).toNat % 64 with hSHd
            set D2 := List.foldl setLbStep d
              (List.range' d.first_block (BLK - d.first_block)) with hD2d
            set D2S := D2.save BLK with hD2Sd
            set W := d.data.getD BLK 0 with hWd
            set V := W &&& (2 ^ 64 - 1 ^^^ (1 <<< SH - 1)) with hVd
            set D3 : BitsetDomain :=
              { data := D2.data.set BLK V, start := D2.start,
                first_block := D2.first_block, last_block := D2.last_block,
                size := D2.size - popCount (W &&& (1 <<< SH - 1)),
                checkpoints := D2.checkpoints, trail := D2S.trail,
                modified := D2S.modified } with hD3d
            have hblk2 : BLK < D2.data.length := by rw [c5]; exact hblk_lt
            have hw64 : W < 2 ^ 64 := by
              rw [hWd]
              exact hW _ (getD_mem hblk_lt)
            have hVsub : ∀ j, V.testBit j = true → W.testBit j = true := by
              intro j hj
              rw [hVd, Nat.testBit_and, Bool.and_eq_true] at hj
              exact hj.1
            have hV64 : V < 2 ^ 64 := lt_two64_of_subset hw64 hVsub
            have hbase : ∀ j, V.testBit j = true → (base.getD BLK 0).testBit j = true := by
              intro j hj
              apply hT.2.2.2 BLK j
              rw [← hWd]
              exact hVsub j hj
            have hT3 : Trailed base D3 :=
              trailed_update (d := D2S) (b := BLK) (v := V) hT2s rfl rfl
                (by rw [hd1data]) hentry hbase
            have hml3 : D3.modified.length = D3.data.length := by
              show D2S.modified.length = (D2.data.set BLK V).length
              rw [List.length_set, hd1ml]
              exact c2
            have hW3 : ∀ w ∈ D3.data, w < 2 ^ 64 := by
              intro w hw
              rcases List.mem_or_eq_of_mem_set hw with hmem | rfl
              · exact c3 w hmem
              · exact hV64
            have hsum := sum_map_set D2.data BLK V popCount hblk2
            rw [hW2] at hsum
            have hlesum := elem_le_sum (l := D2.data) popCount hblk2
            rw [hW2] at hlesum
            have hsplit := popCount_and_compl (m := 1 <<< SH - 1) hw64
            rw [← hVd] at hsplit
            have hSz3 : D3.size = (D3.data.map popCount).sum := by
              show D2.size - popCount (W &&& (1 <<< SH - 1)) =
                ((D2.data.set BLK V).map popCount).sum
              omega
            have hfb3 : D3.first_block = d.first_block := by
              show D2.first_block = d.first_block
              exact c8
            have hlb3 : D3.last_block = d.last_block := by
              show D2.last_block = d.last_block
              exact c9
            have hlen3 : D3.data.length = d.data.length := by
              show (D2.data.set BLK V).length = d.data.length
              rw [List.length_set]
              exact c5
            have hlbnz3 : D3.data.getD d.last_block 0 ≠ 0 := by
              show (D2.data.set BLK V).getD d.last_block 0 ≠ 0
              by_cases hbl : BLK = d.last_block
              · rw [← hbl, getD_set_self hblk2]
                have hWne : W ≠ 0 := by
                  rw [hWd, hbl]
                  exact hlnz
                have hhbW64 : highBit W < 64 := highBit_lt_64 hWne hw64
                have hdm : BLK * 64 + SH = (x - d.start).toNat := by
                  rw [hBLKd, hSHd]
                  omega
                have hSHle : SH ≤ highBit W := by
                  rw [hWd, hbl]
                  omega
                have h2 : ((2 : Nat) ^ 64 - 1).testBit (highBit W) = true := by
                  rw [Nat.testBit_two_pow_sub_one]
                  simp only [decide_eq_true_eq]
                  exact hhbW64
                have h3 : ((1 : Nat) <<< SH - 1).testBit (highBit W) = false := by
                  rw [Nat.shiftLeft_eq, one_mul, Nat.testBit_two_pow_sub_one]
                  simp only [decide_eq_false_iff_not]
                  omega
                apply ne_zero_of_testBit (j := highBit W)
                rw [hVd, Nat.testBit_and, Nat.testBit_xor, h2, h3, testBit_highBit hWne]
                rfl
              · rw [getD_set_ne BLK d.last_block V hbl, c7 d.last_block (by
                  intro hc
                  rw [List.mem_range'_1] at hc
                  omega)]
                exact hlnz
            have hloz3 : ∀ i, i < d.first_block → D3.data.getD i 0 = 0 := by
              intro i hi
              show (D2.data.set BLK V).getD i 0 = 0
              rw [getD_set_ne BLK i V (by omega), c7 i (by
                intro hc
                rw [List.mem_range'_1] at hc
                omega)]
              exact hfz i hi
            have hhiz3 : ∀ i, d.last_block < i → D3.data.getD i 0 = 0 := by
              intro i hi
              show (D2.data.set BLK V).getD i 0 = 0
              rw [getD_set_ne BLK i V (by omega), c7 i (by
                intro hc
                rw [List.mem_range'_1] at hc
                omega)]
              exact hlz i hi
            obtain ⟨hSh4, hT4⟩ := @skipUp_shape _ d D3 hT3 hml3 hW3 hSz3
              hfb3 hlb3 hlen3 hfl hll hlbnz3 hloz3 hhiz3
            exact ⟨hSh4, hT4, c11, c10⟩
        · -- no partial-block masking: the result of the zeroing loop is final
          simp only [if_neg htz]
          by_cases hz : (List.foldl setLbStep d (List.range' d.first_block
              ((x - d.start).toNat / 64 - d.first_block))).size = 0
          · exfalso
            apply hne
            rw [BitsetDomain.setLb, if_neg (by omega : ¬x ≤ d.getLb),
              if_neg (by omega : ¬x > d.getUb)]
            simp only [if_pos hg3]
            simp only [if_neg htz]
            rw [if_pos hz]
            exact hz
          · rw [if_neg hz]
            simp only [apply_ite BOpResult.dom, ite_self]
            set BLK := (x - d.start).toNat / 64 with hBLKd
            set D2 := List.foldl setLbStep d
              (List.range' d.first_block (BLK - d.first_block)) with hD2d
            have hlbnz2 : D2.data.getD d.last_block 0 ≠ 0 := by
              rw [c7 d.last_block (by
                intro hc
                rw [List.mem_range'_1] at hc
                omega)]
              exact hlnz
            have hloz2 : ∀ i, i < d.first_block → D2.data.getD i 0 = 0 := by
              intro i hi
              rw [c7 i (by
                intro hc
                rw [List.mem_range'_1] at hc
                omega)]
              exact hfz i hi
            have hhiz2 : ∀ i, d.last_block < i → D2.data.getD i 0 = 0 := by
              intro i hi
              rw [c7 i (by
                intro hc
                rw [List.mem_range'_1] at hc
                omega)]
              exact hlz i hi
            obtain ⟨hSh4, hT4⟩ := @skipUp_shape _ d D2 c1 c2 c3 c4 c8 c9 c5
              hfl hll hlbnz2 hloz2 hhiz2
            exact ⟨hSh4, hT4, c11, c10⟩
      · rw [BitsetDomain.setLb, if_neg hg1, if_neg hg2]
        simp only [if_neg (show ¬((x - d.start).toNat / 64 ≥ d.first_block) from hg3)]
        exact ⟨hS, hT, by trivial, by trivial⟩

lemma setUb_inv {base : List Nat} {d : BitsetDomain} {x : Int}
    (hS : Shape d) (hT : Trailed base d)
    (hne : (BitsetDomain.setUb d x).dom.size ≠ 0) :
    Shape (BitsetDomain.setUb d x).dom ∧ Trailed base (BitsetDomain.setUb d x).dom ∧
    (BitsetDomain.setUb d x).dom.checkpoints = d.checkpoints ∧
    (BitsetDomain.setUb d x).dom.start = d.start := by
  by_cases hg1 : x < d.getLb
  · rw [BitsetDomain.setUb, if_pos hg1]
    exact ⟨hS, hT, rfl, rfl⟩
  · by_cases hg2 : x ≥ d.getUb
    · rw [BitsetDomain.setUb, if_neg hg1, if_pos hg2]
      exact ⟨hS, hT, rfl, rfl⟩
    · by_cases hg3 : (x - d.start).toNat / 64 ≤ d.last_block
      · obtain ⟨hW, hSz, hfl, hll, hfnz, hlnz, hfz, hlz, hml⟩ := hS
        push_neg at hg1 hg2
        have hfb64 : d.data.getD d.first_block 0 < 2 ^ 64 :=
          hW _ (getD_mem (lt_of_le_of_lt hfl hll))
        have hgetlb : d.getLb = d.start +
            ((d.first_block : Int) * 64 +
              (trailingZeros (d.data.getD d.first_block 0) : Int)) := rfl
        have hxpos : d.start ≤ x := by
          rw [hgetlb] at hg1
          have h0 : (0 : Int) ≤ (d.first_block : Int) * 64 +
              (trailingZeros (d.data.getD d.first_block 0) : Int) := by positivity
          omega
        have hid_ge : d.first_block * 64 + trailingZeros (d.data.getD d.first_block 0) ≤
            (x - d.start).toNat := by
          rw [hgetlb] at hg1
          omega
        have hblk_ge : d.first_block ≤ (x - d.start).toNat / 64 := by omega
        have hblk_lt : (x - d.start).toNat / 64 < d.data.length := by omega
        have hsh64 : (x - d.start).toNat % 64 < 64 := Nat.mod_lt _ (by norm_num)
        have hL : ∀ i ∈ List.range' ((x - d.start).toNat / 64 + 1)
            (d.last_block + 1 - ((x - d.start).toNat / 64 + 1)), i < d.data.length := by
          intro i hi
          rw [List.mem_range'_1] at hi
          omega
        obtain ⟨c1, c2, c3, c4, c5, c6, c7, c8, c9, c10, c11, c12⟩ :=
          zeroFold_inv (List.range' ((x - d.start).toNat / 64 + 1)
            (d.last_block + 1 - ((x - d.start).toNat / 64 + 1))) d hT hml hL hW hSz
        have hblkL : (x - d.start).toNat / 64 ∉
            List.range' ((x - d.start).toNat / 64 + 1)
              (d.last_block + 1 - ((x - d.start).toNat / 64 + 1)) := by
          intro hc
          rw [List.mem_range'_1] at hc
          omega
        have hW2 : (List.foldl setLbStep d (List.range' ((x - d.start).toNat / 64 + 1)
            (d.last_block + 1 - ((x - d.start).toNat / 64 + 1)))).data.getD
              ((x - d.start).toNat / 64) 0 = d.data.getD ((x - d.start).toNat / 64) 0 :=
          c7 _ hblkL
        rw [BitsetDomain.setUb, if_neg (by omega : ¬x < d.getLb),
          if_neg (by omega : ¬x ≥ d.getUb)]
        simp only [if_pos hg3]
        simp only [setUbStep_eq_setLbStep]
        by_cases hlzc : leadingZeros ((List.foldl setLbStep d
            (List.range' ((x - d.start).toNat / 64 + 1)
              (d.last_block + 1 - ((x - d.start).toNat / 64 + 1)))).data.getD
            ((x - d.start).toNat / 64) 0) < 63 - (x - d.start).toNat % 64
        · -- the partial block is masked
          obtain ⟨hd1data, hd1size, hd1fb, hd1lb, hd1start, hd1cp, hd1ml⟩ :=
            save_fields (List.foldl setLbStep d (List.range' ((x - d.start).toNat / 64 + 1)
              (d.last_block + 1 - ((x - d.start).toNat / 64 + 1)))) ((x - d.start).toNat / 64)
          obtain ⟨hT2s, hentry⟩ := save_trailed c1 (by rw [← c1.1, c5]; exact hblk_lt)
            (by rw [c2, c1.1])
          simp only [if_pos hlzc]
          simp only [hd1data, hd1size, hd1fb, hd1lb, hd1start, hd1cp]
          simp only [hW2]
          by_cases hz : (List.foldl setLbStep d (List.range' ((x - d.start).toNat / 64 + 1)
              (d.last_block + 1 - ((x - d.start).toNat / 64 + 1)))).size -
              popCount (d.data.getD ((x - d.start).toNat / 64) 0 &&&
                (2 ^ 64 - 1 ^^^ (2 <<< ((x - d.start).toNat % 64) - 1))) = 0
          · exfalso
            apply hne
            rw [BitsetDomain.setUb, if_neg (by omega : ¬x < d.getLb),
              if_neg (by omega : ¬x ≥ d.getUb)]
            simp only [if_pos hg3]
            simp only [setUbStep_eq_setLbStep]
            simp only [if_pos hlzc]
            simp only [hd1data, hd1size]
            simp only [hW2]
            rw [if_pos hz]
            exact hz
          · rw [if_neg hz]
            simp only [apply_ite BOpResult.dom, ite_self]
            set BLK := (x - d.start).toNat / 64 with hBLKd
            set SH := (x - d.start).toNat % 64 with hSHd
            set D2 := List.foldl setLbStep d
              (List.range' (BLK + 1) (d.last_block + 1 - (BLK + 1))) with hD2d
            set D2S := D2.save BLK with hD2Sd
            set W := d.data.getD BLK 0 with hWd
            set V := W &&& (2 <<< SH - 1) with hVd
            set D3 : BitsetDomain :=
              { data := D2.data.set BLK V, start := D2.start,
                first_block := D2.first_block, last_block := D2.last_block,
                size := D2.size - popCount (W &&& (2 ^ 64 - 1 ^^^ (2 <<< SH - 1))),
                checkpoints := D2.checkpoints, trail := D2S.trail,
                modified := D2S.modified } with hD3d
            have hblk2 : BLK < D2.data.length := by rw [c5]; exact hblk_lt
            have hw64 : W < 2 ^ 64 := by
              rw [hWd]
              exact hW _ (getD_mem hblk_lt)
            have hVsub : ∀ j, V.testBit j = true → W.testBit j = true := by
              intro j hj
              rw [hVd, Nat.testBit_and, Bool.and_eq_true] at hj
              exact hj.1
            have hV64 : V < 2 ^ 64 := lt_two64_of_subset hw64 hVsub
            have hbase : ∀ j, V.testBit j = true → (base.getD BLK 0).testBit j = true := by
              intro j hj
              apply hT.2.2.2 BLK j
              rw [← hWd]
              exact hVsub j hj
            have hT3 : Trailed base D3 :=
              trailed_update (d := D2S) (b := BLK) (v := V) hT2s rfl rfl
                (by rw [hd1data]) hentry hbase
            have hml3 : D3.modified.length = D3.data.length := by
              show D2S.modified.length = (D2.data.set BLK V).length
              rw [List.length_set, hd1ml]
              exact c2
            have hW3 : ∀ w ∈ D3.data, w < 2 ^ 64 := by
              intro w hw
              rcases List.mem_or_eq_of_mem_set hw with hmem | rfl
              · exact c3 w hmem
              · exact hV64
            have hsum := sum_map_set D2.data BLK V popCount hblk2
            rw [hW2] at hsum
            have hlesum := elem_le_sum (l := D2.data) popCount hblk2
            rw [hW2] at hlesum
            have hsplit := popCount_and_compl (m := 2 <<< SH - 1) hw64
            rw [← hVd] at hsplit
            have hSz3 : D3.size = (D3.data.map popCount).sum := by
              show D2.size - popCount (W &&& (2 ^ 64 - 1 ^^^ (2 <<< SH - 1))) =
                ((D2.data.set BLK V).map popCount).sum
              omega
            have hfb3 : D3.first_block = d.first_block := by
              show D2.first_block = d.first_block
              exact c8
            have hlb3 : D3.last_block = d.last_block := by
              show D2.last_block = d.last_block
              exact c9
            have hlen3 : D3.data.length = d.data.length := by
              show (D2.data.set BLK V).length = d.data.length
              rw [List.length_set]
              exact c5
            have hfbnz3 : D3.data.getD d.first_block 0 ≠ 0 := by
              show (D2.data.set BLK V).getD d.first_block 0 ≠ 0
              by_cases hbl : BLK = d.first_block
              · rw [← hbl, getD_set_self hblk2]
                have hWne : W ≠ 0 := by
                  rw [hWd, hbl]
                  exact hfnz
                have hdm : BLK * 64 + SH = (x - d.start).toNat := by
                  rw [hBLKd, hSHd]
                  omega
                have hTZle : trailingZeros W ≤ SH := by
                  rw [hWd, hbl]
                  omega
                have hp2 : (2 : Nat) <<< SH = 2 ^ (SH + 1) := by
                  rw [Nat.shiftLeft_eq, Nat.pow_succ, Nat.mul_comm]
                have h3 : ((2 : Nat) <<< SH - 1).testBit (trailingZeros W) = true := by
                  rw [hp2, Nat.testBit_two_pow_sub_one]
                  simp only [decide_eq_true_eq]
                  omega
                apply ne_zero_of_testBit (j := trailingZeros W)
                rw [hVd, Nat.testBit_and, h3, testBit_trailingZeros hWne hw64]
                rfl
              · rw [getD_set_ne BLK d.first_block V hbl, c7 d.first_block (by
                  intro hc
                  rw [List.mem_range'_1] at hc
                  omega)]
                exact hfnz
            have hloz3 : ∀ i, i < d.first_block → D3.data.getD i 0 = 0 := by
              intro i hi
              show (D2.data.set BLK V).getD i 0 = 0
              rw [getD_set_ne BLK i V (by omega), c7 i (by
                intro hc
                rw [List.mem_range'_1] at hc
                omega)]
              exact hfz i hi
            have hhiz3 : ∀ i, d.last_block < i → D3.data.getD i 0 = 0 := by
              intro i hi
              show (D2.data.set BLK V).getD i 0 = 0
              rw [getD_set_ne BLK i V (by omega), c7 i (by
                intro hc
                rw [List.mem_range'_1] at hc
                omega)]
              exact hlz i hi
            obtain ⟨hSh4, hT4⟩ := @skipDown_shape _ d D3 hT3 hml3 hW3 hSz3
              hfb3 hlb3 hlen3 hfl hll hfbnz3 hloz3 hhiz3
            exact ⟨hSh4, hT4, c11, c10⟩
        · -- no partial-block masking: the result of the zeroing loop is final
          simp only [if_neg hlzc]
          by_cases hz : (List.foldl setLbStep d (List.range' ((x - d.start).toNat / 64 + 1)
              (d.last_block + 1 - ((x - d.start).toNat / 64 + 1)))).size = 0
          · exfalso
            apply hne
            rw [BitsetDomain.setUb, if_neg (by omega : ¬x < d.getLb),
              if_neg (by omega : ¬x ≥ d.getUb)]
            simp only [if_pos hg3]
            simp only [setUbStep_eq_setLbStep]
            simp only [if_neg hlzc]
            rw [if_pos hz]
            exact hz
          · rw [if_neg hz]
            simp only [apply_ite BOpResult.dom, ite_self]
            set BLK := (x - d.start).toNat / 64 with hBLKd
            set D2 := List.foldl setLbStep d
              (List.range' (BLK + 1) (d.last_block + 1 - (BLK + 1))) with hD2d
            have hfbnz2 : D2.data.getD d.first_block 0 ≠ 0 := by
              rw [c7 d.first_block (by
                intro hc
                rw [List.mem_range'_1] at hc
                omega)]
              exact hfnz
            have hloz2 : ∀ i, i < d.first_block → D2.data.getD i 0 = 0 := by
              intro i hi
              rw [c7 i (by
                intro hc
                rw [List.mem_range'_1] at hc
                omega)]
              exact hfz i hi
            have hhiz2 : ∀ i, d.last_block < i → D2.data.getD i 0 = 0 := by
              intro i hi
              rw [c7 i (by
                intro hc
                rw [List.mem_range'_1] at hc
                omega)]
              exact hlz i hi
            obtain ⟨hSh4, hT4⟩ := @skipDown_shape _ d D2 c1 c2 c3 c4 c8 c9 c5
              hfl hll hfbnz2 hloz2 hhiz2
            exact ⟨hSh4, hT4, c11, c10⟩
      · rw [BitsetDomain.setUb, if_neg hg1, if_neg hg2]
        simp only [if_neg (show ¬((x - d.start).toNat / 64 ≤ d.last_block) from hg3)]
        exact ⟨hS, hT, by trivial, by trivial⟩

lemma trailed_congr_getD {base : List Nat} {d d2 : BitsetDomain} (hT : Trailed base d)
    (htr : d2.trail = d.trail) (hmo : d2.modified = d.modified)
    (hlen : d2.data.length = d.data.length)
    (hda : ∀ b, d2.data.getD b 0 = d.data.getD b 0) : Trailed base d2 := by
  obtain ⟨hl, hT1, hT3, hT4⟩ := hT
  refine ⟨by rw [hlen]; exact hl, ?_, ?_, ?_⟩
  · intro p hp
    rw [htr] at hp ⊢
    rw [hmo]
    exact hT1 p hp
  · intro b hb hnone
    rw [htr] at hnone
    rw [hda]
    exact hT3 b hb hnone
  · intro b j hbit
    rw [hda] at hbit
    exact hT4 b j hbit

lemma getD_set_zero {l : List Nat} {i : Nat} (h : l.getD i 0 = 0) :
    ∀ b, (l.set i 0).getD b 0 = l.getD b 0 := by
  intro b
  by_cases hbi : b = i
  · subst hbi
    by_cases hlt : b < l.length
    · rw [getD_set_self hlt, h]
    · rw [List.set_eq_of_length_le (by omega)]
  · rw [getD_set_ne i b 0 (fun c => hbi c.symm)]

lemma save_trail_persist {d : BitsetDomain} (b : Nat) {p j : Nat} (hp : p < d.trail.length)
    (hj : (d.trail.getD p (0, 0)).1 = j) :
    p < (d.save b).trail.length ∧ ((d.save b).trail.getD p (0, 0)).1 = j := by
  rw [save]
  by_cases hc : d.modified.getD b 0 ≥ d.trail.length ∨
      (d.trail.getD (d.modified.getD b 0) (0, 0)).1 ≠ b
  · rw [if_pos hc]
    refine ⟨?_, ?_⟩
    · show p < (d.trail ++ [(b, d.data.getD b 0)]).length
      rw [List.length_append, List.length_singleton]
      omega
    · show ((d.trail ++ [(b, d.data.getD b 0)]).getD p (0, 0)).1 = j
      rw [getD_append_left hp]
      exact hj
  · rw [if_neg hc]
    exact ⟨hp, hj⟩

/-- The zeroing loop of `assign` preserves trail coherence, zeroes exactly
the listed blocks, leaves the other fields alone, and guarantees a trail
entry for the target block once it has been visited. -/
lemma assignFold_inv {base : List Nat} (block : Nat) (L : List Nat) (d : BitsetDomain)
    (hT : Trailed base d) (hml : d.modified.length = d.data.length)
    (hLlt : ∀ i ∈ L, i < d.data.length)
    (hW : ∀ w ∈ d.data, w < 2 ^ 64) :
    Trailed base (L.foldl (assignStep block) d) ∧
    (L.foldl (assignStep block) d).modified.length =
      (L.foldl (assignStep block) d).data.length ∧
    (∀ w ∈ (L.foldl (assignStep block) d).data, w < 2 ^ 64) ∧
    (L.foldl (assignStep block) d).data.length = d.data.length ∧
    (∀ i ∈ L, (L.foldl (assignStep block) d).data.getD i 0 = 0) ∧
    (∀ i, i ∉ L → (L.foldl (assignStep block) d).data.getD i 0 = d.data.getD i 0) ∧
    (L.foldl (assignStep block) d).first_block = d.first_block ∧
    (L.foldl (assignStep block) d).last_block = d.last_block ∧
    (L.foldl (assignStep block) d).start = d.start ∧
    (L.foldl (assignStep block) d).checkpoints = d.checkpoints ∧
    ((∃ p, p < d.trail.length ∧ (d.trail.getD p (0, 0)).1 = block) ∨ block ∈ L →
      ∃ p, p < (L.foldl (assignStep block) d).trail.length ∧
        ((L.foldl (assignStep block) d).trail.getD p (0, 0)).1 = block) := by
  induction L generalizing d with
  | nil =>
    refine ⟨hT, hml, hW, rfl, by simp, fun i _ => rfl, rfl, rfl, rfl, rfl, ?_⟩
    rintro (hex | hbl)
    · exact hex
    · exact absurd hbl (List.not_mem_nil _)
  | cons i L ih =>
    rw [List.foldl_cons]
    have hilt : i < d.data.length := hLlt i (List.mem_cons_self i L)
    by_cases hcond : i = block ∨ d.data.getD i 0 ≠ 0
    · obtain ⟨hd1data, hd1size, hd1fb, hd1lb, hd1start, hd1cp, hd1ml⟩ := save_fields d i
      obtain ⟨hT1, hentry⟩ := save_trailed hT (by rw [← hT.1]; exact hilt)
        (by rw [hml]; exact hT.1)
      have hstep : assignStep block d i =
          { d.save i with data := (d.save i).data.set i 0 } := by
        simp only [assignStep, if_pos hcond]
      rw [hstep]
      have hT2 : Trailed base { d.save i with data := (d.save i).data.set i 0 } :=
        trailed_update (d := d.save i) (v := 0) hT1 rfl rfl rfl hentry (by simp)
      obtain ⟨c1, c2, c3, c4, c5, c6, c7, c8, c9, c10, c11⟩ := ih
        { d.save i with data := (d.save i).data.set i 0 }
        hT2
        (by
          show (d.save i).modified.length = ((d.save i).data.set i 0).length
          rw [List.length_set, hd1ml, hd1data]
          exact hml)
        (by
          intro j hj
          show j < ((d.save i).data.set i 0).length
          rw [List.length_set, hd1data]
          exact hLlt j (List.mem_cons_of_mem _ hj))
        (by
          intro w hw
          show w < 2 ^ 64
          have hw2 : w ∈ (d.save i).data.set i 0 := hw
          rw [hd1data] at hw2
          rcases List.mem_or_eq_of_mem_set hw2 with hmem | rfl
          · exact hW w hmem
          · positivity)
      refine ⟨c1, c2, c3, ?_, ?_, ?_, ?_, ?_, ?_, ?_, ?_⟩
      · rw [c4]
        show ((d.save i).data.set i 0).length = d.data.length
        rw [List.length_set, hd1data]
      · intro j hj
        rcases List.mem_cons.1 hj with heq | hm
        · rw [heq]
          by_cases hiL : i ∈ L
          · exact c5 i hiL
          · rw [c6 i hiL]
            show ((d.save i).data.set i 0).getD i 0 = 0
            rw [hd1data, getD_set_self hilt]
        · exact c5 j hm
      · intro j hj
        have hji : j ≠ i := fun c => hj (c ▸ List.mem_cons_self i L)
        have hjL : j ∉ L := fun c => hj (List.mem_cons_of_mem _ c)
        rw [c6 j hjL]
        show ((d.save i).data.set i 0).getD j 0 = _
        rw [hd1data, getD_set_ne i j 0 (fun c => hji c.symm)]
      · rw [c7]; exact hd1fb
      · rw [c8]; exact hd1lb
      · rw [c9]; exact hd1start
      · rw [c10]; exact hd1cp
      · intro hdisj
        apply c11
        rcases hdisj with hex | hbl
        · left
          obtain ⟨p, hp, hpe⟩ := hex
          obtain ⟨hp2, hpe2⟩ := save_trail_persist i hp hpe
          exact ⟨p, hp2, hpe2⟩
        · rcases List.mem_cons.1 hbl with heq | hbl2
          · left
            obtain ⟨p, hp, hpe⟩ := hentry
            exact ⟨p, hp, by rw [heq]; exact hpe⟩
          · right
            exact hbl2
    · have hstep : assignStep block d i = { d with data := d.data.set i 0 } := by
        simp only [assignStep, if_neg hcond]
      push_neg at hcond
      obtain ⟨hib, hiz⟩ := hcond
      rw [hstep]
      have hT2 : Trailed base { d with data := d.data.set i 0 } :=
        trailed_congr_getD hT rfl rfl
          (by show (d.data.set i 0).length = d.data.length; rw [List.length_set])
          (getD_set_zero hiz)
      obtain ⟨c1, c2, c3, c4, c5, c6, c7, c8, c9, c10, c11⟩ := ih
        { d with data := d.data.set i 0 }
        hT2
        (by
          show d.modified.length = (d.data.set i 0).length
          rw [List.length_set]
          exact hml)
        (by
          intro j hj
          show j < (d.data.set i 0).length
          rw [List.length_set]
          exact hLlt j (List.mem_cons_of_mem _ hj))
        (by
          intro w hw
          show w < 2 ^ 64
          have hw2 : w ∈ d.data.set i 0 := hw
          rcases List.mem_or_eq_of_mem_set hw2 with hmem | rfl
          · exact hW w hmem
          · positivity)
      refine ⟨c1, c2, c3, ?_, ?_, ?_, ?_, ?_, ?_, ?_, ?_⟩
      · rw [c4]
        show (d.data.set i 0).length = d.data.length
        rw [List.length_set]
      · intro j hj
        rcases List.mem_cons.1 hj with heq | hm
        · rw [heq]
          by_cases hiL : i ∈ L
          · exact c5 i hiL
          · rw [c6 i hiL]
            show (d.data.set i 0).getD i 0 = 0
            rw [getD_set_zero hiz i]
            exact hiz
        · exact c5 j hm
      · intro j hj
        have hjL : j ∉ L := fun c => hj (List.mem_cons_of_mem _ c)
        rw [c6 j hjL]
        show (d.data.set i 0).getD j 0 = _
        rw [getD_set_zero hiz j]
      · rw [c7]
      · rw [c8]
      · rw [c9]
      · rw [c10]
      · intro hdisj
        apply c11
        rcases hdisj with hex | hbl
        · left
          exact hex
        · rcases List.mem_cons.1 hbl with heq | hbl2
          · exact absurd heq.symm hib
          · right
            exact hbl2

lemma assign_inv {base : List Nat} {d : BitsetDomain} {x : Int}
    (hS : Shape d) (hT : Trailed base d)
    (hne : (BitsetDomain.assign d x).dom.size ≠ 0) :
    Shape (BitsetDomain.assign d x).dom ∧ Trailed base (BitsetDomain.assign d x).dom ∧
    (BitsetDomain.assign d x).dom.checkpoints = d.checkpoints ∧
    (BitsetDomain.assign d x).dom.start = d.start := by
  by_cases hr : x < d.start ∨ x ≥ d.start + (d.data.length : Int) * 64
  · rw [BitsetDomain.assign, if_pos hr]
    exact ⟨hS, hT, rfl, rfl⟩
  · by_cases hbitz : d.data.getD ((x - d.start).toNat / 64) 0 &&&
        (1 <<< ((x - d.start).toNat % 64)) = 0
    · rw [BitsetDomain.assign, if_neg hr]
      simp only [if_pos hbitz]
      exact ⟨hS, hT, by trivial, by trivial⟩
    · by_cases hsz1 : d.size = 1
      · rw [BitsetDomain.assign, if_neg hr]
        simp only [if_neg hbitz, if_pos hsz1]
        exact ⟨hS, hT, by trivial, by trivial⟩
      · obtain ⟨hblk, hsh, hbit, hge, hle, hw64⟩ := block_facts hS hr hbitz
        obtain ⟨hW, hSz, hfl, hll, hfnz, hlnz, hfz, hlz, hml⟩ := hS
        have hL : ∀ i ∈ List.range' d.first_block (d.last_block + 1 - d.first_block),
            i < d.data.length := by
          intro i hi
          rw [List.mem_range'_1] at hi
          omega
        obtain ⟨c1, c2, c3, c4, c5, c6, c7, c8, c9, c10, c11⟩ :=
          @assignFold_inv base ((x - d.start).toNat / 64)
            (List.range' d.first_block (d.last_block + 1 - d.first_block)) d hT hml hL hW
        have hmem : (x - d.start).toNat / 64 ∈
            List.range' d.first_block (d.last_block + 1 - d.first_block) := by
          rw [List.mem_range'_1]
          omega
        rw [BitsetDomain.assign, if_neg hr]
        simp only [if_neg hbitz, if_neg hsz1]
        set BLK := (x - d.start).toNat / 64 with hBLKd
        set SH := (x - d.start).toNat % 64 with hSHd
        set D2 := List.foldl (assignStep BLK) d
          (List.range' d.first_block (d.last_block + 1 - d.first_block)) with hD2d
        have hblk2 : BLK < D2.data.length := by rw [c4]; exact hblk
        have hshne : (1 : Nat) <<< SH ≠ 0 := by
          rw [Nat.shiftLeft_eq, one_mul]
          exact pow_ne_zero _ (by norm_num)
        have hsh64v : (1 : Nat) <<< SH < 2 ^ 64 := by
          rw [Nat.shiftLeft_eq, one_mul]
          exact Nat.pow_lt_pow_right (by norm_num) hsh
        have hallz : ∀ b, D2.data.getD b 0 = 0 := by
          intro b
          by_cases hbL : b ∈ List.range' d.first_block (d.last_block + 1 - d.first_block)
          · exact c5 b hbL
          · rw [c6 b hbL]
            rw [List.mem_range'_1] at hbL
            push_neg at hbL
            by_cases hbf : b < d.first_block
            · exact hfz b hbf
            · exact hlz b (by omega)
        have hsum0 : (D2.data.map popCount).sum = 0 := by
          apply List.sum_eq_zero
          intro y hy
          rw [List.mem_map] at hy
          obtain ⟨w, hw, rfl⟩ := hy
          obtain ⟨b, hb, rfl⟩ := mem_exists_getD hw
          rw [hallz b]
          exact popCount_zero
        have hsum := sum_map_set D2.data BLK (1 <<< SH) popCount hblk2
        rw [hallz BLK, popCount_zero, popCount_shift_one hsh, hsum0] at hsum
        have hsub : ∀ j, ((1 : Nat) <<< SH).testBit j = true →
            (base.getD BLK 0).testBit j = true := by
          intro j hj
          rw [Nat.shiftLeft_eq, one_mul, Nat.testBit_two_pow] at hj
          have hjs : SH = j := by simpa using hj
          apply hT.2.2.2 BLK j
          rw [← hjs]
          exact hbit
        have hentry : ∃ p, p < D2.trail.length ∧ (D2.trail.getD p (0, 0)).1 = BLK :=
          c11 (Or.inr hmem)
        have hT3 : Trailed base
            { data := D2.data.set BLK (1 <<< SH), start := D2.start, first_block := BLK,
              last_block := BLK, size := 1, checkpoints := D2.checkpoints,
              trail := D2.trail, modified := D2.modified } :=
          trailed_update (d := D2) (b := BLK) (v := 1 <<< SH) c1 rfl rfl rfl hentry hsub
        refine ⟨⟨?_, ?_, ?_, ?_, ?_, ?_, ?_, ?_, ?_⟩, hT3, c10, c9⟩
        · intro w hw
          have hw2 : w ∈ D2.data.set BLK (1 <<< SH) := hw
          rcases List.mem_or_eq_of_mem_set hw2 with hmem2 | rfl
          · exact c3 w hmem2
          · exact hsh64v
        · show (1 : Nat) = ((D2.data.set BLK (1 <<< SH)).map popCount).sum
          omega
        · show BLK ≤ BLK
          exact le_refl BLK
        · show BLK < (D2.data.set BLK (1 <<< SH)).length
          rw [List.length_set]
          exact hblk2
        · show (D2.data.set BLK (1 <<< SH)).getD BLK 0 ≠ 0
          rw [getD_set_self hblk2]
          exact hshne
        · show (D2.data.set BLK (1 <<< SH)).getD BLK 0 ≠ 0
          rw [getD_set_self hblk2]
          exact hshne
        · intro i hi
          have hi2 : i < BLK := hi
          show (D2.data.set BLK (1 <<< SH)).getD i 0 = 0
          rw [getD_set_ne BLK i _ (by omega)]
          exact hallz i
        · intro i hi
          have hi2 : BLK < i := hi
          show (D2.data.set BLK (1 <<< SH)).getD i 0 = 0
          rw [getD_set_ne BLK i _ (by omega)]
          exact hallz i
        · show D2.modified.length = (D2.data.set BLK (1 <<< SH)).length
          rw [List.length_set]
          exact c2

lemma getD_mem_pair {l : List (Nat × Nat)} {p : Nat} (h : p < l.length) :
    l.getD p (0, 0) ∈ l := by
  induction l generalizing p with
  | nil => simp at h
  | cons a t ih =>
    cases p with
    | zero => exact List.mem_cons_self _ _
    | succ p => exact List.mem_cons_of_mem _ (ih (by simpa using h))

lemma mem_exists_getD_pair {l : List (Nat × Nat)} {e : Nat × Nat} (h : e ∈ l) :
    ∃ p, p < l.length ∧ l.getD p (0, 0) = e := by
  induction l with
  | nil => simp at h
  | cons a t ih =>
    rcases List.mem_cons.1 h with rfl | hm
    · exact ⟨0, by simp, rfl⟩
    · obtain ⟨p, hp, hg⟩ := ih hm
      exact ⟨p + 1, by simpa using hp, by simpa using hg⟩

lemma list_eq_of_getD {l1 l2 : List Nat} (hlen : l1.length = l2.length)
    (h : ∀ b, l1.getD b 0 = l2.getD b 0) : l1 = l2 := by
  induction l1 generalizing l2 with
  | nil =>
    cases l2 with
    | nil => rfl
    | cons a t => simp at hlen
  | cons a t ih =>
    cases l2 with
    | nil => simp at hlen
    | cons b t2 =>
      have h0 := h 0
      simp only [List.getD_cons_zero] at h0
      subst h0
      have ht := @ih t2 (by simpa using hlen) (fun n => by simpa using h (n + 1))
      rw [ht]

/-- Replaying a trail suffix whose entries hold checkpoint values restores
the block array to `base`, keeps the size bookkeeping, and moves the block
bounds back to the checkpoint bounds `F`/`Lb`. -/
lemma rollbackFold_inv {base : List Nat} {F Lb : Nat}
    (hFzero : ∀ i, i < F → base.getD i 0 = 0) (hGF : base.getD F 0 ≠ 0)
    (hLzero : ∀ i, Lb < i → base.getD i 0 = 0) (hGL : base.getD Lb 0 ≠ 0)
    (L : List (Nat × Nat)) (dcur : BitsetDomain)
    (hlen : dcur.data.length = base.length)
    (hsum : dcur.size = (dcur.data.map popCount).sum)
    (hsub : ∀ b j, (dcur.data.getD b 0).testBit j = true →
      (base.getD b 0).testBit j = true)
    (hrest : ∀ b, (∀ e ∈ L, e.1 ≠ b) → dcur.data.getD b 0 = base.getD b 0)
    (hLbase : ∀ e ∈ L, e.1 < base.length ∧ e.2 = base.getD e.1 0)
    (hIfb : dcur.first_block = F ∨ (F < dcur.first_block ∧
      dcur.data.getD F 0 = 0 ∧ ∃ e ∈ L, e.1 = F))
    (hIlb : dcur.last_block = Lb ∨ (dcur.last_block < Lb ∧
      dcur.data.getD Lb 0 = 0 ∧ ∃ e ∈ L, e.1 = Lb)) :
    (∀ b, (L.foldl rollbackStep dcur).data.getD b 0 = base.getD b 0) ∧
    (L.foldl rollbackStep dcur).data.length = base.length ∧
    (L.foldl rollbackStep dcur).size =
      ((L.foldl rollbackStep dcur).data.map popCount).sum ∧
    (L.foldl rollbackStep dcur).first_block = F ∧
    (L.foldl rollbackStep dcur).last_block = Lb ∧
    (L.foldl rollbackStep dcur).start = dcur.start ∧
    (L.foldl rollbackStep dcur).checkpoints = dcur.checkpoints ∧
    (L.foldl rollbackStep dcur).trail = dcur.trail ∧
    (L.foldl rollbackStep dcur).modified = dcur.modified := by
  induction L generalizing dcur with
  | nil =>
    refine ⟨fun b => hrest b (by simp), hlen, hsum, ?_, ?_, rfl, rfl, rfl, rfl⟩
    · rcases hIfb with h | ⟨-, -, e, he, -⟩
      · exact h
      · exact absurd he (List.not_mem_nil _)
    · rcases hIlb with h | ⟨-, -, e, he, -⟩
      · exact h
      · exact absurd he (List.not_mem_nil _)
  | cons e L ih =>
    rw [List.foldl_cons]
    obtain ⟨he1len, he2⟩ := hLbase e (List.mem_cons_self e L)
    by_cases hdz : e.2 ^^^ dcur.data.getD e.1 0 = 0
    · have hstep : rollbackStep dcur e = dcur := by
        simp only [rollbackStep, if_pos hdz]
      rw [hstep]
      have hcur : dcur.data.getD e.1 0 = e.2 := by
        have h1 : dcur.data.getD e.1 0 ^^^ (e.2 ^^^ dcur.data.getD e.1 0) = e.2 := by
          rw [Nat.xor_comm e.2, ← Nat.xor_assoc, Nat.xor_self, Nat.zero_xor]
        rw [hdz, Nat.xor_zero] at h1
        exact h1
      refine ih dcur hlen hsum hsub ?_ ?_ ?_ ?_
      · intro b hb
        by_cases hbe : e.1 = b
        · subst hbe
          rw [hcur, he2]
        · refine hrest b ?_
          intro e2 he2m
          rcases List.mem_cons.1 he2m with heq | hm
          · rw [heq]
            exact hbe
          · exact hb e2 hm
      · exact fun e2 h => hLbase e2 (List.mem_cons_of_mem _ h)
      · rcases hIfb with h | ⟨hlt, hzF, e2, hmem2, he2F⟩
        · exact Or.inl h
        · rcases List.mem_cons.1 hmem2 with heq | hmem3
          · exfalso
            rw [heq] at he2F
            have hcF : dcur.data.getD e.1 0 = 0 := by rw [he2F]; exact hzF
            rw [hcF, he2, he2F, Nat.xor_zero] at hdz
            exact hGF hdz
          · exact Or.inr ⟨hlt, hzF, e2, hmem3, he2F⟩
      · rcases hIlb with h | ⟨hlt, hzL, e2, hmem2, he2L⟩
        · exact Or.inl h
        · rcases List.mem_cons.1 hmem2 with heq | hmem3
          · exfalso
            rw [heq] at he2L
            have hcL : dcur.data.getD e.1 0 = 0 := by rw [he2L]; exact hzL
            rw [hcL, he2, he2L, Nat.xor_zero] at hdz
            exact hGL hdz
          · exact Or.inr ⟨hlt, hzL, e2, hmem3, he2L⟩
    · have hxv : dcur.data.getD e.1 0 ^^^ (e.2 ^^^ dcur.data.getD e.1 0) = e.2 := by
        rw [Nat.xor_comm e.2, ← Nat.xor_assoc, Nat.xor_self, Nat.zero_xor]
      have hf : (rollbackStep dcur e).data = dcur.data.set e.1 e.2 ∧
          (rollbackStep dcur e).size =
            dcur.size + popCount (e.2 ^^^ dcur.data.getD e.1 0) ∧
          (rollbackStep dcur e).start = dcur.start ∧
          (rollbackStep dcur e).checkpoints = dcur.checkpoints ∧
          (rollbackStep dcur e).trail = dcur.trail ∧
          (rollbackStep dcur e).modified = dcur.modified ∧
          (rollbackStep dcur e).first_block =
            (if e.1 < dcur.first_block then e.1 else dcur.first_block) ∧
          (rollbackStep dcur e).last_block =
            (if dcur.last_block < e.1 then e.1 else dcur.last_block) := by
        simp only [rollbackStep, if_neg hdz, hxv]
        by_cases h1 : e.1 < dcur.first_block <;> by_cases h2 : dcur.last_block < e.1 <;>
          simp [h1, h2]
      obtain ⟨hfdata, hfsize, hfstart, hfcp, hftrail, hfmod, hffb, hflb⟩ := hf
      have he1lt : e.1 < dcur.data.length := by rw [hlen]; exact he1len
      have hbne : base.getD e.1 0 ≠ 0 := by
        intro hb0
        apply hdz
        have hcur0 : dcur.data.getD e.1 0 = 0 := by
          apply Nat.eq_of_testBit_eq
          intro j
          rw [Nat.zero_testBit]
          cases hc : (dcur.data.getD e.1 0).testBit j
          · rfl
          · have hx := hsub e.1 j hc
            rw [hb0] at hx
            simp at hx
        rw [hcur0, he2, hb0, Nat.xor_zero]
      have heF : F ≤ e.1 := by
        by_contra hc
        push_neg at hc
        exact hbne (hFzero e.1 hc)
      have heLb : e.1 ≤ Lb := by
        by_contra hc
        push_neg at hc
        exact hbne (hLzero e.1 hc)
      have hlen1 : (rollbackStep dcur e).data.length = base.length := by
        rw [hfdata, List.length_set]
        exact hlen
      have hgetset : ∀ b, (rollbackStep dcur e).data.getD b 0 =
          if b = e.1 then base.getD e.1 0 else dcur.data.getD b 0 := by
        intro b
        rw [hfdata]
        by_cases hb : b = e.1
        · rw [if_pos hb, hb, getD_set_self he1lt, he2]
        · rw [if_neg hb, getD_set_ne e.1 b _ (fun c => hb c.symm)]
      have hsum1 : (rollbackStep dcur e).size =
          ((rollbackStep dcur e).data.map popCount).sum := by
        have hsms := sum_map_set dcur.data e.1 e.2 popCount he1lt
        have hpc := popCount_xor_of_subset (x := dcur.data.getD e.1 0)
          (y := e.2) (by
            intro j hj
            rw [he2]
            exact hsub e.1 j hj)
        rw [hfsize, hfdata, hsum]
        omega
      have hsub1 : ∀ b j, ((rollbackStep dcur e).data.getD b 0).testBit j = true →
          (base.getD b 0).testBit j = true := by
        intro b j hj
        rw [hgetset b] at hj
        by_cases hb : b = e.1
        · rw [if_pos hb] at hj
          rw [hb]
          exact hj
        · rw [if_neg hb] at hj
          exact hsub b j hj
      have hrest1 : ∀ b, (∀ e2 ∈ L, e2.1 ≠ b) →
          (rollbackStep dcur e).data.getD b 0 = base.getD b 0 := by
        intro b hb
        rw [hgetset b]
        by_cases hbe : b = e.1
        · rw [if_pos hbe, hbe]
        · rw [if_neg hbe]
          refine hrest b ?_
          intro e2 he2m
          rcases List.mem_cons.1 he2m with heq | hm
          · rw [heq]
            exact fun c => hbe c.symm
          · exact hb e2 hm
      have hLbase1 : ∀ e2 ∈ L, e2.1 < base.length ∧ e2.2 = base.getD e2.1 0 :=
        fun e2 h => hLbase e2 (List.mem_cons_of_mem _ h)
      have hIfb1 : (rollbackStep dcur e).first_block = F ∨
          (F < (rollbackStep dcur e).first_block ∧
            (rollbackStep dcur e).data.getD F 0 = 0 ∧ ∃ e2 ∈ L, e2.1 = F) := by
        rcases hIfb with hfb | ⟨hlt, hzF, e2, hmem2, he2F⟩
        · left
          rw [hffb, hfb, if_neg (by omega)]
        · by_cases he1F : e.1 = F
          · left
            rw [hffb, if_pos (by omega)]
            exact he1F
          · right
            refine ⟨?_, ?_, ?_⟩
            · rw [hffb]
              split
              · omega
              · exact hlt
            · rw [hgetset F, if_neg (fun c => he1F c.symm)]
              exact hzF
            · rcases List.mem_cons.1 hmem2 with heq | hmem3
              · exfalso
                rw [heq] at he2F
                exact he1F he2F
              · exact ⟨e2, hmem3, he2F⟩
      have hIlb1 : (rollbackStep dcur e).last_block = Lb ∨
          ((rollbackStep dcur e).last_block < Lb ∧
            (rollbackStep dcur e).data.getD Lb 0 = 0 ∧ ∃ e2 ∈ L, e2.1 = Lb) := by
        rcases hIlb with hlb | ⟨hlt, hzL, e2, hmem2, he2L⟩
        · left
          rw [hflb, hlb, if_neg (by omega)]
        · by_cases he1L : e.1 = Lb
          · left
            rw [hflb, if_pos (by omega)]
            exact he1L
          · right
            refine ⟨?_, ?_, ?_⟩
            · rw [hflb]
              split
              · omega
              · exact hlt
            · rw [hgetset Lb, if_neg (fun c => he1L c.symm)]
              exact hzL
            · rcases List.mem_cons.1 hmem2 with heq | hmem3
              · exfalso
                rw [heq] at he2L
                exact he1L he2L
              · exact ⟨e2, hmem3, he2L⟩
      obtain ⟨k1, k2, k3, k4, k5, k6, k7, k8, k9⟩ :=
        ih (rollbackStep dcur e) hlen1 hsum1 hsub1 hrest1 hLbase1 hIfb1 hIlb1
      exact ⟨k1, k2, k3, k4, k5, by rw [k6, hfstart], by rw [k7, hfcp],
        by rw [k8, hftrail], by rw [k9, hfmod]⟩

/-- Any single allowed mutation that leaves the domain nonempty preserves
the shape invariant, the trail coherence, the checkpoint stack and the
anchor. -/
lemma applyMut_inv {base : List Nat} {d : BitsetDomain} (m : Mut)
    (hS : Shape d) (hT : Trailed base d) (hne : (d.applyMut m).size ≠ 0) :
    Shape (d.applyMut m) ∧ Trailed base (d.applyMut m) ∧
    (d.applyMut m).checkpoints = d.checkpoints ∧ (d.applyMut m).start = d.start := by
  cases m with
  | assign x => exact assign_inv hS hT hne
  | remove x => exact remove_inv hS hT hne
  | setLb x => exact setLb_inv hS hT hne
  | setUb x => exact setUb_inv hS hT hne

lemma applyMuts_inv {base : List Nat} {d : BitsetDomain} (ms : List Mut)
    (hS : Shape d) (hT : Trailed base d) (hNE : d.NoEmpty ms) :
    Shape (d.applyMuts ms) ∧ Trailed base (d.applyMuts ms) ∧
    (d.applyMuts ms).checkpoints = d.checkpoints ∧
    (d.applyMuts ms).start = d.start := by
  induction ms generalizing d with
  | nil => exact ⟨hS, hT, rfl, rfl⟩
  | cons m ms ih =>
    obtain ⟨hne, hNE2⟩ := hNE
    obtain ⟨hS1, hT1, hcp1, hst1⟩ := applyMut_inv m hS hT hne
    obtain ⟨hS2, hT2, hcp2, hst2⟩ := ih (d := d.applyMut m) hS1 hT1 hNE2
    refine ⟨hS2, hT2, ?_, ?_⟩
    · show (BitsetDomain.applyMuts (d.applyMut m) ms).checkpoints = _
      rw [hcp2, hcp1]
    · show (BitsetDomain.applyMuts (d.applyMut m) ms).start = _
      rw [hst2, hst1]

/-- On the bitset representation, a checkpoint followed by any sequence of
allowed mutations that never empty the domain, followed by rollback,
restores the block array, the size, the anchor, the block bounds, and the
trail/checkpoint stacks exactly. -/
lemma checkpoint_rollback_restores (d : BitsetDomain) (ms : List Mut)
    (hS : Shape d) (hNE : d.checkpoint.NoEmpty ms) :
    ∃ r, BitsetDomain.rollback (BitsetDomain.applyMuts d.checkpoint ms) = some r ∧
      r.data = d.data ∧ r.size = d.size ∧ r.start = d.start ∧
      r.first_block = d.first_block ∧ r.last_block = d.last_block ∧
      r.checkpoints = d.checkpoints ∧ r.trail = d.trail := by
  obtain ⟨hW, hSz, hfl, hll, hfnz, hlnz, hfz, hlz, hml⟩ := hS
  have hSc : Shape d.checkpoint := ⟨hW, hSz, hfl, hll, hfnz, hlnz, hfz, hlz, hml⟩
  have hTc : Trailed d.data d.checkpoint := by
    refine ⟨rfl, ?_, ?_, ?_⟩
    · intro p hp
      exact absurd hp (by simp [BitsetDomain.checkpoint])
    · intro b hb hnone
      rfl
    · intro b j h
      exact h
  obtain ⟨hS2, hT2, hcp2, hst2⟩ := applyMuts_inv ms hSc hTc hNE
  obtain ⟨hW2, hSz2, hfl2, hll2, hfnz2, hlnz2, hfz2, hlz2, hml2⟩ := hS2
  obtain ⟨hlen2, hT1b, hT3b, hT4b⟩ := hT2
  set D2 := BitsetDomain.applyMuts d.checkpoint ms with hD2d
  have hcp2c : D2.checkpoints = d.trail :: d.checkpoints := by
    rw [hcp2]
    rfl
  have hst2c : D2.start = d.start := by
    rw [hst2]
    rfl
  have hrest0 : ∀ b, (∀ e ∈ D2.trail, e.1 ≠ b) →
      D2.data.getD b 0 = d.data.getD b 0 := by
    intro b hb
    by_cases hblt : b < d.data.length
    · exact hT3b b hblt (fun p hp => hb (D2.trail.getD p (0, 0)) (getD_mem_pair hp))
    · have h1 : D2.data.getD b 0 = 0 := by
        rw [List.getD_eq_default]
        rw [hlen2]
        omega
      have h2 : d.data.getD b 0 = 0 := by
        rw [List.getD_eq_default]
        omega
      rw [h1, h2]
  have hLbase0 : ∀ e ∈ D2.trail, e.1 < d.data.length ∧ e.2 = d.data.getD e.1 0 := by
    intro e he
    obtain ⟨p, hp, hg⟩ := mem_exists_getD_pair he
    obtain ⟨h1, h2, h3⟩ := hT1b p hp
    rw [← hg]
    exact ⟨h1, h3⟩
  have hIfb0 : D2.first_block = d.first_block ∨ (d.first_block < D2.first_block ∧
      D2.data.getD d.first_block 0 = 0 ∧ ∃ e ∈ D2.trail, e.1 = d.first_block) := by
    by_cases hfb : D2.first_block = d.first_block
    · exact Or.inl hfb
    · have hble : d.first_block ≤ D2.first_block := by
        by_contra hc
        push_neg at hc
        apply hfnz2
        apply Nat.eq_of_testBit_eq
        intro j
        rw [Nat.zero_testBit]
        cases hcb : (D2.data.getD D2.first_block 0).testBit j
        · rfl
        · have hx := hT4b D2.first_block j hcb
          rw [hfz D2.first_block hc] at hx
          simp at hx
      refine Or.inr ⟨by omega, hfz2 d.first_block (by omega), ?_⟩
      by_contra hc
      push_neg at hc
      have hres := hT3b d.first_block (lt_of_le_of_lt hfl hll)
        (fun p hp => hc (D2.trail.getD p (0, 0)) (getD_mem_pair hp))
      rw [hfz2 d.first_block (by omega)] at hres
      exact hfnz hres.symm
  have hIlb0 : D2.last_block = d.last_block ∨ (D2.last_block < d.last_block ∧
      D2.data.getD d.last_block 0 = 0 ∧ ∃ e ∈ D2.trail, e.1 = d.last_block) := by
    by_cases hlb : D2.last_block = d.last_block
    · exact Or.inl hlb
    · have hble : D2.last_block ≤ d.last_block := by
        by_contra hc
        push_neg at hc
        apply hlnz2
        apply Nat.eq_of_testBit_eq
        intro j
        rw [Nat.zero_testBit]
        cases hcb : (D2.data.getD D2.last_block 0).testBit j
        · rfl
        · have hx := hT4b D2.last_block j hcb
          rw [hlz D2.last_block hc] at hx
          simp at hx
      refine Or.inr ⟨by omega, hlz2 d.last_block (by omega), ?_⟩
      by_contra hc
      push_neg at hc
      have hres := hT3b d.last_block hll
        (fun p hp => hc (D2.trail.getD p (0, 0)) (getD_mem_pair hp))
      rw [hlz2 d.last_block (by omega)] at hres
      exact hlnz hres.symm
  obtain ⟨k1, k2, k3, k4, k5, k6, k7, k8, k9⟩ :=
    @rollbackFold_inv _ d.first_block d.last_block hfz hfnz hlz hlnz
      D2.trail D2 hlen2 hSz2 hT4b hrest0 hLbase0 hIfb0 hIlb0
  have hdata : (D2.trail.foldl rollbackStep D2).data = d.data :=
    list_eq_of_getD k2 k1
  have hroll : BitsetDomain.rollback D2 =
      some { D2.trail.foldl rollbackStep D2 with
               trail := d.trail, checkpoints := d.checkpoints } := by
    simp only [BitsetDomain.rollback, hcp2c]
  refine ⟨{ D2.trail.foldl rollbackStep D2 with
      trail := d.trail, checkpoints := d.checkpoints }, hroll,
    ?_, ?_, ?_, k4, k5, rfl, rfl⟩
  · exact hdata
  · show (D2.trail.foldl rollbackStep D2).size = d.size
    rw [k3, hdata, ← hSz]
  · show (D2.trail.foldl rollbackStep D2).start = d.start
    rw [k6, hst2c]

end BitsetDomain

namespace SmallDomain

/-- No mutation touches the checkpoint stack or the anchor of a
`SmallDomain`. -/
lemma applyMut_keeps (d : SmallDomain) (m : Mut) :
    (d.applyMut m).checkpoints = d.checkpoints := by
  cases m with
  | assign x =>
    show (SmallDomain.assign d x).dom.checkpoints = d.checkpoints
    simp only [SmallDomain.assign]
    split_ifs <;> rfl
  | remove x =>
    show (SmallDomain.remove d x).dom.checkpoints = d.checkpoints
    simp only [SmallDomain.remove, SmallDomain.discard]
    split_ifs <;> rfl
  | setLb x =>
    show (SmallDomain.setLb d x).dom.checkpoints = d.checkpoints
    simp only [SmallDomain.setLb]
    split_ifs <;> rfl
  | setUb x =>
    show (SmallDomain.setUb d x).dom.checkpoints = d.checkpoints
    simp only [SmallDomain.setUb]
    split_ifs <;> rfl

lemma applyMuts_keeps (d : SmallDomain) (ms : List Mut) :
    (d.applyMuts ms).checkpoints = d.checkpoints := by
  induction ms generalizing d with
  | nil => rfl
  | cons m ms ih =>
    show (SmallDomain.applyMuts (d.applyMut m) ms).checkpoints = d.checkpoints
    rw [ih, applyMut_keeps]

/-- On the compact representation rollback restores the full snapshot, so
the whole structure returns to its checkpoint state. -/
lemma small_checkpoint_rollback (d : SmallDomain) (ms : List Mut) :
    SmallDomain.rollback (SmallDomain.applyMuts d.checkpoint ms) = some d := by
  have hcp : (SmallDomain.applyMuts d.checkpoint ms).checkpoints =
      (d.body, d.start, d.lb, d.ub) :: d.checkpoints := by
    rw [applyMuts_keeps]
    rfl
  simp only [SmallDomain.rollback, hcp]

end SmallDomain

/-! ### Lemmas for no_sum (src/src/binpacking.rs) -/

lemma sum_take_succ_getD (s : List Int) (k : Nat) (h : k < s.length) :
    (s.take (k + 1)).sum = (s.take k).sum + s.getD k 0 := by
  rw [List.take_succ, List.sum_append, List.getD_eq_getElem s 0 h,
    List.getElem?_eq_getElem h]
  simp

lemma sum_drop_getD (s : List Int) (i : Nat) (h : i < s.length) :
    (s.drop i).sum = s.getD i 0 + (s.drop (i + 1)).sum := by
  rw [List.drop_eq_getElem_cons h, List.sum_cons, List.getD_eq_getElem s 0 h]

lemma sum_take_mono (s : List Int) (hpos : ∀ x ∈ s, (0:Int) ≤ x) {m m' : Nat}
    (h : m ≤ m') : (s.take m).sum ≤ (s.take m').sum := by
  have he : s.take m' = s.take m ++ (s.drop m).take (m' - m) := by
    rw [← List.take_add]
    congr 1
    omega
  rw [he, List.sum_append]
  have h0 : (0:Int) ≤ ((s.drop m).take (m' - m)).sum :=
    List.sum_nonneg fun a ha =>
      hpos a (((List.take_sublist _ _).trans (List.drop_sublist _ _)).subset ha)
  linarith

lemma sum_drop_anti (s : List Int) (hpos : ∀ x ∈ s, (0:Int) ≤ x) {i i' : Nat}
    (h : i ≤ i') : (s.drop i').sum ≤ (s.drop i).sum := by
  have he : s.drop i = (s.drop i).take (i' - i) ++ s.drop i' := by
    have h2 : s.drop i' = (s.drop i).drop (i' - i) := by
      rw [List.drop_drop]
      congr 1
      omega
    rw [h2]
    exact (List.take_append_drop _ _).symm
  rw [he, List.sum_append]
  have h0 : (0:Int) ≤ ((s.drop i).take (i' - i)).sum :=
    List.sum_nonneg fun a ha =>
      hpos a (((List.take_sublist _ _).trans (List.drop_sublist _ _)).subset ha)
  linarith

lemma take_sum_le_head (a : Int) (t : List Int) (m : Nat)
    (hle : ∀ x ∈ t, x ≤ a) (ha : (0:Int) ≤ a) :
    (t.take (m + 1)).sum ≤ a + (t.take m).sum := by
  induction t generalizing m with
  | nil => simpa using ha
  | cons b t ih =>
    cases m with
    | zero =>
      simp only [List.take_succ_cons, List.take_zero, List.sum_cons, List.sum_nil]
      have hb : b ≤ a := hle b (List.mem_cons_self _ _)
      linarith
    | succ m =>
      simp only [List.take_succ_cons, List.sum_cons]
      have := ih m (fun x hx => hle x (List.mem_cons_of_mem _ hx))
      linarith

lemma cons_take_sum_le (a : Int) (t : List Int) (m : Nat)
    (hle : ∀ x ∈ t, x ≤ a) (ha : (0:Int) ≤ a) :
    (t.take m).sum ≤ ((a :: t).take m).sum := by
  cases m with
  | zero => simp
  | succ m =>
    rw [List.take_succ_cons, List.sum_cons]
    exact take_sum_le_head a t m hle ha

lemma sublist_sum_le_take : ∀ {N s : List Int}, N.Sublist s →
    s.Pairwise (· ≥ ·) → (∀ x ∈ s, (0:Int) ≤ x) →
    N.sum ≤ (s.take N.length).sum := by
  intro N s h
  induction h with
  | slnil => intro _ _; simp
  | @cons l₁ l₂ a h ih =>
    intro hs hpos
    rcases List.pairwise_cons.1 hs with ⟨ha, ht⟩
    have h1 := ih ht (fun x hx => hpos x (List.mem_cons_of_mem _ hx))
    have h2 := cons_take_sum_le a l₂ l₁.length (fun x hx => ha x hx)
      (hpos a (List.mem_cons_self _ _))
    exact le_trans h1 h2
  | @cons₂ l₁ l₂ a h ih =>
    intro hs hpos
    rcases List.pairwise_cons.1 hs with ⟨_, ht⟩
    have h1 := ih ht (fun x hx => hpos x (List.mem_cons_of_mem _ hx))
    simp only [List.length_cons, List.take_succ_cons, List.sum_cons]
    linarith

lemma sublist_drop_le_sum : ∀ {N s : List Int}, N.Sublist s →
    s.Pairwise (· ≥ ·) → (∀ x ∈ s, (0:Int) ≤ x) →
    (s.drop (s.length - N.length)).sum ≤ N.sum := by
  intro N s h
  induction h with
  | slnil => intro _ _; simp
  | @cons l₁ l₂ a h ih =>
    intro hs hpos
    rcases List.pairwise_cons.1 hs with ⟨_, ht⟩
    have h1 := ih ht (fun x hx => hpos x (List.mem_cons_of_mem _ hx))
    have hlen : l₁.length ≤ l₂.length := h.length_le
    have he : (a :: l₂).length - l₁.length = (l₂.length - l₁.length) + 1 := by
      simp only [List.length_cons]
      omega
    rw [he, List.drop_succ_cons]
    exact h1
  | @cons₂ l₁ l₂ a h ih =>
    intro hs hpos
    rcases List.pairwise_cons.1 hs with ⟨ha, ht⟩
    have h1 := ih ht (fun x hx => hpos x (List.mem_cons_of_mem _ hx))
    have hlen : l₁.length ≤ l₂.length := h.length_le
    simp only [List.length_cons]
    by_cases heq : l₁.length = l₂.length
    · have : l₁ = l₂ := h.eq_of_length heq
      subst this
      simp only [Nat.sub_self, List.drop_zero]
      omega
    · have hlt : l₁.length < l₂.length := lt_of_le_of_ne hlen heq
      have he : l₂.length + 1 - (l₁.length + 1) = (l₂.length - l₁.length - 1) + 1 := by
        omega
      rw [he, List.drop_succ_cons]
      have hidx : l₂.length - l₁.length - 1 < l₂.length := by omega
      have hsum := sum_drop_getD l₂ (l₂.length - l₁.length - 1) hidx
      have he2 : l₂.length - l₁.length - 1 + 1 = l₂.length - l₁.length := by omega
      rw [he2] at hsum
      have hmem : l₂.getD (l₂.length - l₁.length - 1) 0 ∈ l₂ := by
        rw [List.getD_eq_getElem l₂ 0 hidx]
        exact List.getElem_mem hidx
      have hba : l₂.getD (l₂.length - l₁.length - 1) 0 ≤ a := ha _ hmem
      simp only [List.sum_cons]
      linarith

lemma windowSum_zero (s : List Int) (k1 : Nat) (h : k1 + 1 ≤ s.length) :
    windowSum s 0 k1 = s.getD (s.length - k1 - 1) 0 := by
  unfold windowSum
  have he : s.length - k1 - 0 - 1 = s.length - k1 - 1 := by omega
  rw [he]
  have hidx : s.length - k1 - 1 < s.length := by omega
  rw [List.drop_eq_getElem_cons hidx, List.getD_eq_getElem s 0 hidx,
    List.take_succ_cons, List.take_zero, List.sum_cons, List.sum_nil, add_zero]

lemma windowSum_extend (s : List Int) (k k1 : Nat) (hk1 : 1 ≤ k1)
    (h : k + k1 + 1 ≤ s.length) :
    windowSum s (k + 1) (k1 - 1) = windowSum s k k1 + s.getD (s.length - k1) 0 := by
  unfold windowSum
  have e0 : s.length - (k1 - 1) - (k + 1) - 1 = s.length - k1 - k - 1 := by omega
  rw [e0, List.take_succ, List.sum_append]
  congr 1
  have hlen : k + 1 < (s.drop (s.length - k1 - k - 1)).length := by
    rw [List.length_drop]; omega
  rw [List.getElem?_drop,
    (show s.length - k1 - k - 1 + (k + 1) = s.length - k1 by omega),
    List.getElem?_eq_getElem (show s.length - k1 < s.length by omega),
    List.getD_eq_getElem s 0 (show s.length - k1 < s.length by omega)]
  simp

lemma sum_window_shift (s : List Int) (t w : Nat) (hw : 1 ≤ w)
    (h : t + w < s.length) :
    ((s.drop (t + 1)).take w).sum =
      ((s.drop t).take w).sum - s.getD t 0 + s.getD (t + w) 0 := by
  obtain ⟨w', rfl⟩ : ∃ w', w = w' + 1 := ⟨w - 1, by omega⟩
  have ht : t < s.length := by omega
  have e1 : (s.drop t).take (w' + 1) =
      s.getD t 0 :: (s.drop (t + 1)).take w' := by
    rw [List.drop_eq_getElem_cons ht, List.take_succ_cons,
      List.getD_eq_getElem s 0 ht]
  have hlen : w' < (s.drop (t + 1)).length := by rw [List.length_drop]; omega
  have e2 : (s.drop (t + 1)).take (w' + 1) =
      (s.drop (t + 1)).take w' ++ [s.getD (t + (w' + 1)) 0] := by
    rw [show t + (w' + 1) = t + 1 + w' by omega]
    rw [List.take_succ, List.getElem?_drop,
      List.getElem?_eq_getElem (show t + 1 + w' < s.length by omega),
      List.getD_eq_getElem s 0 (show t + 1 + w' < s.length by omega)]
    simp
  rw [e1, e2, List.sum_cons, List.sum_append]
  simp only [List.sum_cons, List.sum_nil, add_zero]
  ring

lemma windowSum_slide (s : List Int) (k m : Nat) (hm : 1 ≤ m)
    (h : m + k + 1 ≤ s.length) :
    windowSum s k (m - 1) =
      windowSum s k m + s.getD (s.length - m) 0 -
        s.getD (s.length - m - k - 1) 0 := by
  unfold windowSum
  have e0 : s.length - (m - 1) - k - 1 = (s.length - m - k - 1) + 1 := by omega
  rw [e0, sum_window_shift s (s.length - m - k - 1) (k + 1) (by omega) (by omega)]
  have e1 : s.length - m - k - 1 + (k + 1) = s.length - m := by omega
  rw [e1]
  ring

lemma noGap (s : List Int) (hs : s.Pairwise (· ≥ ·))
    (hpos : ∀ x ∈ s, (0:Int) < x) (k k1 : Nat)
    (hrange : k + k1 + 1 ≤ s.length) (N : List Int) (hN : N.Sublist s) :
    N.sum ≤ (s.take k).sum + (s.drop (s.length - k1)).sum ∨
      windowSum s k k1 ≤ N.sum := by
  have hpos' : ∀ x ∈ s, (0:Int) ≤ x := fun x hx => le_of_lt (hpos x hx)
  have hN' : N.Sublist (s.take (s.length - k1) ++ s.drop (s.length - k1)) := by
    rw [List.take_append_drop]; exact hN
  rcases List.sublist_append_iff.1 hN' with ⟨N1, N2, hNe, h1, h2⟩
  have hPlen : (s.take (s.length - k1)).length = s.length - k1 := by
    rw [List.length_take]; omega
  have hP_sorted : (s.take (s.length - k1)).Pairwise (· ≥ ·) :=
    hs.sublist (List.take_sublist _ _)
  have hP_pos : ∀ x ∈ s.take (s.length - k1), (0:Int) ≤ x := fun x hx =>
    hpos' x ((List.take_sublist _ _).subset hx)
  by_cases hcase : N1.length ≤ k
  · left
    have e1 : N1.sum ≤ ((s.take (s.length - k1)).take N1.length).sum :=
      sublist_sum_le_take h1 hP_sorted hP_pos
    have e2 : ((s.take (s.length - k1)).take N1.length).sum ≤
        ((s.take (s.length - k1)).take k).sum := sum_take_mono _ hP_pos hcase
    have e3 : (s.take (s.length - k1)).take k = s.take k := by
      rw [List.take_take]
      congr 1
      omega
    have e4 : N2.sum ≤ (s.drop (s.length - k1)).sum :=
      List.Sublist.sum_le_sum h2 fun x hx =>
        hpos' x ((List.drop_sublist _ _).subset hx)
    rw [e3] at e2
    rw [hNe, List.sum_append]
    linarith
  · right
    push_neg at hcase
    have e1 : ((s.take (s.length - k1)).drop
        ((s.take (s.length - k1)).length - N1.length)).sum ≤ N1.sum :=
      sublist_drop_le_sum h1 hP_sorted hP_pos
    rw [hPlen] at e1
    have e2 : ((s.take (s.length - k1)).drop ((s.length - k1) - (k + 1))).sum ≤
        ((s.take (s.length - k1)).drop ((s.length - k1) - N1.length)).sum := by
      apply sum_drop_anti _ hP_pos
      omega
    have e3 : (s.take (s.length - k1)).drop ((s.length - k1) - (k + 1)) =
        (s.drop (s.length - k1 - k - 1)).take (k + 1) := by
      rw [List.drop_take]
      congr 1 <;> omega
    have e4 : (0:Int) ≤ N2.sum := List.sum_nonneg fun x hx =>
      hpos' x ((List.drop_sublist _ _).subset (h2.subset hx))
    rw [e3] at e2
    rw [hNe, List.sum_append]
    unfold windowSum
    linarith

lemma nsInit_spec (s : List Int) (l : Int) :
    ∀ (fuel : Nat) (sc : Int) (k1 : Nat),
      sc = (s.drop (s.length - k1)).sum → sc < l →
      ∀ res, nsInit s l fuel sc k1 = some res →
      res.1 = (s.drop (s.length - res.2)).sum ∧ res.1 < l ∧
        res.2 + 1 ≤ s.length := by
  intro fuel
  induction fuel with
  | zero => intro sc k1 _ _ res h; simp [nsInit] at h
  | succ fuel ih =>
    intro sc k1 hsc hlt res h
    rw [nsInit] at h
    by_cases hb : s.length < k1 + 1
    · rw [if_pos hb] at h
      exact absurd h (by simp)
    · rw [if_neg hb] at h
      by_cases hc : sc + s.getD (s.length - k1 - 1) 0 < l
      · rw [if_pos hc] at h
        refine ih _ _ ?_ hc res h
        have hidx : s.length - k1 - 1 < s.length := by omega
        have hd := sum_drop_getD s (s.length - k1 - 1) hidx
        have e1 : s.length - (k1 + 1) = s.length - k1 - 1 := by omega
        have e2 : s.length - k1 - 1 + 1 = s.length - k1 := by omega
        rw [e2] at hd
        rw [e1, hd, hsc]
        ring
      · rw [if_neg hc] at h
        rw [Option.some.injEq] at h
        subst h
        exact ⟨hsc, hlt, by omega⟩

lemma nsInner_spec (s : List Int) (l sa : Int) (k : Nat) :
    ∀ (fuel : Nat) (sb sc : Int) (k1 : Nat),
      sb = windowSum s k k1 → sc = (s.drop (s.length - k1)).sum →
      k + k1 + 1 ≤ s.length →
      ∀ res, nsInner s l sa k fuel (sb, sc, k1) = some res →
      res.1 = windowSum s k res.2.2 ∧
        res.2.1 = (s.drop (s.length - res.2.2)).sum ∧
        k + res.2.2 + 1 ≤ s.length ∧ sa + res.2.1 < l := by
  intro fuel
  induction fuel with
  | zero => intro sb sc k1 _ _ _ res h; simp [nsInner] at h
  | succ fuel ih =>
    intro sb sc k1 hsb hsc hrange res h
    rw [nsInner] at h
    by_cases hge : sa + sc ≥ l
    · rw [if_pos hge] at h
      by_cases hz : k1 = 0
      · rw [if_pos hz] at h
        exact absurd h (by simp)
      · rw [if_neg hz] at h
        by_cases hbd : s.length < (k1 - 1) + k + 2
        · rw [if_pos hbd] at h
          exact absurd h (by simp)
        · rw [if_neg hbd] at h
          have hk1 : 1 ≤ k1 := Nat.one_le_iff_ne_zero.2 hz
          have hn : k1 + k + 1 ≤ s.length := by omega
          refine ih _ _ _ ?_ ?_ (by omega) res h
          · -- window slide
            have hsl := windowSum_slide s k k1 hk1 (by omega)
            rw [hsb, hsl]
            have e1 : s.length - (k1 - 1) - 1 = s.length - k1 := by omega
            have e2 : s.length - (k1 - 1) - k - 2 = s.length - k1 - k - 1 := by
              omega
            rw [e1, e2]
          · -- suffix sum
            have hidx : s.length - k1 < s.length := by omega
            have hd := sum_drop_getD s (s.length - k1) hidx
            have e1 : s.length - (k1 - 1) - 1 = s.length - k1 := by omega
            have e2 : s.length - k1 + 1 = s.length - (k1 - 1) := by omega
            rw [e2] at hd
            rw [e1, hsc, hd]
            ring
    · rw [if_neg hge] at h
      rw [Option.some.injEq] at h
      subst h
      refine ⟨hsb, hsc, hrange, ?_⟩
      show sa + sc < l
      omega

lemma nsMain_ge_false (s : List Int) (l r : Int) (fuel : Nat)
    (sa sb sc : Int) (k k1 : Nat) (hge : l ≤ sa) (res : Bool × Int × Int)
    (h : nsMain s l r fuel (sa, sb, sc, k, k1) = some res) : res.1 = false := by
  cases fuel with
  | zero => simp [nsMain] at h
  | succ fuel =>
    rw [nsMain] at h
    rw [if_neg (by omega : ¬(sa < l ∧ sb ≤ r))] at h
    rw [Option.some.injEq] at h
    subst h
    simp only [decide_eq_false_iff_not]
    omega

lemma nsMain_spec (s : List Int) (l r : Int) :
    ∀ (fuel : Nat) (sa sb sc : Int) (k k1 : Nat),
      sa = (s.take k).sum → sb = windowSum s k k1 →
      sc = (s.drop (s.length - k1)).sum → k + k1 + 1 ≤ s.length →
      (sa + sc < l ∨ l ≤ sa) →
      ∀ l1 r1, nsMain s l r fuel (sa, sb, sc, k, k1) = some (true, l1, r1) →
      ∃ kf k1f : Nat, kf + k1f + 1 ≤ s.length ∧
        l1 = (s.take kf).sum + (s.drop (s.length - k1f)).sum ∧
        r1 = windowSum s kf k1f ∧ l1 < l ∧ r < r1 := by
  intro fuel
  induction fuel with
  | zero => intro sa sb sc k k1 _ _ _ _ _ l1 r1 h; simp [nsMain] at h
  | succ fuel ih =>
    intro sa sb sc k k1 hsa hsb hsc hrange hB l1 r1 h
    rw [nsMain] at h
    by_cases hcond : sa < l ∧ sb ≤ r
    · rw [if_pos hcond] at h
      by_cases hk : s.length ≤ k
      · rw [if_pos hk] at h
        exact absurd h (by simp)
      · rw [if_neg hk] at h
        have hsa2 : sa + s.getD k 0 = (s.take (k + 1)).sum := by
          rw [hsa, sum_take_succ_getD s k (by omega)]
        by_cases hlt : sa + s.getD k 0 < l
        · rw [if_pos hlt] at h
          by_cases hz : k1 = 0
          · rw [if_pos hz] at h
            exact absurd h (by simp)
          · rw [if_neg hz] at h
            by_cases hbd : s.length < (k1 - 1) + 1
            · rw [if_pos hbd] at h
              exact absurd h (by simp)
            · rw [if_neg hbd] at h
              have hk1 : 1 ≤ k1 := Nat.one_le_iff_ne_zero.2 hz
              -- entry facts for the inner loop
              have hext := windowSum_extend s k k1 hk1 hrange
              have hidx : s.length - k1 < s.length := by omega
              have hd := sum_drop_getD s (s.length - k1) hidx
              have e1 : s.length - (k1 - 1) - 1 = s.length - k1 := by omega
              have e2 : s.length - k1 + 1 = s.length - (k1 - 1) := by omega
              rw [e2] at hd
              rcases hInner : nsInner s l (sa + s.getD k 0) (k + 1) (s.length + 1)
                  (sb + s.getD (s.length - (k1 - 1) - 1) 0,
                   sc - s.getD (s.length - (k1 - 1) - 1) 0, k1 - 1) with _ | res2
              · rw [hInner] at h
                exact absurd h (by simp)
              · rw [hInner] at h
                obtain ⟨sb2, sc2, k12⟩ := res2
                have hI := nsInner_spec s l (sa + s.getD k 0) (k + 1)
                  (s.length + 1) _ _ (k1 - 1) ?_ ?_ (by omega) _ hInner
                · exact ih _ _ _ (k + 1) k12 hsa2 hI.1 hI.2.1 hI.2.2.1
                    (Or.inl hI.2.2.2) l1 r1 h
                · rw [e1, hsb, hext]
                · rw [e1, hsc, hd]
                  ring
        · rw [if_neg hlt] at h
          have := nsMain_ge_false s l r fuel (sa + s.getD k 0) sb sc (k + 1) k1
            (by omega) _ h
          simp at this
    · rw [if_neg hcond] at h
      rw [Option.some.injEq] at h
      injection h with h1 h23
      injection h23 with h2 h3
      have hsalt : sa < l := of_decide_eq_true h1
      have hscl : sa + sc < l := by
        rcases hB with hB | hB
        · exact hB
        · omega
      have hrb : r < sb := by
        by_contra hc
        exact hcond ⟨hsalt, by omega⟩
      refine ⟨k, k1, hrange, ?_, ?_, ?_, ?_⟩
      · rw [← h2, hsa, hsc]
      · rw [← h3, hsb]
      · rw [← h2]
        exact hscl
      · rw [← h3]
        exact hrb

lemma noSum_true_spec (s : List Int) (l r : Int) (l1 r1 : Int)
    (h : noSum s l r = some (true, l1, r1)) :
    ∃ kf k1f : Nat, kf + k1f + 1 ≤ s.length ∧
      l1 = (s.take kf).sum + (s.drop (s.length - k1f)).sum ∧
      r1 = windowSum s kf k1f ∧ l1 < l ∧ r < r1 := by
  rw [noSum] at h
  by_cases hg : l ≤ 0 ∨ r ≥ s.sum
  · rw [if_pos hg] at h
    simp at h
  · rw [if_neg hg] at h
    push_neg at hg
    rcases hInit : nsInit s l (s.length + 1) 0 0 with _ | res0
    · rw [hInit] at h
      dsimp only at h
      exact absurd h (by simp)
    · rw [hInit] at h
      obtain ⟨sc, k1⟩ := res0
      dsimp only at h
      have hI := nsInit_spec s l (s.length + 1) 0 0 (by simp) (by omega) _ hInit
      by_cases hb : s.length < k1 + 1
      · rw [if_pos hb] at h
        exact absurd h (by simp)
      · rw [if_neg hb] at h
        exact nsMain_spec s l r (s.length + 1) 0 _ sc 0 k1 (by simp)
          (windowSum_zero s k1 (by omega)).symm hI.1 (by omega)
          (Or.inl (by have := hI.2.1; omega)) l1 r1 h

lemma noSum_no_subset_sum (s : List Int) (l r : Int)
    (hs : s.Pairwise (· ≥ ·)) (hpos : ∀ x ∈ s, (0:Int) < x)
    (l1 r1 : Int) (h : noSum s l r = some (true, l1, r1)) :
    l1 < l ∧ r < r1 ∧
      ∀ N : List Int, N.Sublist s → N.sum ≤ l1 ∨ r1 ≤ N.sum := by
  obtain ⟨kf, k1f, hrange, hl1, hr1, hlt, hgt⟩ := noSum_true_spec s l r l1 r1 h
  refine ⟨hlt, hgt, ?_⟩
  intro N hN
  rcases noGap s hs hpos kf k1f hrange N hN with h1 | h1
  · left
    rw [hl1]
    exact h1
  · right
    rw [hr1]
    exact h1


/-! ### Claim theorems -/

open SmallDomain

/-- C9: calling `value()` on a `Variable` whose domain is not a singleton
panics (modelled as `none`) and in particular never touches the shared
failed flag, while on a singleton domain it returns the unique remaining
value and changes nothing (the Rust method takes `&self`). -/
theorem C9_value_panics_on_unassigned (d : SmallDomain) (h : WF d) :
    (Variable.value d).2 = false ∧
    ((Variable.value d).1 = none ↔ size d ≠ 1) ∧
    (∀ x, (Variable.value d).1 = some x →
      possible d x = true ∧ ∀ y, possible d y = true → y = x) := by
  refine ⟨rfl, ?_, ?_⟩
  · by_cases hq : getLb d = getUb d
    · have hlbub : d.lb = d.ub := by rw [getLb, getUb] at hq; omega
      have hsz : size d = 1 := h.lb_eq_ub_iff_size_one.1 hlbub
      rw [Variable.value]
      simp [hq, hsz]
    · have hlbub : d.lb ≠ d.ub := fun c => hq (by rw [getLb, getUb, c])
      have hsz : size d ≠ 1 := fun c => hlbub (h.lb_eq_ub_iff_size_one.2 c)
      rw [Variable.value]
      simp [hq, hsz]
  · intro x hx
    rw [Variable.value] at hx
    by_cases hq : getLb d = getUb d
    · simp only [hq, ne_eq, not_true_eq_false, if_false, Option.some.injEq] at hx
      have hlbub : d.lb = d.ub := by rw [getLb, getUb] at hq; omega
      subst hx
      have hrange : ¬(getUb d < d.start ∨ getUb d ≥ d.start + 64) := by
        rw [getUb]
        have := h.ub_lt_64
        omega
      constructor
      · rw [possible, if_neg hrange]
        have hv : ((getUb d : Int) - d.start).toNat = d.ub := by
          rw [getUb]; omega
        rw [hv]
        simp only [decide_eq_true_eq]
        exact land_shift_pos_iff.2 h.2.2.2.1
      · intro y hy
        rw [possible] at hy
        by_cases hr : y < d.start ∨ y ≥ d.start + 64
        · rw [if_pos hr] at hy; exact absurd hy (by simp)
        · rw [if_neg hr] at hy
          simp only [decide_eq_true_eq] at hy
          have hb := land_shift_pos_iff.1 hy
          have := h.testBit_le hb
          have hyv : (y - d.start).toNat = d.ub := by omega
          rw [getUb]
          omega
    · simp [hq] at hx

/-- Witness for C9 at the concrete domain `new(0, 5)` narrowed to the
singleton case by assigning first. -/
theorem C9_value_panics_on_unassigned_witness :
    WF (SmallDomain.init 0 5) ∧
    ((Variable.value (SmallDomain.init 0 5)).2 = false ∧
    ((Variable.value (SmallDomain.init 0 5)).1 = none ↔ size (SmallDomain.init 0 5) ≠ 1) ∧
    (∀ x, (Variable.value (SmallDomain.init 0 5)).1 = some x →
      possible (SmallDomain.init 0 5) x = true ∧
      ∀ y, possible (SmallDomain.init 0 5) y = true → y = x)) :=
  ⟨by decide, C9_value_panics_on_unassigned _ (by decide)⟩

/-- C6 (code bug): `SmallDomain::set_lb` with an in-word argument above the
current upper bound empties the bitmap yet returns `Modified` and never
calls `solver_state.fail()`, unlike `BitsetDomain::set_lb` and unlike the
failure handling of `remove` that the claim (and spec §4.1) prescribe. -/
theorem C6_small_set_lb_empties_without_failure :
    (SmallDomain.setLb (SmallDomain.init 0 5) 10).dom.body = 0 ∧
    (SmallDomain.setLb (SmallDomain.init 0 5) 10).state = DomainState.Modified ∧
    (SmallDomain.setLb (SmallDomain.init 0 5) 10).failed = false := by
  refine ⟨?_, ?_, ?_⟩ <;> decide

/-- C5 counterexample: `Variable::assign` on the domain `{0, 1}` with value
`1` moves the lower bound, yet the fired events are `[Assigned, Modified]`
with no `LowerBound`, contradicting the claimed event list. -/
theorem C5_counterexample :
    SmallDomain.getLb (Variable.assign (SmallDomain.init 0 1) 1).1.dom ≠
      SmallDomain.getLb (SmallDomain.init 0 1) ∧
    (Variable.assign (SmallDomain.init 0 1) 1).2 ≠
      claimedEventsC5 (SmallDomain.init 0 1) (Variable.assign (SmallDomain.init 0 1) 1).1.dom := by
  refine ⟨?_, ?_⟩ <;> decide

/-- C5 (amended): listeners are notified exactly as the Rust code fires
them — `assign` fires `[Assigned, Modified]` precisely when the domain
changed and never a bound event; `set_lb` fires `[LowerBound, Modified]`
and `set_ub` fires `[UpperBound, Modified]` precisely when the domain
changed, never `Assigned`; `remove` fires `LowerBound`/`UpperBound`
(before mutating) precisely when the argument equals that bound — such an
argument is always present, so the domain genuinely changes — followed by
`Modified` precisely when the removal changed the domain without emptying
it. -/
theorem C5_amended_events (d : SmallDomain) (h : WF d) (x : Int) :
    ((Variable.assign d x).2 =
      if (Variable.assign d x).1.dom.body ≠ d.body
      then [Event.Assigned, Event.Modified] else []) ∧
    ((Variable.setLb d x).2 =
      if (Variable.setLb d x).1.dom.body ≠ d.body
      then [Event.LowerBound, Event.Modified] else []) ∧
    ((Variable.setUb d x).2 =
      if (Variable.setUb d x).1.dom.body ≠ d.body
      then [Event.UpperBound, Event.Modified] else []) ∧
    ((Variable.remove d x).2 =
      (if getLb d = x then [Event.LowerBound] else []) ++
      (if getUb d = x then [Event.UpperBound] else []) ++
      (if (Variable.remove d x).1.dom.body ≠ d.body ∧ (Variable.remove d x).1.failed = false
       then [Event.Modified] else [])) ∧
    (getLb d = x → (Variable.remove d x).1.dom.body ≠ d.body) := by
  have hb : d.body < 2 ^ 64 := h.2.1
  refine ⟨?_, ?_, ?_, ?_, ?_⟩
  · -- assign
    by_cases hr : x < d.start ∨ x ≥ d.start + 64
    · simp [Variable.assign, SmallDomain.assign, hr]
    · by_cases habs : d.body &&& (1 <<< (x - d.start).toNat) = 0
      · simp [Variable.assign, SmallDomain.assign, hr, habs]
      · have hnz : (1 : Nat) <<< (x - d.start).toNat ≠ 0 := by
          rw [Nat.shiftLeft_eq, one_mul]
          positivity
        by_cases hmod : d.body = 1 <<< (x - d.start).toNat
        · simp [Variable.assign, SmallDomain.assign, hr, habs, hmod, hnz]
        · simp [Variable.assign, SmallDomain.assign, hr, habs, hmod, Ne.symm hmod]
  · -- set_lb
    by_cases h1 : x < d.start
    · simp [Variable.setLb, SmallDomain.setLb, h1]
    · by_cases h2 : x ≥ d.start + 64
      · simp [Variable.setLb, SmallDomain.setLb, h1, h2]
      · by_cases h3 : (x - d.start).toNat > d.lb
        · cases hflag : (clearRange d.body d.lb (x - d.start).toNat).2 with
          | false =>
            have heq : (clearRange d.body d.lb (x - d.start).toNat).1 = d.body :=
              (clearRange_eq_self_iff hb).2 hflag
            simp [Variable.setLb, SmallDomain.setLb, h1, h2, h3, hflag, heq]
          | true =>
            have hne : (clearRange d.body d.lb (x - d.start).toNat).1 ≠ d.body := by
              intro heq
              rw [(clearRange_eq_self_iff hb).1 heq] at hflag
              exact Bool.false_ne_true hflag
            simp [Variable.setLb, SmallDomain.setLb, h1, h2, h3, hflag, hne]
        · simp [Variable.setLb, SmallDomain.setLb, h1, h2, h3]
  · -- set_ub
    by_cases h1 : x < d.start
    · simp [Variable.setUb, SmallDomain.setUb, h1]
    · by_cases h2 : x ≥ d.start + 64
      · simp [Variable.setUb, SmallDomain.setUb, h1, h2]
      · by_cases h3 : (x - d.start).toNat < d.ub
        · cases hflag : (clearRange d.body ((x - d.start).toNat + 1) (d.ub + 1)).2 with
          | false =>
            have heq : (clearRange d.body ((x - d.start).toNat + 1) (d.ub + 1)).1 = d.body :=
              (clearRange_eq_self_iff hb).2 hflag
            simp [Variable.setUb, SmallDomain.setUb, h1, h2, h3, hflag, heq]
          | true =>
            have hne : (clearRange d.body ((x - d.start).toNat + 1) (d.ub + 1)).1 ≠ d.body := by
              intro heq
              rw [(clearRange_eq_self_iff hb).1 heq] at hflag
              exact Bool.false_ne_true hflag
            simp [Variable.setUb, SmallDomain.setUb, h1, h2, h3, hflag, hne]
        · simp [Variable.setUb, SmallDomain.setUb, h1, h2, h3]
  · -- remove: the event equation
    by_cases hr : x < d.start ∨ x ≥ d.start + 64
    · have hlbne : getLb d ≠ x := by
        have := h.lb_lt_64
        rw [getLb]
        omega
      have hubne : getUb d ≠ x := by
        have := h.ub_lt_64
        rw [getUb]
        omega
      rw [Variable.remove, remove_out_of_range hr]
      simp [hlbne, hubne]
    · have hv64 : (x - d.start).toNat < 64 := by omega
      by_cases hz : (d.discard (x - d.start).toNat).body = 0
      · rw [Variable.remove, remove_empties hr hz]
        simp
      · obtain ⟨hbody, hfail, hstate⟩ := remove_nonempty hr hz
        rw [Variable.remove]
        by_cases hm : 0 < d.body &&& (1 <<< (x - d.start).toNat)
        · have hst : (SmallDomain.remove d x).state = DomainState.Modified := hstate.2 hm
          have hchanged : (SmallDomain.remove d x).dom.body ≠ d.body := by
            rw [hbody]
            exact (discard_changes_iff hb hv64).2 (land_shift_pos_iff.1 hm)
          simp [hst, hchanged, hfail]
        · have hst : ¬((SmallDomain.remove d x).state = DomainState.Modified) :=
            fun c => hm (hstate.1 c)
          have hsame : (SmallDomain.remove d x).dom.body = d.body := by
            rw [hbody]
            by_contra hc
            exact hm (land_shift_pos_iff.2 ((discard_changes_iff hb hv64).1 hc))
          simp [hst, hsame]
  · -- remove at the lower bound genuinely changes the domain
    intro hlb
    have hlb64 := h.lb_lt_64
    have hr : ¬(x < d.start ∨ x ≥ d.start + 64) := by
      rw [getLb] at hlb
      omega
    have hv : (x - d.start).toNat = d.lb := by
      rw [getLb] at hlb
      omega
    have hbit : d.body.testBit (x - d.start).toNat = true := by
      rw [hv]
      exact h.2.2.1
    have hchanged : (d.discard (x - d.start).toNat).body ≠ d.body :=
      (discard_changes_iff hb (by omega)).2 hbit
    change (SmallDomain.remove d x).dom.body ≠ d.body
    by_cases hz : (d.discard (x - d.start).toNat).body = 0
    · rw [remove_empties hr hz]
      intro hc
      rw [hz] at hc
      exact h.1 hc.symm
    · rw [(remove_nonempty hr hz).1]
      exact hchanged

/-- C10: when a variable with the requested name already exists,
`Solver::new_variable` returns that variable and leaves the whole solver
state untouched, ignoring the `lb`/`ub` arguments entirely; only
`new_variable_strict` compares the requested bounds with the existing
variable's and rejects a mismatch. -/
theorem C10_new_variable_ignores_bounds (s : Solver) (name : String) (v : Nat)
    (h : s.lookupVar name = some v) (lb ub : Int) :
    s.newVariable lb ub name = (v, s) ∧
    (((s.vars.getD v ⟨"", Sum.inl (SmallDomain.init 0 0)⟩).getLb ≠ lb ∨
      (s.vars.getD v ⟨"", Sum.inl (SmallDomain.init 0 0)⟩).getUb ≠ ub) →
      s.newVariableStrict lb ub name = none) := by
  constructor
  · simp only [Solver.newVariable, h]
  · intro hne
    simp only [Solver.newVariableStrict, h]
    rw [if_pos hne]

/-- Witness for C10: a solver holding the variable `x` with bounds
`[0, 5]`; `new_variable(7, 9, "x")` returns it unchanged and
`new_variable_strict(7, 9, "x")` rejects. -/
theorem C10_new_variable_ignores_bounds_witness :
    (Solver.newVariable ⟨[], []⟩ 0 5 "x").2.newVariable 7 9 "x" =
      (0, (Solver.newVariable ⟨[], []⟩ 0 5 "x").2) ∧
    (Solver.newVariable ⟨[], []⟩ 0 5 "x").2.newVariableStrict 7 9 "x" = none := by
  have h := C10_new_variable_ignores_bounds
    (Solver.newVariable ⟨[], []⟩ 0 5 "x").2 "x" 0 (by decide) 7 9
  exact ⟨h.1, h.2 (by decide)⟩

/-- Witness for the amended C5 theorem at the concrete domain
`new(0, 5)` and argument `3`. -/
theorem C5_amended_events_witness :
    WF (SmallDomain.init 0 5) ∧
    (Variable.setLb (SmallDomain.init 0 5) 3).2 =
      [Event.LowerBound, Event.Modified] :=
  ⟨by decide, by
    have := (C5_amended_events (SmallDomain.init 0 5) (by decide) 3).2.1
    rw [this]
    decide⟩

/-- C7 counterexample: the reschedule path breaks `queued ⇒
has_new_events`.  Starting from an idle propagator 0, an external event
queues it (`notify_listeners`), the fixpoint loop pops it and clears its
flags, a self-notification during its own `propagate` only sets
`resched_current` (the `try_borrow_mut` fails), and the `Normal` epilogue
re-enqueues the non-idempotent propagator without any `new_event` call:
the final state has `queued = true` and `has_new_events = false`. -/
theorem C7_counterexample :
    (finishStep false (notifyStep (popStep (notifyStep
        ⟨[], [false], [false], false, none⟩ 0)) 0)).queued.getD 0 false = true ∧
    (finishStep false (notifyStep (popStep (notifyStep
        ⟨[], [false], [false], false, none⟩ 0)) 0)).hne.getD 0 false = false := by
  decide

/-- C7 (amended): the queue-discipline half of the claim holds — every
step of event dispatch and of the propagation fixpoint loop preserves
`QueueInv`, so the FIFO never holds two entries for the same propagator
and the `queued` flags track queue membership exactly — while the
`queued ⇒ has_new_events` half fails at the reschedule step
(src/src/search.rs:171-177), which re-enqueues the just-run
non-idempotent propagator without raising `has_new_events`. -/
theorem C7_amended_queue_discipline (s : PropQueueState) (q : Nat) (idem : Bool)
    (h : QueueInv s) (hq : q < s.queued.length) :
    QueueInv (notifyStep s q) ∧ QueueInv (popStep s) ∧
    QueueInv (finishStep idem s) ∧ QueueInv (drainStep s) := by
  obtain ⟨hiff, hnd, hcur, hmem⟩ := h
  refine ⟨?_, ?_, ?_, ?_⟩
  · rw [notifyStep]
    by_cases hc : s.current = some q
    · rw [if_pos hc]
      exact ⟨hiff, hnd, hcur, hmem⟩
    · rw [if_neg hc]
      by_cases hqd : s.queued.getD q false
      · simp only [if_pos hqd]
        exact ⟨hiff, hnd, hcur, hmem⟩
      · simp only [if_neg hqd]
        have hqnot : q ∉ s.queue := fun hc2 => hqd ((hiff q).2 hc2)
        refine ⟨?_, ?_, ?_, ?_⟩
        · intro i
          show (s.queued.set q true).getD i false = true ↔ i ∈ s.queue ++ [q]
          by_cases hiq : i = q
          · subst hiq
            rw [getD_set_self_any hq]
            simp
          · rw [getD_set_ne_any q i _ _ (fun c => hiq c.symm), List.mem_append]
            constructor
            · exact fun ht => Or.inl ((hiff i).1 ht)
            · intro hm
              rcases hm with hm | hm
              · exact (hiff i).2 hm
              · exact absurd (by simpa using hm) hiq
        · show (s.queue ++ [q]).Nodup
          rw [List.nodup_append]
          refine ⟨hnd, by simp, ?_⟩
          intro a ha hb
          rw [List.mem_singleton] at hb
          subst hb
          exact hqnot ha
        · intro p hp
          have hp2 := hcur p hp
          have hpq : p ≠ q := fun c => hc (by rw [← c]; exact hp)
          refine ⟨?_, ?_⟩
          · show (s.queued.set q true).getD p false = false
            rw [getD_set_ne_any q p _ _ (fun c => hpq c.symm)]
            exact hp2.1
          · show p < (s.queued.set q true).length
            rw [List.length_set]
            exact hp2.2
        · intro i hi
          show i < (s.queued.set q true).length
          rw [List.length_set]
          rcases List.mem_append.1 hi with hm | hm
          · exact hmem i hm
          · rw [List.mem_singleton] at hm
            subst hm
            exact hq
  · cases hQ : s.queue with
    | nil =>
      simp only [popStep, hQ]
      exact ⟨hiff, hnd, hcur, hmem⟩
    | cons p rest =>
      simp only [popStep, hQ]
      have hplen : p < s.queued.length :=
        hmem p (by rw [hQ]; exact List.mem_cons_self _ _)
      have hndq : (p :: rest).Nodup := by
        rw [← hQ]
        exact hnd
      have hpnotr : p ∉ rest := (List.nodup_cons.1 hndq).1
      refine ⟨?_, ?_, ?_, ?_⟩
      · intro i
        show (s.queued.set p false).getD i false = true ↔ i ∈ rest
        by_cases hip : i = p
        · subst hip
          rw [getD_set_self_any hplen]
          simp [hpnotr]
        · rw [getD_set_ne_any p i _ _ (fun c => hip c.symm), hiff i, hQ]
          constructor
          · intro hm
            rcases List.mem_cons.1 hm with heq | hm2
            · exact absurd heq hip
            · exact hm2
          · exact fun hm => List.mem_cons_of_mem _ hm
      · exact (List.nodup_cons.1 hndq).2
      · intro p2 hp2
        have hp2' : some p = some p2 := hp2
        injection hp2' with hpp
        subst hpp
        refine ⟨?_, ?_⟩
        · show (s.queued.set p false).getD p false = false
          rw [getD_set_self_any hplen]
        · show p < (s.queued.set p false).length
          rw [List.length_set]
          exact hplen
      · intro i hi
        show i < (s.queued.set p false).length
        rw [List.length_set]
        apply hmem
        rw [hQ]
        exact List.mem_cons_of_mem _ hi
  · cases hC : s.current with
    | none =>
      simp only [finishStep, hC]
      exact ⟨hiff, hnd, hcur, hmem⟩
    | some p =>
      simp only [finishStep, hC]
      obtain ⟨hpq, hplen⟩ := hcur p hC
      by_cases hrs : s.resched && !idem
      · rw [if_pos hrs]
        have hpnot : p ∉ s.queue := by
          intro hc2
          have h3 := (hiff p).2 hc2
          rw [h3] at hpq
          simp at hpq
        refine ⟨?_, ?_, ?_, ?_⟩
        · intro i
          show (s.queued.set p true).getD i false = true ↔ i ∈ s.queue ++ [p]
          by_cases hip : i = p
          · subst hip
            rw [getD_set_self_any hplen]
            simp
          · rw [getD_set_ne_any p i _ _ (fun c => hip c.symm), List.mem_append]
            constructor
            · exact fun ht => Or.inl ((hiff i).1 ht)
            · intro hm
              rcases hm with hm | hm
              · exact (hiff i).2 hm
              · exact absurd (by simpa using hm) hip
        · show (s.queue ++ [p]).Nodup
          rw [List.nodup_append]
          refine ⟨hnd, by simp, ?_⟩
          intro a ha hb
          rw [List.mem_singleton] at hb
          subst hb
          exact hpnot ha
        · intro p2 hp2
          exact Option.noConfusion hp2
        · intro i hi
          show i < (s.queued.set p true).length
          rw [List.length_set]
          rcases List.mem_append.1 hi with hm | hm
          · exact hmem i hm
          · rw [List.mem_singleton] at hm
            subst hm
            exact hplen
      · rw [if_neg hrs]
        exact ⟨hiff, hnd, fun p2 hp2 => Option.noConfusion hp2, hmem⟩
  · refine ⟨?_, List.nodup_nil, fun p hp => Option.noConfusion hp,
      fun i hi => absurd hi (List.not_mem_nil _)⟩
    intro i
    show (s.queue.foldl (fun qs p => qs.set p false) s.queued).getD i false = true ↔
      i ∈ ([] : List Nat)
    constructor
    · intro ht
      obtain ⟨h1, h2⟩ := foldl_set_false_getD hmem ht
      exact absurd ((hiff i).1 h1) h2
    · intro hc2
      exact absurd hc2 (List.not_mem_nil _)

/-- Witness for the amended C7 theorem at the one-propagator state whose
queue holds exactly propagator 0. -/
theorem C7_amended_queue_discipline_witness :
    QueueInv ⟨[0], [true], [true], false, none⟩ ∧
    (QueueInv (notifyStep ⟨[0], [true], [true], false, none⟩ 0) ∧
     QueueInv (popStep ⟨[0], [true], [true], false, none⟩) ∧
     QueueInv (finishStep true ⟨[0], [true], [true], false, none⟩) ∧
     QueueInv (drainStep ⟨[0], [true], [true], false, none⟩)) := by
  have hInv : QueueInv ⟨[0], [true], [true], false, none⟩ := by
    refine ⟨?_, by simp, ?_, ?_⟩
    · intro i
      rcases i with _ | j
      · simp
      · simp
    · intro p hp
      exact Option.noConfusion hp
    · intro i hi
      rw [List.mem_singleton] at hi
      subst hi
      simp
  exact ⟨hInv,
    C7_amended_queue_discipline ⟨[0], [true], [true], false, none⟩ 0 true hInv
      (by simp)⟩

/-- C2: `compute_scc` does not return a partition of the vertices — the
second Kosaraju pass calls `mark_component` with no `used` check, so an
already classified vertex is pushed again: on the two-cycle 0 ↔ 1 the
result is `[[0, 1], [1]]`, with vertex 1 in two returned components.
Moreover the genuine components come out sources first: on the single
edge 0 → 1 the result is `[[0], [1]]`, the topological order of the
condensation, not the claimed reverse topological order. -/
theorem C2_scc_duplicates_and_order :
    computeScc [[1], [0]] = [[0, 1], [1]] ∧ computeScc [[1], []] = [[0], [1]] := by
  decide

/-- C4: for both domain representations, a `checkpoint` followed by any
sequence of allowed mutations (assign, remove, set_lb, set_ub) that never
empty the domain, followed by `rollback`, restores the domain to its state
at the checkpoint: the compact representation returns to exactly the same
structure, and the bitset representation recovers the same block array
(the bitmap of present values), the same `size`, and the same
`get_lb`/`get_ub`. -/
theorem C4_checkpoint_rollback (sd : SmallDomain) (bd : BitsetDomain) (ms : List Mut)
    (hS : BitsetDomain.Shape bd) (hNE : BitsetDomain.NoEmpty bd.checkpoint ms) :
    SmallDomain.rollback (SmallDomain.applyMuts sd.checkpoint ms) = some sd ∧
    ∃ r, BitsetDomain.rollback (BitsetDomain.applyMuts bd.checkpoint ms) = some r ∧
      r.data = bd.data ∧ r.size = bd.size ∧
      BitsetDomain.getLb r = BitsetDomain.getLb bd ∧
      BitsetDomain.getUb r = BitsetDomain.getUb bd := by
  refine ⟨SmallDomain.small_checkpoint_rollback sd ms, ?_⟩
  obtain ⟨r, hr, hdata, hsize, hstart, hfb, hlb, hcp, htr⟩ :=
    BitsetDomain.checkpoint_rollback_restores bd ms hS hNE
  refine ⟨r, hr, hdata, hsize, ?_, ?_⟩
  · rw [BitsetDomain.getLb, BitsetDomain.getLb, hdata, hfb, hstart]
  · rw [BitsetDomain.getUb, BitsetDomain.getUb, hdata, hlb, hstart]

theorem C4_checkpoint_rollback_witness :
    BitsetDomain.Shape ⟨[3], 0, 0, 0, 2, [], [], [0]⟩ ∧
    BitsetDomain.NoEmpty
      (BitsetDomain.checkpoint ⟨[3], 0, 0, 0, 2, [], [], [0]⟩) [Mut.remove 0] ∧
    (SmallDomain.rollback (SmallDomain.applyMuts
        (SmallDomain.checkpoint ⟨3, 0, 0, 1, []⟩) [Mut.remove 0]) =
      some ⟨3, 0, 0, 1, []⟩ ∧
    ∃ r, BitsetDomain.rollback (BitsetDomain.applyMuts
        (BitsetDomain.checkpoint ⟨[3], 0, 0, 0, 2, [], [], [0]⟩) [Mut.remove 0]) =
        some r ∧
      r.data = (⟨[3], 0, 0, 0, 2, [], [], [0]⟩ : BitsetDomain).data ∧
      r.size = (⟨[3], 0, 0, 0, 2, [], [], [0]⟩ : BitsetDomain).size ∧
      BitsetDomain.getLb r = BitsetDomain.getLb ⟨[3], 0, 0, 0, 2, [], [], [0]⟩ ∧
      BitsetDomain.getUb r = BitsetDomain.getUb ⟨[3], 0, 0, 0, 2, [], [], [0]⟩) := by
  have hS : BitsetDomain.Shape ⟨[3], 0, 0, 0, 2, [], [], [0]⟩ := by
    refine ⟨by decide, by decide, by decide, by decide, by decide, by decide,
      by decide, ?_, by decide⟩
    intro i hi
    rcases i with _ | j
    · omega
    · rfl
  have hNE : BitsetDomain.NoEmpty
      (BitsetDomain.checkpoint ⟨[3], 0, 0, 0, 2, [], [], [0]⟩) [Mut.remove 0] := by
    refine ⟨?_, trivial⟩
    decide
  exact ⟨hS, hNE, C4_checkpoint_rollback ⟨3, 0, 0, 1, []⟩ ⟨[3], 0, 0, 0, 2, [], [], [0]⟩
    [Mut.remove 0] hS hNE⟩


/-- C1: for a descending-sorted slice of positive weights and `l ≤ r`,
whenever `no_sum(S, l, r)` returns `true`, no subset of `S` (each subset
of the multiset being a sublist of the sorted slice) has a sum in the
closed interval `[l, r]`; moreover the written witnesses satisfy
`l1 < l`, `r < r1`, and no subset sum lies strictly between `l1` and
`r1`, so `(l1, r1)` bounds an infeasible open interval containing
`[l, r]`. -/
theorem C1_no_sum_sound (s : List Int) (l r : Int)
    (hsort : s.Pairwise (· ≥ ·)) (hpos : ∀ x ∈ s, (0:Int) < x) (hlr : l ≤ r)
    (l1 r1 : Int) (h : noSum s l r = some (true, l1, r1)) :
    (∀ N : List Int, N.Sublist s → ¬(l ≤ N.sum ∧ N.sum ≤ r)) ∧
      l1 < l ∧ r < r1 ∧
      ∀ N : List Int, N.Sublist s → ¬(l1 < N.sum ∧ N.sum < r1) := by
  obtain ⟨hlt, hgt, hno⟩ := noSum_no_subset_sum s l r hsort hpos l1 r1 h
  refine ⟨?_, hlt, hgt, ?_⟩
  · intro N hN hin
    rcases hno N hN with h1 | h1 <;> omega
  · intro N hN hin
    rcases hno N hN with h1 | h1 <;> omega

theorem C1_no_sum_sound_witness :
    List.Pairwise (· ≥ ·) ([3, 2] : List Int) ∧
      (∀ x ∈ ([3, 2] : List Int), (0:Int) < x) ∧ (4:Int) ≤ 4 ∧
      noSum [3, 2] 4 4 = some (true, 3, 5) ∧
      ((∀ N : List Int, N.Sublist [3, 2] → ¬(4 ≤ N.sum ∧ N.sum ≤ 4)) ∧
        (3:Int) < 4 ∧ (4:Int) < 5 ∧
        ∀ N : List Int, N.Sublist [3, 2] → ¬(3 < N.sum ∧ N.sum < 5)) :=
  ⟨by decide, by decide, by decide, by decide,
    C1_no_sum_sound [3, 2] 4 4 (by decide) (by decide) (by decide) 3 5 (by decide)⟩

end Ezcp
